import Mathlib

/-!
# Q1 toolchain: assembler (`main.c`) and simulator (`q1sim.c`)

A shallow embedding of the two-pass assembler of the Q1 computer, with its
preprocessor, and of the simulator, and theorems about them.

Conventions of the embedding.

* A C string is a `List Char` without the terminating NUL.
* `unsigned int` values are natural numbers reduced modulo `2 ^ 32` at every
  operation that can wrap.
* `error_count` is a C `int`; it is modelled by a natural number (signed
  overflow has no defined behaviour to model).
* The process globals (`error_count`, `symbols`, `current_address`,
  `byte_count`) and the text written to the standard error stream are the
  fields of `AsmState`, passed explicitly.
* A function whose C text can read outside its data returns
  `Except Fault _`; `Fault` says which read it was.
* The files that `main` opens are the fields of `Environment`; a stream is
  the list of its characters, an output file the list of its bytes.
* The namespace `Compiled` holds `GetStatement`, the two passes, the
  preprocessor and `main` as the compiled program runs them where the C text
  reads in front of a buffer or behind the end of a string.
* The simulator is the namespace `Sim`: its globals are the fields of
  `Sim.State`, natural numbers that every assignment reduces to the width of
  the C variable.
-/

namespace Q1

/-! ## Constants and types -/

def INVALID_OP : Nat := 0xFF
def BYTE_OP : Nat := 0xFE
def WORD_OP : Nat := 0xFD

/-- The modulus of `unsigned int` arithmetic. -/
def UINT_SIZE : Nat := 4294967296

/-- The largest `unsigned long` (LP64), the value `strtoul` returns on overflow. -/
def ULONG_MAX : Nat := 18446744073709551615

instance instDecidableEqExcept {ε α : Type} [DecidableEq ε] [DecidableEq α] :
    DecidableEq (Except ε α)
  | .ok a, .ok b => if h : a = b then isTrue (by rw [h]) else isFalse (by simp [h])
  | .error a, .error b => if h : a = b then isTrue (by rw [h]) else isFalse (by simp [h])
  | .ok _, .error _ => isFalse (by simp)
  | .error _, .ok _ => isFalse (by simp)

/-- The ways in which the C text leaves defined behaviour in this model. -/
inductive Fault where
  /-- `Eval4` dereferences `*tp` when the token cursor is `NULL`. -/
  | nullDeref
  /-- `TrimWhitespace` reads `line[x - 1]` with `x = 0`. -/
  | outOfBounds
  /-- The budget of a loop or recursion of the model is exhausted (never with
  the budgets that `Evaluate`, `DoFirstPass` and `DoSecondPass` give). -/
  | outOfFuel
  deriving DecidableEq, Repr

structure StatementType where
  arg : Option (List Char)
  op : Nat
  deriving DecidableEq, Repr

structure InstructionMapType where
  name : List Char
  opcode : Nat
  arg_count : Nat
  deriving DecidableEq, Repr

structure SymbolNode where
  name : List Char
  addr : Nat
  deriving DecidableEq, Repr

/-- A token: the `TokenType` tag with the member of the union it selects. -/
inductive TokenNode where
  | TOK_INVALID
  | TOK_SYMBOL (symbol : List Char)
  | TOK_VALUE (value : Nat)
  | TOK_ADD
  | TOK_SUBTRACT
  | TOK_MULTIPLY
  | TOK_DIVIDE
  | TOK_LPAREN
  | TOK_RPAREN
  deriving DecidableEq, Repr

open TokenNode

def INSTRUCTION_MAP : List InstructionMapType :=
  [
    -- J-class
    ⟨"j".toList, 0x00, 1⟩, ⟨"jc".toList, 0x01, 1⟩, ⟨"jz".toList, 0x02, 1⟩,
    ⟨"jcz".toList, 0x03, 1⟩, ⟨"jn".toList, 0x04, 1⟩, ⟨"jcn".toList, 0x05, 1⟩,
    ⟨"jzn".toList, 0x06, 1⟩, ⟨"jczn".toList, 0x07, 1⟩, ⟨"c".toList, 0x08, 1⟩,
    ⟨"cc".toList, 0x09, 1⟩, ⟨"cz".toList, 0x0A, 1⟩, ⟨"ccz".toList, 0x0B, 1⟩,
    ⟨"cn".toList, 0x0C, 1⟩, ⟨"ccn".toList, 0x0D, 1⟩, ⟨"czn".toList, 0x0E, 1⟩,
    ⟨"cczn".toList, 0x0F, 1⟩,
    -- LS-class
    ⟨"ldb".toList, 0x10, 1⟩, ⟨"ldc".toList, 0x11, 1⟩, ⟨"lxh".toList, 0x12, 1⟩,
    ⟨"lxl".toList, 0x13, 1⟩, ⟨"stb".toList, 0x14, 1⟩, ⟨"stc".toList, 0x15, 1⟩,
    ⟨"sxh".toList, 0x16, 1⟩, ⟨"sxl".toList, 0x17, 1⟩, ⟨"sta".toList, 0x18, 1⟩,
    -- A-class
    ⟨"and".toList, 0x20, 0⟩, ⟨"or".toList, 0x21, 0⟩, ⟨"shl".toList, 0x22, 0⟩,
    ⟨"shr".toList, 0x23, 0⟩, ⟨"add".toList, 0x24, 0⟩, ⟨"inc".toList, 0x25, 0⟩,
    ⟨"dec".toList, 0x26, 0⟩, ⟨"not".toList, 0x27, 0⟩, ⟨"clr".toList, 0x28, 0⟩,
    -- M-class
    ⟨"mab".toList, 0x30, 0⟩, ⟨"mac".toList, 0x31, 0⟩, ⟨"sax".toList, 0x32, 0⟩,
    ⟨"sbx".toList, 0x33, 0⟩, ⟨"scx".toList, 0x34, 0⟩, ⟨"lbx".toList, 0x35, 0⟩,
    ⟨"lcx".toList, 0x36, 0⟩, ⟨"ret".toList, 0x37, 0⟩, ⟨"hlt".toList, 0x38, 0⟩,
    -- Pseudo-instructions
    ⟨"db".toList, BYTE_OP, 1⟩, ⟨"dw".toList, WORD_OP, 1⟩ ]

inductive OutputFormat where
  | OUT_LISTING
  | OUT_RAW
  | OUT_HEX
  deriving DecidableEq, Repr

open OutputFormat

/-- The process globals of the assembler, with the lines written to the
standard error stream (`stderr`, oldest first). -/
structure AsmState where
  error_count : Nat
  symbols : List SymbolNode
  current_address : Nat
  byte_count : Nat
  stderr : List String
  deriving DecidableEq, Repr

/-- What `fprintf(stderr, ...)` does to the state. -/
def AsmState.report (s : AsmState) (msg : String) : AsmState :=
  { s with stderr := s.stderr ++ [msg] }

/-- The globals as `main` sets them before preprocessing. -/
def AsmState.init : AsmState :=
  { error_count := 0, symbols := [], current_address := 0, byte_count := 0, stderr := [] }

/-! ## Character classes and `strtoul` -/

/-- The `isspace` of the C locale: space, `\t`, `\n`, `\v`, `\f`, `\r`. -/
def isspace (c : Char) : Bool :=
  c = ' ' || c = '\t' || c = '\n' || c = '\x0b' || c = '\x0c' || c = '\r'

/-- The value of a character as a digit of `strtoul`, in any base up to 36. -/
def digitVal (c : Char) : Option Nat :=
  if '0' ≤ c ∧ c ≤ '9' then some (c.toNat - 48)
  else if 'a' ≤ c ∧ c ≤ 'z' then some (c.toNat - 97 + 10)
  else if 'A' ≤ c ∧ c ≤ 'Z' then some (c.toNat - 65 + 10)
  else none

/-- Whether `c` is a digit of the base. -/
def isDigitOf (base : Nat) (c : Char) : Bool :=
  match digitVal c with
  | some d => decide (d < base)
  | none => false

/-- The digit loop of `strtoul`: the value accumulated over the longest run of
digits of the base, with the number of characters read. -/
def strtoulDigits (base : Nat) : List Char → Nat → Nat → Nat × Nat
  | [], acc, n => (acc, n)
  | c :: cs, acc, n =>
    match digitVal c with
    | some d => if d < base then strtoulDigits base cs (acc * base + d) (n + 1) else (acc, n)
    | none => (acc, n)

/-- The length of the prefix `0x` that `strtoul` skips: 2 in base 16 when the
text starts with `0x` or `0X` and a hexadecimal digit follows, else 0. -/
def strtoulPrefixLength (base : Nat) : List Char → Nat
  | '0' :: x :: h :: _ =>
    if base = 16 ∧ (x = 'x' ∨ x = 'X') ∧ isDigitOf 16 h = true then 2 else 0
  | _ => 0

/-- C `strtoul(nptr, &endptr, base)` for base 2, 10 or 16: leading white space,
an optional sign, for base 16 an optional `0x` in front of a hexadecimal digit,
then digits. The result is the `unsigned long` value and `endptr - nptr`;
without a digit nothing is converted (value 0, `endptr = nptr`). Overflow
gives `ULONG_MAX`; a minus sign negates in `unsigned long`. -/
def strtoul (base : Nat) (nptr : List Char) : Nat × Nat :=
  let ws := (nptr.takeWhile isspace).length
  let s1 := nptr.dropWhile isspace
  let neg := s1.head? = some '-'
  let sg := if s1.head? = some '-' ∨ s1.head? = some '+' then 1 else 0
  let s2 := s1.drop sg
  let px := strtoulPrefixLength base s2
  let r := strtoulDigits base (s2.drop px) 0 0
  if r.2 = 0 then (0, 0)
  else if r.1 > ULONG_MAX then (ULONG_MAX, ws + sg + px + r.2)
  else if neg then ((ULONG_MAX + 1 - r.1) % (ULONG_MAX + 1), ws + sg + px + r.2)
  else (r.1, ws + sg + px + r.2)

/-! ## Line preparation -/

/-- `StripWhitespace` from position `x`: `c` is `line[x]`, the argument is the
text from `line[x + 1]`. While both `line[x]` and `line[x + 1]` are white
space, `line[x + 1]` is deleted. -/
def StripWhitespaceFrom (c : Char) : List Char → List Char
  | [] => [c]
  | d :: rest =>
    if isspace c && isspace d then StripWhitespaceFrom c rest
    else c :: StripWhitespaceFrom d rest

def StripWhitespace : List Char → List Char
  | [] => []
  | c :: rest => StripWhitespaceFrom c rest

def StripComments (line : List Char) : List Char :=
  line.takeWhile (fun c => c ≠ ';')

/-- `TrimWhitespace`. The first loop deletes leading white space. The second
starts at `x = strlen(line)` and tests `line[x - 1]`: when the string is empty
by then, that is a read in front of the buffer, here a fault;
`Compiled.TrimWhitespace` follows the compiled program through it. -/
def TrimWhitespace (line : List Char) : Except Fault (List Char) :=
  match line.dropWhile isspace with
  | [] => .error .outOfBounds
  | c :: rest => .ok ((c :: rest).rdropWhile isspace)

def ToLowerChar (ch : Char) : Char :=
  if 'A' ≤ ch ∧ ch ≤ 'Z' then Char.ofNat (ch.toNat - 65 + 97) else ch

def ToLower (line : List Char) : List Char :=
  line.map ToLowerChar

/-! ## The symbol table -/

def FindSymbol (symbols : List SymbolNode) (name : List Char) : Option SymbolNode :=
  symbols.find? (fun np => np.name = name)

/-- `AddSymbol`: the return code and the table afterwards. -/
def AddSymbol (symbols : List SymbolNode) (name : List Char) (value : Nat) :
    Bool × List SymbolNode :=
  match FindSymbol symbols name with
  | some _ => (false, symbols)
  | none => (true, { name := name, addr := value } :: symbols)

/-! ## The tokenizer -/

/-- A character that continues a symbol. -/
def symbolChar (c : Char) : Bool :=
  ('a' ≤ c && c ≤ 'z') || ('0' ≤ c && c ≤ '9') || c = '_'

/-- `Tokenize` from position `x` of the expression. The first argument is the
number of characters the previous token still covers (`endptr` lies that far
ahead); with 0 the next character starts a token or is white space. -/
def TokenizeFrom : Nat → List Char → List TokenNode
  | _, [] => []
  | skip + 1, _ :: rest => TokenizeFrom skip rest
  | 0, c :: rest =>
    if '0' ≤ c ∧ c ≤ '9' then
      let r := strtoul 10 (c :: rest)
      TOK_VALUE (r.1 % UINT_SIZE) :: TokenizeFrom (r.2 - 1) rest
    else if c = '$' then
      let r := strtoul 16 rest
      TOK_VALUE (r.1 % UINT_SIZE) :: TokenizeFrom r.2 rest
    else if c = '%' then
      let r := strtoul 2 rest
      TOK_VALUE (r.1 % UINT_SIZE) :: TokenizeFrom r.2 rest
    else if c = '+' then TOK_ADD :: TokenizeFrom 0 rest
    else if c = '-' then TOK_SUBTRACT :: TokenizeFrom 0 rest
    else if c = '*' then TOK_MULTIPLY :: TokenizeFrom 0 rest
    else if c = '/' then TOK_DIVIDE :: TokenizeFrom 0 rest
    else if c = '(' then TOK_LPAREN :: TokenizeFrom 0 rest
    else if c = ')' then TOK_RPAREN :: TokenizeFrom 0 rest
    else if c = ' ' ∨ c = '\t' ∨ c = '\r' ∨ c = '\n' then TokenizeFrom 0 rest
    else
      TOK_SYMBOL (c :: rest.takeWhile symbolChar)
        :: TokenizeFrom (rest.takeWhile symbolChar).length rest

def Tokenize (expr : List Char) : List TokenNode :=
  TokenizeFrom 0 expr

/-! ## The evaluator -/

/-- What an `EvalN` call leaves: its result, the token cursor `*tp` and the
globals. -/
abbrev EvalResult := Except Fault (Nat × List TokenNode × AsmState)

/-- `Eval4`, with `Eval1` (called for a parenthesis) as a parameter. The empty
cursor is `*tp == NULL`, which `Eval4` dereferences. -/
def Eval4 (eval1 : List TokenNode → AsmState → EvalResult)
    (tp : List TokenNode) (s : AsmState) : EvalResult :=
  match tp with
  | [] => .error .nullDeref
  | TOK_VALUE v :: next => .ok (v, next, s)
  | TOK_SYMBOL sym :: next =>
    match FindSymbol s.symbols sym with
    | some sp => .ok (sp.addr, next, s)
    | none =>
      .ok (0, next, s.report ("ERROR: symbol not found: \"" ++ String.mk sym ++ "\"\n"))
  | TOK_LPAREN :: next =>
    match eval1 next s with
    | .error e => .error e
    | .ok (result, tp1, s1) =>
      match tp1 with
      | TOK_RPAREN :: _ => .ok (result, tp1, s1)
      | _ => .ok (result, tp1, s1.report "ERROR: expected ')'\n")
  | _ :: next => .ok (0, next, s.report "ERROR: expected value\n")

def Eval3 (eval1 : List TokenNode → AsmState → EvalResult)
    (tp : List TokenNode) (s : AsmState) : EvalResult :=
  Eval4 eval1 tp s

def Eval2 (eval1 : List TokenNode → AsmState → EvalResult)
    (tp : List TokenNode) (s : AsmState) : EvalResult :=
  match Eval3 eval1 tp s with
  | .error e => .error e
  | .ok (result, tp1, s1) =>
    match tp1 with
    | TOK_MULTIPLY :: next =>
      match Eval3 eval1 next s1 with
      | .error e => .error e
      | .ok (right, tp2, s2) => .ok ((result * right) % UINT_SIZE, tp2, s2)
    | TOK_DIVIDE :: next =>
      match Eval3 eval1 next s1 with
      | .error e => .error e
      | .ok (right, tp2, s2) =>
        if right = 0 then
          .ok (result, tp2,
            { s2 with error_count := s2.error_count + 1 }.report "ERROR: division by zero\n")
        else .ok (result / right, tp2, s2)
    | _ => .ok (result, tp1, s1)

/-- The body of `Eval1`, with the `Eval1` that a parenthesis calls as a
parameter. -/
def Eval1Body (eval1 : List TokenNode → AsmState → EvalResult)
    (tp : List TokenNode) (s : AsmState) : EvalResult :=
  match Eval2 eval1 tp s with
  | .error e => .error e
  | .ok (result, tp1, s1) =>
    match tp1 with
    | TOK_ADD :: next =>
      match Eval2 eval1 next s1 with
      | .error e => .error e
      | .ok (right, tp2, s2) => .ok ((result + right) % UINT_SIZE, tp2, s2)
    | TOK_SUBTRACT :: next =>
      match Eval2 eval1 next s1 with
      | .error e => .error e
      | .ok (right, tp2, s2) =>
        .ok ((result + (UINT_SIZE - right % UINT_SIZE)) % UINT_SIZE, tp2, s2)
    | _ => .ok (result, tp1, s1)

/-- `Eval1` with a budget for the depth of nested parentheses. -/
def Eval1 : Nat → List TokenNode → AsmState → EvalResult
  | 0 => fun _ _ => .error .outOfFuel
  | depth + 1 => Eval1Body (Eval1 depth)

/-- `Evaluate`: the value and the globals afterwards. Every nested call of
`Eval1` has consumed a `(`, so the depth stays below the number of tokens
plus one. -/
def Evaluate (expr : List Char) (s : AsmState) : Except Fault (Nat × AsmState) :=
  match Tokenize expr with
  | [] => .ok (0, s)
  | t :: ts =>
    match Eval1 ((t :: ts).length + 1) (t :: ts) s with
    | .error e => .error e
    | .ok (result, [], s1) => .ok (result, s1)
    | .ok (result, _ :: _, s1) => .ok (result, s1.report "ERROR: invalid expression\n")

/-! ## Statements -/

/-- `ParseLabel`: the line without its label and the globals. With
`do_add` the label is added at `current_address`; a label already in the
table is an error. -/
def ParseLabel (line : List Char) (do_add : Bool) (s : AsmState) :
    Except Fault (List Char × AsmState) :=
  if ':' ∈ line then
    let name := line.takeWhile (fun c => c ≠ ':')
    let s1 :=
      if do_add then
        match AddSymbol s.symbols name s.current_address with
        | (true, symbols) => { s with symbols := symbols }
        | (false, _) =>
          { s with error_count := s.error_count + 1 }.report
            ("ERROR: duplicate symbol: \"" ++ String.mk name ++ "\"\n")
      else s
    match TrimWhitespace (line.drop (name.length + 1)) with
    | .error e => .error e
    | .ok rest => .ok (rest, s1)
  else .ok (line, s)

/-- The inner loop of the lookup in `ParseStatement`: `op_name` against the
start of the line. When every character of `op_name` is found, the result is
the line from `line[y]` on. -/
def MatchName : List Char → List Char → Option (List Char)
  | [], line => some line
  | _ :: _, [] => none
  | a :: op_name, b :: line => if b ≠ a then none else MatchName op_name line

/-- The lookup loop of `ParseStatement` over the table from entry `x` on: the
first entry whose name is followed in the line by white space or by the end,
with the text after the separator (`arg`) when there is a separator. -/
def LookupInstruction : List InstructionMapType → List Char →
    Option (InstructionMapType × Option (List Char))
  | [], _ => none
  | instr :: table, line =>
    match MatchName instr.name line with
    | some [] => some (instr, none)
    | some (c :: rest) =>
      if isspace c then some (instr, some rest) else LookupInstruction table line
    | none => LookupInstruction table line

def ParseStatement (line : List Char) (s : AsmState) : StatementType × AsmState :=
  match LookupInstruction INSTRUCTION_MAP line with
  | none =>
    ({ arg := none, op := INVALID_OP },
      { s with error_count := s.error_count + 1 }.report
        ("ERROR: invalid instruction: \""
          ++ String.mk (line.takeWhile (fun c => !isspace c)) ++ "\"\n"))
  | some (instr, arg) =>
    if arg.isSome ∧ instr.arg_count = 0 then
      ({ arg := none, op := INVALID_OP },
        { s with error_count := s.error_count + 1 }.report
          ("ERROR: argument given for " ++ String.mk instr.name ++ "\n"))
    else if arg.isNone ∧ instr.arg_count > 0 then
      ({ arg := none, op := INVALID_OP },
        { s with error_count := s.error_count + 1 }.report
          ("ERROR: no argument given for " ++ String.mk instr.name ++ "\n"))
    else ({ arg := arg, op := instr.opcode }, s)

/-- The buffer of `ReadLine` as a C string: the characters before the first NUL. -/
def CString (temp : List Char) : List Char :=
  temp.takeWhile (fun c => c ≠ '\x00')

/-- The lines that successive calls of `ReadLine` return with code 1, each as
a C string; `temp` is the buffer of the call in progress. The characters after
the last newline are returned with code 0 at the end of the stream and are not
among the lines. Read errors are not modelled. -/
def ReadLinesFrom : List Char → List Char → List (List Char)
  | [], _ => []
  | ch :: fd, temp =>
    if ch = '\n' then CString temp :: ReadLinesFrom fd [] else ReadLinesFrom fd (temp ++ [ch])

def ReadLines (fd : List Char) : List (List Char) :=
  ReadLinesFrom fd []

/-- The steps of `GetStatement` on a line read with code 1, up to
`ParseLabel`. -/
def PrepareLine (line : List Char) (do_add : Bool) (s : AsmState) :
    Except Fault (List Char × AsmState) :=
  match TrimWhitespace (StripComments (StripWhitespace line)) with
  | .error e => .error e
  | .ok l => ParseLabel (ToLower l) do_add s

/-- `GetStatement` on a stream given by its remaining lines. The result is
`none` for the return code 0, or the statement with the rest of the stream;
then `*raw` and the globals. `*raw` is kept as the list of the lines read,
which the C text joins by newlines and `DoSecondPass` splits at them again;
what is read behind the last newline of the stream is added to `*raw` in C
and never used. With the fault of `TrimWhitespace` on an empty string the
case of a line without a statement is not reached here; it is reached in
`Compiled.GetStatement`. -/
def GetStatement : List (List Char) → Bool → List (List Char) → AsmState →
    Except Fault (Option (StatementType × List (List Char)) × List (List Char) × AsmState)
  | [], _, raw, s => .ok (none, raw, s)
  | line :: fd, do_add, raw, s =>
    match PrepareLine line do_add s with
    | .error e => .error e
    | .ok ([], s1) => GetStatement fd do_add (raw ++ [line]) s1
    | .ok (c :: l, s1) =>
      .ok (some ((ParseStatement (c :: l) s1).1, fd), raw ++ [line],
        (ParseStatement (c :: l) s1).2)

/-- The number of bytes by which both passes advance `current_address` for a
statement: the `++current_address` and the `switch` behind it, the same text
in `DoFirstPass` and `DoSecondPass`. -/
def StatementSize (statement : StatementType) : Nat :=
  match statement.arg with
  | none => 1
  | some _ => if statement.op = BYTE_OP then 1 else if statement.op = WORD_OP then 2 else 3

/-! ## Pass 1 -/

/-- The body of the loop of `DoFirstPass`. -/
def FirstPassStatement (statement : StatementType) (s : AsmState) : AsmState :=
  { s with
    current_address := (s.current_address + StatementSize statement) % UINT_SIZE
    byte_count := (s.byte_count + StatementSize statement) % UINT_SIZE }

/-- The loop of `DoFirstPass`, with a budget of iterations. -/
def DoFirstPassLoop : Nat → List (List Char) → AsmState → Except Fault AsmState
  | 0, _, _ => .error .outOfFuel
  | n + 1, fd, s =>
    match GetStatement fd true [] s with
    | .error e => .error e
    | .ok (none, _, s1) => .ok s1
    | .ok (some (statement, fd1), _, s1) =>
      DoFirstPassLoop n fd1 (FirstPassStatement statement s1)

/-- `DoFirstPass` on the lines of the preprocessed stream. Every iteration
reads at least one line, so the budget is never used up. -/
def DoFirstPass (fd : List (List Char)) (s : AsmState) : Except Fault AsmState :=
  DoFirstPassLoop (fd.length + 1) fd { s with current_address := 0 }

/-! ## Pass 2 -/

/-- The bytes of a text written to the output file. -/
def Bytes (text : List Char) : List Nat :=
  text.map Char.toNat

/-- The conversion `%0wX` of `printf`: upper-case hexadecimal, padded with
zeros to at least `w` characters. -/
def FormatHex (w : Nat) (n : Nat) : List Char :=
  List.replicate (w - (Nat.toDigits 16 n).length) '0' ++ (Nat.toDigits 16 n).map Char.toUpper

/-- What one iteration of the loop of `DoSecondPass` writes: `line` holds the
raw lines read for the statement, `temp` the value of its argument (unused
without one). The opcode is an `unsigned char`, written by `%c` as it is. -/
def OutputStatement (output_format : OutputFormat) (statement : StatementType)
    (temp : Nat) (line : List (List Char)) (current_address : Nat) : List Nat :=
  let listing := decide (output_format = OUT_LISTING)
  let pseudo := decide (statement.op = BYTE_OP ∨ statement.op = WORD_OP)
  let start := line.getLast?.getD []
  -- the raw lines in front of the statement's own line
  (if listing then
    (line.dropLast.map (fun l => Bytes (List.replicate 20 ' ' ++ l ++ ['\n']))).flatten
   else [])
  -- the address
  ++ (if listing then Bytes (FormatHex 4 current_address ++ [' ']) else [])
  -- the opcode
  ++ (if pseudo then []
      else match output_format with
        | OUT_RAW => [statement.op]
        | OUT_HEX => Bytes (FormatHex 2 statement.op ++ ['\n'])
        | OUT_LISTING => Bytes (FormatHex 2 statement.op))
  -- the argument
  ++ (match statement.arg with
      | none => []
      | some _ =>
        if statement.op = BYTE_OP then
          match output_format with
          | OUT_RAW => [temp % 256]
          | OUT_HEX => Bytes (FormatHex 2 temp ++ ['\n'])
          | OUT_LISTING => Bytes (FormatHex 2 temp)
        else
          match output_format with
          | OUT_RAW => [(temp >>> 8) % 256, (temp &&& 0xFF) % 256]
          | OUT_HEX =>
            Bytes (FormatHex 2 (temp >>> 8) ++ ['\n'] ++ FormatHex 2 (temp &&& 0xFF) ++ ['\n'])
          | OUT_LISTING =>
            Bytes ([' '] ++ FormatHex 2 (temp >>> 8) ++ [' '] ++ FormatHex 2 (temp &&& 0xFF)))
  -- the padding and the source text
  ++ (if listing then
        let len :=
          if statement.op = BYTE_OP then 3
          else if statement.op = WORD_OP then 6
          else if statement.arg.isSome then 9 else 3
        Bytes (List.replicate (16 - len) ' ' ++ start ++ ['\n'])
      else [])

/-- The body of the loop of `DoSecondPass`: the bytes written and the globals.
The argument is evaluated when there is one. -/
def SecondPassStatement (output_format : OutputFormat) (statement : StatementType)
    (line : List (List Char)) (s : AsmState) : Except Fault (List Nat × AsmState) :=
  match statement.arg with
  | none =>
    .ok (OutputStatement output_format statement 0 line s.current_address,
      { s with current_address := (s.current_address + StatementSize statement) % UINT_SIZE })
  | some arg =>
    match Evaluate arg s with
    | .error e => .error e
    | .ok (temp, s1) =>
      .ok (OutputStatement output_format statement temp line s.current_address,
        { s1 with
          current_address := (s1.current_address + StatementSize statement) % UINT_SIZE })

/-- The loop of `DoSecondPass`, with a budget of iterations; `output` is what
has been written so far. -/
def DoSecondPassLoop (output_format : OutputFormat) :
    Nat → List (List Char) → AsmState → List Nat → Except Fault (List Nat × AsmState)
  | 0, _, _, _ => .error .outOfFuel
  | n + 1, input, s, output =>
    match GetStatement input false [] s with
    | .error e => .error e
    | .ok (none, _, s1) => .ok (output, s1)
    | .ok (some (statement, input1), line, s1) =>
      match SecondPassStatement output_format statement line s1 with
      | .error e => .error e
      | .ok (written, s2) => DoSecondPassLoop output_format n input1 s2 (output ++ written)

/-- `DoSecondPass` on the lines of the rewound stream: the contents of the
output file and the globals. -/
def DoSecondPass (output_format : OutputFormat) (input : List (List Char)) (s : AsmState) :
    Except Fault (List Nat × AsmState) :=
  DoSecondPassLoop output_format (input.length + 1) input { s with current_address := 0 } []

/-! ## The simulator -/

namespace Sim

/-- The conversion of an `int` value to `unsigned char`. -/
def toUChar (x : Int) : Nat := (x % 256).toNat

/-- The registers, the flags, the memory and the clock of `q1sim.c`, and what
has been written to the standard error stream. An `unsigned char` holds a
value below 256 and an `unsigned short` one below 65536: every assignment
reduces the value it stores. The memory is the array of 65536 bytes, read at
the addresses below 65536. -/
structure State where
  rega : Nat
  regb : Nat
  regc : Nat
  z_flag : Nat
  c_flag : Nat
  n_flag : Nat
  regxh : Nat
  regxl : Nat
  preg : Nat
  halted : Nat
  opcode : Nat
  operand : Nat
  memory : Nat → Nat
  clocks : Nat
  stderr : List String

/-- The assignment `memory[addr] = value`. -/
def State.store (s : State) (addr : Nat) (value : Nat) : State :=
  { s with memory := fun a => if a = addr then value % 256 else s.memory a }

def State.report (s : State) (msg : String) : State :=
  { s with stderr := s.stderr ++ [msg] }

/-- The address `(regxh << 8) | regxl`. -/
def State.regx (s : State) : Nat := (s.regxh <<< 8) ||| s.regxl

def ldb (s : State) : State := { s with regb := s.memory s.operand % 256 }

def ldc (s : State) : State := { s with regc := s.memory s.operand % 256 }

def lxh (s : State) : State := { s with regxh := s.memory s.operand % 256 }

def lxl (s : State) : State := { s with regxl := s.memory s.operand % 256 }

def stb (s : State) : State := s.store s.operand s.regb

def stc (s : State) : State := s.store s.operand s.regc

def sxh (s : State) : State := s.store s.operand s.regxh

def sxl (s : State) : State := s.store s.operand s.regxl

def sta (s : State) : State := s.store s.operand s.rega

/-- The two assignments at the end of every handler of the math class but
`clr`: `z_flag = rega == 0; n_flag = rega >> 7`. -/
def State.setZN (s : State) : State :=
  { s with z_flag := if s.rega = 0 then 1 else 0, n_flag := (s.rega >>> 7) % 256 }

def and (s : State) : State :=
  State.setZN { s with rega := (s.regb &&& s.regc) % 256, c_flag := 0 }

def or (s : State) : State :=
  State.setZN { s with rega := (s.regb ||| s.regc) % 256, c_flag := 0 }

def shl (s : State) : State :=
  State.setZN { s with rega := (s.regb <<< 1) % 256, c_flag := (s.regb >>> 7) % 256 }

def shr (s : State) : State :=
  State.setZN { s with rega := (s.regb >>> 1) % 256, c_flag := (s.regb &&& 1) % 256 }

/-- The handler `add`; `temp` is an `unsigned short`. -/
def add (s : State) : State :=
  let temp := (s.regb + s.regc) % 65536
  State.setZN { s with rega := temp % 256, c_flag := if temp > 255 then 1 else 0 }

def inc (s : State) : State :=
  State.setZN { s with rega := (s.regb + 1) % 256, c_flag := if s.regb = 255 then 1 else 0 }

/-- The handler `dec`; the difference is computed in `int`. -/
def dec (s : State) : State :=
  State.setZN
    { s with rega := toUChar ((s.regb : Int) - 1), c_flag := if s.regb = 0 then 1 else 0 }

/-- The handler `not`; the complement is computed in `int`, where `~x` is
`-x - 1`. -/
def not (s : State) : State :=
  State.setZN { s with rega := toUChar (-(s.regb : Int) - 1), c_flag := 0 }

def clr (s : State) : State :=
  { s with rega := 0, c_flag := 0, z_flag := 1, n_flag := 0 }

def mab (s : State) : State := { s with regb := s.rega % 256 }

def mac (s : State) : State := { s with regc := s.rega % 256 }

def sax (s : State) : State := s.store s.regx s.rega

def sbx (s : State) : State := s.store s.regx s.regb

def scx (s : State) : State := s.store s.regx s.regc

def lbx (s : State) : State := { s with regb := s.memory s.regx % 256 }

def lcx (s : State) : State := { s with regc := s.memory s.regx % 256 }

def ret (s : State) : State := { s with preg := s.regx % 65536 }

def hlt (s : State) : State := { s with halted := 1 }

/-- The table `ls_class`: its entries that are not NULL. -/
def ls_class : List (State → State) := [ldb, ldc, lxh, lxl, stb, stc, sxh, sxl, sta]

/-- The table `math_class`: its entries that are not NULL. -/
def math_class : List (State → State) := [and, or, shl, shr, add, inc, dec, not, clr]

/-- The table `misc_class`: its entries that are not NULL. -/
def misc_class : List (State → State) := [mab, mac, sax, sbx, scx, lbx, lcx, ret, hlt]

/-- The two statements that read the operand:
`operand = (unsigned short)memory[preg++] << 8; operand |= memory[preg++];`. -/
def State.fetchOperand (s : State) : State :=
  let s1 := { s with operand := (s.memory s.preg <<< 8) % 65536, preg := (s.preg + 1) % 65536 }
  { s1 with operand := (s1.operand ||| s1.memory s1.preg) % 65536,
            preg := (s1.preg + 1) % 65536 }

/-- The operator `!` of C. -/
def lnot (x : Nat) : Nat := if x = 0 then 1 else 0

def j_inst (func : Nat) (s : State) : State :=
  let c_func := ((func >>> 0) &&& 1) % 256
  let z_func := ((func >>> 1) &&& 1) % 256
  let n_func := ((func >>> 2) &&& 1) % 256
  let is_call := ((func >>> 3) &&& 1) % 256
  let s1 := s.fetchOperand
  if (lnot c_func ||| s1.c_flag) &&& (lnot z_func ||| s1.z_flag) &&& (lnot n_func ||| s1.n_flag)
      ≠ 0 then
    let s2 :=
      if is_call ≠ 0 then
        { s1 with regxh := (s1.preg >>> 8) % 256, regxl := (s1.preg &&& 0xFF) % 256 }
      else s1
    { s2 with preg := s2.operand }
  else s1

def ls_inst (func : Nat) (s : State) : State :=
  let s1 := s.fetchOperand
  match ls_class[func]? with
  | some inst => inst s1
  | none => s1.report ("ERROR: invalid LS instruction: " ++ toString func ++ "\n")

def math_inst (func : Nat) (s : State) : State :=
  match math_class[func]? with
  | some inst => inst s
  | none => s.report ("ERROR: invalid MATH instruction: " ++ toString func ++ "\n")

def misc_inst (func : Nat) (s : State) : State :=
  match misc_class[func]? with
  | some inst => inst s
  | none => s.report ("ERROR: invalid MISC instruction: " ++ toString func ++ "\n")

/-- The function `next`: one instruction. -/
def next (s : State) : State :=
  let s1 := { s with opcode := s.memory s.preg % 256 }
  let inst_class := (s1.opcode >>> 4) % 256
  let inst_func := (s1.opcode &&& 0x0F) % 256
  let s2 := { s1 with preg := (s1.preg + 1) % 65536 }
  match inst_class with
  | 0 => let s3 := j_inst inst_func s2; { s3 with clocks := (s3.clocks + 7 * 3) % UINT_SIZE }
  | 1 => let s3 := ls_inst inst_func s2; { s3 with clocks := (s3.clocks + 7 * 3) % UINT_SIZE }
  | 2 => let s3 := math_inst inst_func s2; { s3 with clocks := (s3.clocks + 3 * 3) % UINT_SIZE }
  | 3 => let s3 := misc_inst inst_func s2; { s3 with clocks := (s3.clocks + 3 * 3) % UINT_SIZE }
  | _ => s2.report ("ERROR: invalid instruction class: " ++ toString inst_class ++ "\n")

/-- The state of `main` in front of its loop, without the options `-a`, `-b`
and `-c`: the registers hold 0xFF, the flags 1, and the memory holds the bytes
of the file from address 0 on, at most 65535 of them, and 0xFF elsewhere. -/
def initial (file : List Nat) : State :=
  { rega := 0xFF, regb := 0xFF, regc := 0xFF, z_flag := 1, c_flag := 1, n_flag := 1,
    regxh := 0xFF, regxl := 0xFF, preg := 0, halted := 0, opcode := 0, operand := 0,
    memory := fun a => if a < 0xFFFF then (file[a]?.getD 0xFF) % 256 else 0xFF,
    clocks := 0,
    stderr := if 0xFFFF < file.length then ["WARN: input file too large\n"] else [] }

/-- The loop `while(!halted) { DisplayState(); next(); }` of `main`, with a
budget of iterations; what `DisplayState` prints is not part of the state. -/
def run : Nat → State → Option State
  | 0, s => if s.halted ≠ 0 then some s else none
  | n + 1, s => if s.halted ≠ 0 then some s else run n (next s)

end Sim

/-! ## The preprocessor -/

def MAX_INCLUDES : Nat := 8

/-- A node of the macro table; `value` is NULL until the first line is
appended. -/
structure MacroType where
  name : List Char
  value : Option (List Char)
  deriving DecidableEq, Repr

/-- The globals together with the macro table, which the two passes do not
use, and the contents of the temporary file `out_fd`. -/
structure PreprocessState where
  globals : AsmState
  macros : List MacroType
  out_fd : List Char
  deriving DecidableEq, Repr

/-- An error of the preprocessor: the message and `++error_count`. -/
def PreprocessState.error (st : PreprocessState) (msg : String) : PreprocessState :=
  { st with globals := { st.globals with error_count := st.globals.error_count + 1 }.report msg }

def FindMacro (macros : List MacroType) (name : List Char) : Option MacroType :=
  macros.find? (fun mp => name = mp.name)

def AddMacro (macros : List MacroType) (name : List Char) : Bool × List MacroType :=
  if (FindMacro macros name).isSome then (false, macros)
  else (true, { name := name, value := none } :: macros)

/-- `AppendMacro`: the node that `FindMacro` returns, the first one with the
name, gets the line and a newline appended to its value. Without such a node
`mp->value` is read through a NULL pointer. -/
def AppendMacro : List MacroType → List Char → List Char → Except Fault (List MacroType)
  | [], _, _ => .error .nullDeref
  | mp :: macros, name, value =>
    if name = mp.name then
      .ok ({ mp with value := some (mp.value.getD [] ++ value ++ ['\n']) } :: macros)
    else
      match AppendMacro macros name value with
      | .error e => .error e
      | .ok macros1 => .ok (mp :: macros1)

/-- `ProcessDefineStart`: the new value of `current_define` and the state. -/
def ProcessDefineStart (line : List Char) (name : Option (List Char)) (st : PreprocessState) :
    Option (List Char) × PreprocessState :=
  match name with
  | some n => (some n, st.error "ERROR: \"#define\" without \"#end\"\n")
  | none => (some line, { st with macros := (AddMacro st.macros line).2 })

def ProcessDefine (line : List Char) (name : List Char) (st : PreprocessState) :
    Except Fault PreprocessState :=
  match AppendMacro st.macros name line with
  | .error e => .error e
  | .ok macros => .ok { st with macros := macros }

/-- `ProcessDefineEnd`: the new value of `current_define` and the state. -/
def ProcessDefineEnd (name : Option (List Char)) (st : PreprocessState) :
    Option (List Char) × PreprocessState :=
  match name with
  | none => (none, st.error "ERROR: \"#end\" not inside a \"#define\"\n")
  | some _ => (none, st)

/-- The C string `&line[n]`, where `line` is what `StripWhitespace` has made
of the line `raw` that `ReadLine` returned. The buffer holds the line, then a
NUL for every character deleted, then the NUL that `ReadLine` wrote at
`raw.length`; behind that position nothing has been written, unless the line
holds a NUL: that case is in `Compiled.LineFrom`. -/
def LineFrom (n : Nat) (raw line : List Char) : Except Fault (List Char) :=
  if n ≤ raw.length then .ok (line.drop n) else .error .outOfBounds

/-- The loop of `DoPreprocessFile` over the lines that `ReadLine` returns with
code 1. The recursive call for `#include` is the argument `recurse`. -/
def DoPreprocessLines (recurse : List Char → PreprocessState → Except Fault PreprocessState) :
    List (List Char) → Option (List Char) → PreprocessState → Except Fault PreprocessState
  | [], _, st => .ok st
  | raw :: in_fd, current_define, st =>
    if raw.head? = some '#' then
      let line := StripWhitespace raw
      if line.take 9 = "#include ".toList then
        match LineFrom 10 raw line with
        | .error e => .error e
        | .ok filename =>
          match recurse filename st with
          | .error e => .error e
          | .ok st1 => DoPreprocessLines recurse in_fd current_define st1
      else if line.take 8 = "#define ".toList then
        match LineFrom 9 raw line with
        | .error e => .error e
        | .ok name =>
          DoPreprocessLines recurse in_fd (ProcessDefineStart name current_define st).1
            (ProcessDefineStart name current_define st).2
      else if line.take 4 = "#end".toList then
        DoPreprocessLines recurse in_fd (ProcessDefineEnd current_define st).1
          (ProcessDefineEnd current_define st).2
      else
        DoPreprocessLines recurse in_fd current_define
          (st.error ("ERROR: preprocessor: \"" ++ String.mk line ++ "\"\n"))
    else
      match current_define with
      | some name =>
        match ProcessDefine raw name st with
        | .error e => .error e
        | .ok st1 => DoPreprocessLines recurse in_fd current_define st1
      | none =>
        DoPreprocessLines recurse in_fd current_define
          { st with out_fd := st.out_fd ++ raw ++ ['\n'] }

/-- `DoPreprocessFile`; `files` gives the contents of the files that `fopen`
can open for reading. The first argument is `MAX_INCLUDES - level`, the number
of levels left, 0 when `level >= MAX_INCLUDES`. -/
def DoPreprocessFile (files : List Char → Option (List Char)) :
    Nat → List Char → PreprocessState → Except Fault PreprocessState
  | 0, _, st => .ok (st.error ("ERROR: exceeded " ++ toString MAX_INCLUDES ++ " levels\n"))
  | levels + 1, filename, st =>
    match files filename with
    | none =>
      .ok (st.error ("ERROR: could not open " ++ String.mk filename ++ " for reading\n"))
    | some text =>
      DoPreprocessLines (DoPreprocessFile files levels) (ReadLines text) none st

/-- What `main` needs of its surroundings: the files that can be opened for
reading with their contents, whether `tmpfile` succeeds, and the files that
can be opened for writing. -/
structure Environment where
  files : List Char → Option (List Char)
  tmpfile : Bool
  writable : List Char → Bool

/-- `DoPreprocess`: the rewound temporary file, or NULL, and the state. -/
def DoPreprocess (env : Environment) (filename : List Char) (st : PreprocessState) :
    Except Fault (Option (List Char) × PreprocessState) :=
  if env.tmpfile then
    match DoPreprocessFile env.files MAX_INCLUDES filename { st with out_fd := [] } with
    | .error e => .error e
    | .ok st1 => .ok (some st1.out_fd, st1)
  else
    .ok (none, st.error "ERROR: could not open temporary file\n")

/-! ## The outcome of `main` -/

/-- What a run of `main` leaves: the return value, the contents of the output
file when it has been opened, the globals, the macro table and the standard
output stream. -/
structure Outcome where
  status : Int
  output : Option (List Nat)
  globals : AsmState
  macros : List MacroType
  stdout : List String
  deriving DecidableEq, Repr

/-- The two lines `main` prints at its end. -/
def Summary (s : AsmState) : List String :=
  ["Errors:     " ++ toString s.error_count ++ "\n",
   "Byte count: " ++ toString s.byte_count ++ "\n"]

/-! ## The program as compiled

The definitions above follow the C text and stop with a fault where that text
leaves the behaviour undefined. In two such places the memory that the
compiled program reads has a content, and the definitions of this section
follow the run through them. `TrimWhitespace` on a string without a character
that is not white space reads `line[-1]`, the byte in front of the buffer that
`ReadLine` took from `malloc`; that byte is the parameter `front` (the usual
allocators keep the size of the block there, of which it is the high byte, 0).
And `DoPreprocessFile` passes `&line[9]` and `&line[10]`, which may lie behind
the end of the string and still inside what `ReadLine` has written, when the
line holds a NUL. Everything else is as above; `main` is defined here only. -/

namespace Compiled

/-- `TrimWhitespace` with the byte `front` in front of the buffer. The first
loop deletes leading white space. The second starts at `x = strlen(line)` and
tests `line[x - 1]`; for the empty string that is `front`: when it is not
white space the loop is not entered and the string stays empty, otherwise the
loop writes in front of the buffer. -/
def TrimWhitespace (front : Char) (line : List Char) : Except Fault (List Char) :=
  match line.dropWhile isspace with
  | [] => if isspace front then .error .outOfBounds else .ok []
  | c :: rest => .ok ((c :: rest).rdropWhile isspace)

/-- `ParseLabel`: the line without its label and the globals. The rest of the
line is moved to the start of the same buffer, so `TrimWhitespace` finds the
same byte in front of it. -/
def ParseLabel (front : Char) (line : List Char) (do_add : Bool) (s : AsmState) :
    Except Fault (List Char × AsmState) :=
  if ':' ∈ line then
    let name := line.takeWhile (fun c => c ≠ ':')
    let s1 :=
      if do_add then
        match AddSymbol s.symbols name s.current_address with
        | (true, symbols) => { s with symbols := symbols }
        | (false, _) =>
          { s with error_count := s.error_count + 1 }.report
            ("ERROR: duplicate symbol: \"" ++ String.mk name ++ "\"\n")
      else s
    match TrimWhitespace front (line.drop (name.length + 1)) with
    | .error e => .error e
    | .ok rest => .ok (rest, s1)
  else .ok (line, s)

/-- The steps of `GetStatement` on a line read with code 1, up to
`ParseLabel`. -/
def PrepareLine (front : Char) (line : List Char) (do_add : Bool) (s : AsmState) :
    Except Fault (List Char × AsmState) :=
  match TrimWhitespace front (StripComments (StripWhitespace line)) with
  | .error e => .error e
  | .ok l => ParseLabel front (ToLower l) do_add s

/-- `GetStatement` on a stream given by its remaining lines: `none` for the
return code 0, or the statement with the rest of the stream; then `*raw` and
the globals. A line of which the preparation leaves nothing (`line[0]` is 0)
is passed over and the next line is read. -/
def GetStatement (front : Char) : List (List Char) → Bool → List (List Char) → AsmState →
    Except Fault (Option (StatementType × List (List Char)) × List (List Char) × AsmState)
  | [], _, raw, s => .ok (none, raw, s)
  | line :: fd, do_add, raw, s =>
    match PrepareLine front line do_add s with
    | .error e => .error e
    | .ok ([], s1) => GetStatement front fd do_add (raw ++ [line]) s1
    | .ok (c :: l, s1) =>
      .ok (some ((ParseStatement (c :: l) s1).1, fd), raw ++ [line],
        (ParseStatement (c :: l) s1).2)

/-- The loop of `DoFirstPass`, with a budget of iterations. -/
def DoFirstPassLoop (front : Char) : Nat → List (List Char) → AsmState → Except Fault AsmState
  | 0, _, _ => .error .outOfFuel
  | n + 1, fd, s =>
    match GetStatement front fd true [] s with
    | .error e => .error e
    | .ok (none, _, s1) => .ok s1
    | .ok (some (statement, fd1), _, s1) =>
      DoFirstPassLoop front n fd1 (FirstPassStatement statement s1)

/-- `DoFirstPass` on the lines of the preprocessed stream. Every iteration
reads at least one line, so the budget is never used up. -/
def DoFirstPass (front : Char) (fd : List (List Char)) (s : AsmState) : Except Fault AsmState :=
  DoFirstPassLoop front (fd.length + 1) fd { s with current_address := 0 }

/-- The loop of `DoSecondPass`, with a budget of iterations; `output` is what
has been written so far. -/
def DoSecondPassLoop (front : Char) (output_format : OutputFormat) :
    Nat → List (List Char) → AsmState → List Nat → Except Fault (List Nat × AsmState)
  | 0, _, _, _ => .error .outOfFuel
  | n + 1, input, s, output =>
    match GetStatement front input false [] s with
    | .error e => .error e
    | .ok (none, _, s1) => .ok (output, s1)
    | .ok (some (statement, input1), line, s1) =>
      match SecondPassStatement output_format statement line s1 with
      | .error e => .error e
      | .ok (written, s2) =>
        DoSecondPassLoop front output_format n input1 s2 (output ++ written)

/-- `DoSecondPass` on the lines of the rewound stream: the contents of the
output file and the globals. -/
def DoSecondPass (front : Char) (output_format : OutputFormat) (input : List (List Char))
    (s : AsmState) : Except Fault (List Nat × AsmState) :=
  DoSecondPassLoop front output_format (input.length + 1) input { s with current_address := 0 } []

/-- The buffers that successive calls of `ReadLine` return with code 1: every
character read in front of the newline, the NUL characters among them too;
`ReadLine` writes one more NUL behind them. `temp` is the buffer of the call
in progress. -/
def ReadLinesFrom : List Char → List Char → List (List Char)
  | [], _ => []
  | ch :: fd, temp =>
    if ch = '\n' then temp :: ReadLinesFrom fd [] else ReadLinesFrom fd (temp ++ [ch])

def ReadLines (fd : List Char) : List (List Char) :=
  ReadLinesFrom fd []

/-- The C string `&line[n]` in `DoPreprocessFile`; `temp` is the buffer that
`ReadLine` returned and `line` what `StripWhitespace` has made of its string.
The buffer then holds `line`, a NUL for every character deleted, and, from
where the string ended, what `ReadLine` wrote: the rest of `temp` and a NUL
at `temp.length`. Behind that position nothing has been written. -/
def LineFrom (n : Nat) (temp line : List Char) : Except Fault (List Char) :=
  if n ≤ temp.length then
    .ok (CString ((line ++ List.replicate ((CString temp).length - line.length) '\x00'
      ++ temp.drop (CString temp).length ++ ['\x00']).drop n))
  else .error .outOfBounds

/-- The loop of `DoPreprocessFile` over the buffers that `ReadLine` returns
with code 1. The recursive call for `#include` is the argument `recurse`. -/
def DoPreprocessLines (recurse : List Char → PreprocessState → Except Fault PreprocessState) :
    List (List Char) → Option (List Char) → PreprocessState → Except Fault PreprocessState
  | [], _, st => .ok st
  | temp :: in_fd, current_define, st =>
    if (CString temp).head? = some '#' then
      let line := StripWhitespace (CString temp)
      if line.take 9 = "#include ".toList then
        match LineFrom 10 temp line with
        | .error e => .error e
        | .ok filename =>
          match recurse filename st with
          | .error e => .error e
          | .ok st1 => DoPreprocessLines recurse in_fd current_define st1
      else if line.take 8 = "#define ".toList then
        match LineFrom 9 temp line with
        | .error e => .error e
        | .ok name =>
          DoPreprocessLines recurse in_fd (ProcessDefineStart name current_define st).1
            (ProcessDefineStart name current_define st).2
      else if line.take 4 = "#end".toList then
        DoPreprocessLines recurse in_fd (ProcessDefineEnd current_define st).1
          (ProcessDefineEnd current_define st).2
      else
        DoPreprocessLines recurse in_fd current_define
          (st.error ("ERROR: preprocessor: \"" ++ String.mk line ++ "\"\n"))
    else
      match current_define with
      | some name =>
        match ProcessDefine (CString temp) name st with
        | .error e => .error e
        | .ok st1 => DoPreprocessLines recurse in_fd current_define st1
      | none =>
        DoPreprocessLines recurse in_fd current_define
          { st with out_fd := st.out_fd ++ CString temp ++ ['\n'] }

/-- `DoPreprocessFile`; the first argument is `MAX_INCLUDES - level`. -/
def DoPreprocessFile (files : List Char → Option (List Char)) :
    Nat → List Char → PreprocessState → Except Fault PreprocessState
  | 0, _, st => .ok (st.error ("ERROR: exceeded " ++ toString MAX_INCLUDES ++ " levels\n"))
  | levels + 1, filename, st =>
    match files filename with
    | none =>
      .ok (st.error ("ERROR: could not open " ++ String.mk filename ++ " for reading\n"))
    | some text =>
      DoPreprocessLines (DoPreprocessFile files levels) (ReadLines text) none st

/-- `DoPreprocess`: the rewound temporary file, or NULL, and the state. -/
def DoPreprocess (env : Environment) (filename : List Char) (st : PreprocessState) :
    Except Fault (Option (List Char) × PreprocessState) :=
  if env.tmpfile then
    match DoPreprocessFile env.files MAX_INCLUDES filename { st with out_fd := [] } with
    | .error e => .error e
    | .ok st1 => .ok (some st1.out_fd, st1)
  else
    .ok (none, st.error "ERROR: could not open temporary file\n")

/-- The statements of `main` from `byte_count = 0` to the call of
`DoFirstPass`: the stream `input_fd`, the macro table and the globals. The
two passes use the lines of the stream as C strings. -/
def mainFirstPass (front : Char) (env : Environment) (input_name : List Char) :
    Except Fault (Option (List Char) × List MacroType × AsmState) :=
  match DoPreprocess env input_name { globals := AsmState.init, macros := [], out_fd := [] } with
  | .error e => .error e
  | .ok (none, st) => .ok (none, st.macros, st.globals)
  | .ok (some input_fd, st) =>
    match DoFirstPass front ((ReadLines input_fd).map CString) st.globals with
    | .error e => .error e
    | .ok s => .ok (some input_fd, st.macros, s)

/-- The statements of `main` behind the call of `DoFirstPass`, from
`if(error_count == 0)` on; `input_fd`, `macros` and `s` are the stream, the
macro table and the globals at that point. With `error_count` at 0 the stream
`input_fd` is passed to `fclose` or to `rewind` without a test for NULL. -/
def mainSecondPass (front : Char) (env : Environment) (output_format : OutputFormat)
    (output_name : List Char) (input_fd : Option (List Char)) (macros : List MacroType)
    (s : AsmState) : Except Fault Outcome :=
  if s.error_count = 0 then
    match input_fd with
    | none => .error .nullDeref
    | some fd =>
      if env.writable output_name then
        match DoSecondPass front output_format ((ReadLines fd).map CString) s with
        | .error e => .error e
        | .ok (output, s1) =>
          .ok { status := s1.error_count, output := some output, globals := s1,
                macros := macros, stdout := Summary s1 }
      else
        .ok { status := -1, output := none,
              globals := s.report
                ("ERROR: could not open " ++ String.mk output_name ++ " for writing\n"),
              macros := macros, stdout := [] }
  else
    .ok { status := s.error_count, output := none, globals := s, macros := macros,
          stdout := Summary s }

/-- `main` behind the parsing of its arguments, which gives `output_format`,
`input_name` and `output_name`. -/
def main (front : Char) (env : Environment) (output_format : OutputFormat)
    (input_name output_name : List Char) : Except Fault Outcome :=
  match mainFirstPass front env input_name with
  | .error e => .error e
  | .ok (input_fd, macros, s) =>
    mainSecondPass front env output_format output_name input_fd macros s

end Compiled

/-! ## Vocabulary of the theorems -/

/-- A character that `strtoul` reads as a digit of the base. -/
def IsDigitChar (b : Nat) (c : Char) : Prop := ∃ d, d < b ∧ digitVal c = some d

/-- One step of the digit loop of `strtoul`: the value `a` read so far and the
next digit `c`. -/
def digitStep (b : Nat) (a : Nat) (c : Char) : Nat := a * b + (digitVal c).getD 0

/-- The text after a numeral does not continue it. -/
def EndsNumeral (b : Nat) (rest : List Char) : Prop :=
  ∀ c, rest.head? = some c → isDigitOf b c = false ∧ c ≠ 'x' ∧ c ≠ 'X'

/-- The first word of a line: its characters before the first white space. -/
def FirstWord (line : List Char) : List Char :=
  line.takeWhile (fun c => !isspace c)

/-- The argument `ParseStatement` finds behind a mnemonic of length `n`: the
text after the separator, when there is a separator. -/
def ArgumentAfter (n : Nat) (line : List Char) : Option (List Char) :=
  match line.drop n with
  | [] => none
  | _ :: rest => some rest

/-- What `ParseStatement` requires of a line for the descriptor `d`: the first
word is the mnemonic, and an argument is there exactly when `d` takes one. -/
def Selects (d : InstructionMapType) (line : List Char) : Prop :=
  d.name = FirstWord line ∧ ((ArgumentAfter d.name.length line).isSome ↔ 0 < d.arg_count)

/-- The names bound in a symbol table. -/
def SymbolNames (symbols : List SymbolNode) : List (List Char) :=
  symbols.map SymbolNode.name

/-- The table after a sequence of calls of `AddSymbol`, starting from `symbols`. -/
def AddSymbols (symbols : List SymbolNode) (adds : List (List Char × Nat)) : List SymbolNode :=
  adds.foldl (fun t a => (AddSymbol t a.1 a.2).2) symbols

/-- The first end-to-end scenario of the specification. -/
def scenarioAdd : List Char :=
  ("start:  clr\n        inc\n        mab\n        inc\n        mab\n        inc\n"
    ++ "        sta $100\n        hlt\n").toList

/-- The text of a line after the preparation steps of `GetStatement`, before
`ParseLabel`. -/
def PreparedText (line : List Char) : Except Fault (List Char) :=
  match TrimWhitespace (StripComments (StripWhitespace line)) with
  | .error e => .error e
  | .ok l => .ok (ToLower l)

/-- The label of a prepared line: the text in front of its first colon. -/
def LabelOf (l : List Char) : Option (List Char) :=
  if ':' ∈ l then some (l.takeWhile (fun c => c ≠ ':')) else none

/-- The statement text of a prepared line: what `ParseLabel` leaves. -/
def StatementText (l : List Char) : Except Fault (List Char) :=
  if ':' ∈ l then TrimWhitespace (l.drop ((l.takeWhile (fun c => c ≠ ':')).length + 1))
  else .ok l

/-- The globals after `ParseLabel` on a prepared line in Pass 1. -/
def LabelState (l : List Char) (s : AsmState) : AsmState :=
  match LabelOf l with
  | none => s
  | some name =>
    match AddSymbol s.symbols name s.current_address with
    | (true, symbols) => { s with symbols := symbols }
    | (false, _) =>
      { s with error_count := s.error_count + 1 }.report
        ("ERROR: duplicate symbol: \"" ++ String.mk name ++ "\"\n")

/-- The statement text of a raw line. -/
def LineText (line : List Char) : Except Fault (List Char) :=
  match PreparedText line with
  | .error e => .error e
  | .ok l => StatementText l

/-- The globals after the preparation of a raw line in Pass 1. -/
def LineState (line : List Char) (s : AsmState) : AsmState :=
  match PreparedText line with
  | .error _ => s
  | .ok l => LabelState l s

/-- The statement `ParseStatement` returns for a line (the globals have no
part in it). -/
def StatementOf (r : List Char) : StatementType :=
  (ParseStatement r AsmState.init).1

/-- The number of bytes the loop of `DoSecondPass` writes for a statement in
raw format. -/
def RawLength (statement : StatementType) : Nat :=
  (OutputStatement OUT_RAW statement 0 [] 0).length

/-- What the evaluator may change of the globals: it writes to the standard
error stream and counts errors, nothing else. -/
def Frame (s s1 : AsmState) : Prop :=
  s1.symbols = s.symbols ∧ s1.current_address = s.current_address
    ∧ s1.byte_count = s.byte_count ∧ s.error_count ≤ s1.error_count

/-- An evaluator call that stays within its budget: it fails only by the null
dereference, and otherwise leaves a cursor that is not longer and globals in
the frame. -/
def EvalGood (f : List TokenNode → AsmState → EvalResult) (tp : List TokenNode)
    (s : AsmState) : Prop :=
  (∀ e, f tp s = .error e → e = .nullDeref)
  ∧ (∀ r tp1 s1, f tp s = .ok (r, tp1, s1) → tp1.length ≤ tp.length ∧ Frame s s1)

/-- The number of raw bytes of the statement on a raw line (0 when the
preparation of the line leaves the line). -/
def LineLength (line : List Char) : Nat :=
  match LineText line with
  | .error _ => 0
  | .ok r => RawLength (StatementOf r)

/-- The number of raw bytes of the statements of a sequence of lines. -/
def ProgramLength : List (List Char) → Nat
  | [] => 0
  | line :: fd => LineLength line + ProgramLength fd

/-- A name the tokenizer reads as one symbol: the characters of
`[a-z0-9_]`, the first of them not a digit. -/
def IsSymbolName (name : List Char) : Prop :=
  match name with
  | [] => False
  | c :: rest =>
    symbolChar c = true ∧ ¬ ('0' ≤ c ∧ c ≤ '9') ∧ ∀ d ∈ rest, symbolChar d = true

instance instDecidableIsSymbolName (name : List Char) : Decidable (IsSymbolName name) :=
  match name with
  | [] => isFalse (fun h => h)
  | c :: rest =>
    inferInstanceAs
      (Decidable (symbolChar c = true ∧ ¬ ('0' ≤ c ∧ c ≤ '9') ∧ ∀ d ∈ rest, symbolChar d = true))

/-- The second end-to-end scenario of the specification, as lines. -/
def scenarioForward : List (List Char) :=
  ["        j target".toList, "        hlt".toList, "target: hlt".toList]

/-- The number of bytes by which a statement with the opcode `op`, as
`ParseStatement` returns it, advances the address: the opcodes of the jump
and load/store classes (below 0x20) carry a 16-bit argument, `dw` stands for
two bytes, everything else (`db`, the math and misc classes, the invalid
statement) for one. -/
def AddressStep (op : Nat) : Nat :=
  if op = BYTE_OP then 1 else if op = WORD_OP then 2 else if op < 0x20 then 3 else 1

/-- The rendering of a sequence of bytes in the hex format: every byte as two
upper-case hexadecimal digits and a newline. -/
def HexRender (raw : List Nat) : List Nat :=
  (raw.map (fun b => Bytes (FormatHex 2 b ++ ['\n']))).flatten

/-- Every flag that the function bits of a jump require is set: bit 0
requires `c_flag`, bit 1 `z_flag`, bit 2 `n_flag`. -/
def FlagsRequired (f : Nat) (s : Sim.State) : Prop :=
  (f.testBit 0 = true → s.c_flag = 1) ∧ (f.testBit 1 = true → s.z_flag = 1)
    ∧ (f.testBit 2 = true → s.n_flag = 1)

instance instDecidableFlagsRequired (f : Nat) (s : Sim.State) : Decidable (FlagsRequired f s) :=
  inferInstanceAs (Decidable ((f.testBit 0 = true → s.c_flag = 1)
    ∧ (f.testBit 1 = true → s.z_flag = 1) ∧ (f.testBit 2 = true → s.n_flag = 1)))

/-- A file system with one file. -/
def oneFile (name text : List Char) : List Char → Option (List Char) :=
  fun n => if n = name then some text else none

/-- The scenario of the macro definition: `#define greet`, two body lines,
`#end`. -/
def scenarioDefine : List Char :=
  "#define greet\nclr\ninc\n#end\n".toList

/-- A line that `DoPreprocessFile` takes for an `#include`. -/
def IsInclude (l : List Char) : Bool :=
  l.head? = some '#' && (StripWhitespace l).take 9 = "#include ".toList

/-- A line that `DoPreprocessFile` takes for the start of a definition. -/
def IsDefineStart (l : List Char) : Bool :=
  l.head? = some '#' && !IsInclude l && (StripWhitespace l).take 8 = "#define ".toList

/-- A line that `DoPreprocessFile` takes for the end of a definition. -/
def IsDefineEnd (l : List Char) : Bool :=
  l.head? = some '#' && !IsInclude l && !IsDefineStart l
    && (StripWhitespace l).take 4 = "#end".toList

/-- A definition is open behind the lines `before`: the last of them that
starts or ends a definition starts one. -/
def OpenDefine (before : List (List Char)) : Bool :=
  match (before.filter (fun l => IsDefineStart l || IsDefineEnd l)).getLast? with
  | some l => IsDefineStart l
  | none => false

/-- The lines among `rest`, which follow the lines `before` in a file, that do
not begin with `#` and lie outside every definition. -/
def CopiedFrom (before : List (List Char)) : List (List Char) → List (List Char)
  | [] => []
  | l :: rest =>
    (if l.head? ≠ some '#' ∧ OpenDefine before = false then [l] else [])
      ++ CopiedFrom (before ++ [l]) rest

/-- The lines of a file that do not begin with `#` and lie outside every
definition. -/
def CopiedLines (ls : List (List Char)) : List (List Char) :=
  CopiedFrom [] ls

/-- The text of a sequence of lines, each followed by a newline. -/
def FileText (ls : List (List Char)) : List Char :=
  (ls.map (fun l => l ++ ['\n'])).flatten

/-- The lines of the witness of claim C16. -/
def scenarioCopied : List (List Char) :=
  ["        clr".toList, "#define xgreet".toList, "clr".toList, "#end".toList,
   "        hlt".toList]

/-- An ASCII letter converted to upper case; every other character as it is. -/
def ToUpperChar (ch : Char) : Char :=
  if 'a' ≤ ch ∧ ch ≤ 'z' then Char.ofNat (ch.toNat - 97 + 65) else ch

/-- A text with every ASCII letter converted to upper case. -/
def ToUpper (text : List Char) : List Char :=
  text.map ToUpperChar

/-- The clocks of one instruction by the class of its opcode `o`: 21 for the
jump and the load/store class, 9 for the math and the misc class, none for a
byte of another class. -/
def ClockCost (o : Nat) : Nat :=
  if o / 16 ≤ 1 then 21 else if o / 16 ≤ 3 then 9 else 0

/-- The sum of the costs of the first `n` instructions executed from `s`. -/
def TotalCost : Nat → Sim.State → Nat
  | 0, _ => 0
  | n + 1, s => ClockCost (s.memory s.preg % 256) + TotalCost n (Sim.next s)

/-- The program of the witness of claim C21: `j 4`, a byte that is skipped,
`hlt`. -/
def scenarioClocks : List Nat :=
  [0x00, 0x00, 0x04, 0x38, 0x38]

/-- The program `j 0`, a loop that does not end. -/
def scenarioLoop : List Nat :=
  [0x00, 0x00, 0x00]

/-- The states of the loop `j 0`. -/
def InLoop (s : Sim.State) : Prop :=
  s.memory = (Sim.initial scenarioLoop).memory ∧ s.preg = 0 ∧ s.c_flag = 1 ∧ s.z_flag = 1
    ∧ s.n_flag = 1 ∧ s.halted = 0

/-- Every flag that the function bits of a jump require holds a value that C
takes for true: bit 0 requires `c_flag`, bit 1 `z_flag`, bit 2 `n_flag`. -/
def FlagsSet (f : Nat) (s : Sim.State) : Prop :=
  (f.testBit 0 = true → s.c_flag ≠ 0) ∧ (f.testBit 1 = true → s.z_flag ≠ 0)
    ∧ (f.testBit 2 = true → s.n_flag ≠ 0)

/-- The invariant of the flags: each of them is 0 or 1, and `regb`, from
which the carry of the shifts is taken, is a byte. -/
def FlagsInvariant (s : Sim.State) : Prop :=
  s.regb < 256 ∧ s.c_flag ≤ 1 ∧ s.z_flag ≤ 1 ∧ s.n_flag ≤ 1

/-- The program of the witness of claim C25: `clr`, `mab`, `inc`, `jz 0`,
`hlt`. -/
def scenarioFlags : List Nat :=
  [0x28, 0x30, 0x25, 0x02, 0x00, 0x00, 0x38]

/-- The handlers of the simulator by their names in `q1sim.c`. -/
def HandlerNamed : List (List Char × (Sim.State → Sim.State)) :=
  [("ldb".toList, Sim.ldb), ("ldc".toList, Sim.ldc), ("lxh".toList, Sim.lxh),
   ("lxl".toList, Sim.lxl), ("stb".toList, Sim.stb), ("stc".toList, Sim.stc),
   ("sxh".toList, Sim.sxh), ("sxl".toList, Sim.sxl), ("sta".toList, Sim.sta),
   ("and".toList, Sim.and), ("or".toList, Sim.or), ("shl".toList, Sim.shl),
   ("shr".toList, Sim.shr), ("add".toList, Sim.add), ("inc".toList, Sim.inc),
   ("dec".toList, Sim.dec), ("not".toList, Sim.not), ("clr".toList, Sim.clr),
   ("mab".toList, Sim.mab), ("mac".toList, Sim.mac), ("sax".toList, Sim.sax),
   ("sbx".toList, Sim.sbx), ("scx".toList, Sim.scx), ("lbx".toList, Sim.lbx),
   ("lcx".toList, Sim.lcx), ("ret".toList, Sim.ret), ("hlt".toList, Sim.hlt)]

/-- The function bits that the mnemonic of a jump spells: `j`, or `c` for a
call, followed by the flags it requires, of `c`, `z`, `n`. -/
def JumpFunc (name : List Char) : Nat :=
  (if 'c' ∈ name.tail then 1 else 0) + (if 'z' ∈ name.tail then 2 else 0)
    + (if 'n' ∈ name.tail then 4 else 0) + (if name.head? = some 'c' then 8 else 0)

/-- The state after the fetch of the opcode `o` in `next`. -/
def Fetched (o : Nat) (s : Sim.State) : Sim.State :=
  { s with opcode := o, preg := (s.preg + 1) % 65536 }

/-- The state with `k` clocks counted. -/
def Clocked (k : Nat) (s : Sim.State) : Sim.State :=
  { s with clocks := (s.clocks + k) % UINT_SIZE }

namespace Compiled

/-- The text of a line after the preparation steps of `GetStatement`, before
`ParseLabel`. -/
def PreparedText (front : Char) (line : List Char) : Except Fault (List Char) :=
  match TrimWhitespace front (StripComments (StripWhitespace line)) with
  | .error e => .error e
  | .ok l => .ok (ToLower l)

/-- The statement text of a prepared line: what `ParseLabel` leaves. -/
def StatementText (front : Char) (l : List Char) : Except Fault (List Char) :=
  if ':' ∈ l then
    TrimWhitespace front (l.drop ((l.takeWhile (fun c => c ≠ ':')).length + 1))
  else .ok l

/-- The statement text of a raw line; it is empty for a line that
`GetStatement` passes over. -/
def LineText (front : Char) (line : List Char) : Except Fault (List Char) :=
  match PreparedText front line with
  | .error e => .error e
  | .ok l => StatementText front l

/-- The globals after the preparation of a raw line in Pass 1. -/
def LineState (front : Char) (line : List Char) (s : AsmState) : AsmState :=
  match PreparedText front line with
  | .error _ => s
  | .ok l => LabelState l s

/-- The number of raw bytes of the statement on a raw line: 0 for a line
without a statement. -/
def LineLength (front : Char) (line : List Char) : Nat :=
  match LineText front line with
  | .ok (c :: r) => RawLength (StatementOf (c :: r))
  | _ => 0

/-- The number of raw bytes of the statements of a sequence of lines. -/
def ProgramLength (front : Char) : List (List Char) → Nat
  | [] => 0
  | line :: fd => LineLength front line + ProgramLength front fd

/-- Pass 1 line by line: a line without a statement only has its label
added; a statement advances the counters. -/
def FirstPassLines (front : Char) : List (List Char) → AsmState → Except Fault AsmState
  | [], s => .ok s
  | line :: fd, s =>
    match LineText front line with
    | .error e => .error e
    | .ok [] => FirstPassLines front fd (LineState front line s)
    | .ok (c :: r) =>
      FirstPassLines front fd
        (FirstPassStatement (StatementOf (c :: r))
          (ParseStatement (c :: r) (LineState front line s)).2)

/-- Pass 2 line by line; `raw` holds the lines passed over since the last
statement, which the listing shows in front of the next one. -/
def SecondPassLines (front : Char) (output_format : OutputFormat) :
    List (List Char) → List (List Char) → AsmState → List Nat →
      Except Fault (List Nat × AsmState)
  | [], _, s, output => .ok (output, s)
  | line :: fd, raw, s, output =>
    match LineText front line with
    | .error e => .error e
    | .ok [] => SecondPassLines front output_format fd (raw ++ [line]) s output
    | .ok (c :: r) =>
      match SecondPassStatement output_format (StatementOf (c :: r)) (raw ++ [line])
          (ParseStatement (c :: r) s).2 with
      | .error e => .error e
      | .ok (written, s2) => SecondPassLines front output_format fd [] s2 (output ++ written)

end Compiled

/-- A source with a comment line, a label alone on its line, a blank line and
a line of blanks. -/
def scenarioBlank : List Char :=
  "; count\nloop:\n        inc\n\n   \n        j loop ; again\n".toList

/-- The second scenario of the specification with a blank line, a comment
line and the label alone on its line, as lines. -/
def scenarioTarget : List (List Char) :=
  ["        j target".toList, [], "        hlt".toList, "; the end".toList,
    "target:".toList, "        hlt".toList]

/-- A source in mixed case with a comment line, a label alone on its line and
a blank line. -/
def scenarioMixed : List Char :=
  "; Demo\nStart:\n        LDB $ff\n\n        j Start ; Back\n".toList

/-- The 16-bit word that the two statements of the operand fetch compute from
the two bytes behind the opcode at `preg`, the high byte first. -/
def OperandWord (s : Sim.State) : Nat :=
  ((s.memory ((s.preg + 1) % 65536) <<< 8) % 65536 ||| s.memory ((s.preg + 2) % 65536)) % 65536

/-! ## Theorems -/

theorem digitVal_digitChar (d : Nat) (h : d < 16) : digitVal (Nat.digitChar d) = some d := by
  interval_cases d <;> decide

theorem toDigitsCore_append (b : Nat) : ∀ (fuel n : Nat) (ds : List Char),
    Nat.toDigitsCore b fuel n ds = Nat.toDigitsCore b fuel n [] ++ ds := by
  intro fuel
  induction fuel with
  | zero => intro n ds; simp [Nat.toDigitsCore]
  | succ f ih =>
    intro n ds
    simp only [Nat.toDigitsCore]
    split
    · simp
    · rw [ih (n / b) (Nat.digitChar (n % b) :: ds), ih (n / b) [Nat.digitChar (n % b)]]
      simp

theorem toDigitsCore_digits (b : Nat) (hb : 2 ≤ b) (hb16 : b ≤ 16) : ∀ (fuel n : Nat),
    ∀ c ∈ Nat.toDigitsCore b fuel n [], IsDigitChar b c := by
  intro fuel
  induction fuel with
  | zero => intro n c hc; simp [Nat.toDigitsCore] at hc
  | succ f ih =>
    intro n c hc
    have hd : IsDigitChar b (Nat.digitChar (n % b)) :=
      ⟨n % b, Nat.mod_lt _ (by omega), digitVal_digitChar _ (by
        have := Nat.mod_lt n (show 0 < b by omega); omega)⟩
    simp only [Nat.toDigitsCore] at hc
    split at hc
    · simp at hc; rw [hc]; exact hd
    · rw [toDigitsCore_append] at hc
      simp at hc
      rcases hc with hc | hc
      · exact ih _ c hc
      · rw [hc]; exact hd

theorem toDigitsCore_value (b : Nat) (hb : 2 ≤ b) (hb16 : b ≤ 16) : ∀ (fuel n : Nat), n < fuel →
    (Nat.toDigitsCore b fuel n []).foldl (digitStep b) 0 = n := by
  intro fuel
  induction fuel with
  | zero => intro n h; omega
  | succ f ih =>
    intro n hn
    have hlt : n % b < 16 := by
      have := Nat.mod_lt n (show 0 < b by omega); omega
    simp only [Nat.toDigitsCore]
    split
    · rename_i h0
      simp [digitStep, digitVal_digitChar _ hlt]
      have := Nat.div_add_mod n b
      rw [h0] at this; omega
    · rename_i h0
      rw [toDigitsCore_append, List.foldl_append]
      have hdiv : n / b < f := by
        have : n / b < n := Nat.div_lt_self (by
          rcases Nat.eq_zero_or_pos n with h | h
          · subst h; simp at h0
          · exact h) (by omega)
        omega
      rw [ih (n / b) hdiv]
      simp [digitStep, digitVal_digitChar _ hlt]
      have := Nat.div_add_mod n b
      rw [Nat.mul_comm]; exact this

theorem strtoulDigits_run (b : Nat) (rest : List Char)
    (hrest : ∀ c, rest.head? = some c → isDigitOf b c = false) :
    ∀ (cs : List Char) (acc cnt : Nat), (∀ c ∈ cs, IsDigitChar b c) →
      strtoulDigits b (cs ++ rest) acc cnt = (cs.foldl (digitStep b) acc, cnt + cs.length) := by
  intro cs
  induction cs with
  | nil =>
    intro acc cnt _
    cases rest with
    | nil => simp [strtoulDigits]
    | cons c r =>
      have h := hrest c rfl
      simp only [isDigitOf] at h
      simp only [List.nil_append, strtoulDigits, List.foldl_nil, List.length_nil, Nat.add_zero]
      split
      · rename_i d hd
        rw [hd] at h
        simp at h
        simp [Nat.not_lt.mpr h]
      · rfl
  | cons c cs ih =>
    intro acc cnt hall
    obtain ⟨d, hdb, hd⟩ := hall c (by simp)
    simp only [List.cons_append, strtoulDigits, hd, hdb, if_true, List.foldl_cons, List.length_cons]
    rw [List.append_eq, ih _ _ (fun c hc => hall c (by simp [hc]))]
    simp [digitStep, hd]
    omega

theorem toDigits_ne_nil (b n : Nat) : Nat.toDigits b n ≠ [] := by
  unfold Nat.toDigits
  simp only [Nat.toDigitsCore]
  split
  · simp
  · rw [toDigitsCore_append]; simp

theorem isspace_of_digit (b : Nat) (hb16 : b ≤ 16) (c : Char) (h : IsDigitChar b c) :
    isspace c = false ∧ c ≠ '-' ∧ c ≠ '+' ∧ c ≠ 'x' ∧ c ≠ 'X' := by
  obtain ⟨d, hd, hv⟩ := h
  refine ⟨?_, ?_, ?_, ?_, ?_⟩
  · rw [Bool.eq_false_iff]
    intro hs
    simp only [isspace, Bool.or_eq_true, decide_eq_true_eq] at hs
    rcases hs with ((((h | h) | h) | h) | h) | h <;> subst h <;> simp [digitVal] at hv
  all_goals
    intro h; subst h; revert hv; simp [digitVal]; try omega

theorem strtoulPrefixLength_eq_zero (b : Nat) (s : List Char)
    (h : ∀ x, s.tail.head? = some x → x ≠ 'x' ∧ x ≠ 'X') : strtoulPrefixLength b s = 0 := by
  unfold strtoulPrefixLength
  split
  · rename_i x hh _
    have := h x (by simp)
    simp [this.1, this.2]
  · rfl

theorem strtoul_digits (b : Nat) (hb16 : b ≤ 16) (c0 : Char) (tl rest : List Char)
    (hall : ∀ c ∈ c0 :: tl, IsDigitChar b c)
    (hval : (c0 :: tl).foldl (digitStep b) 0 ≤ ULONG_MAX)
    (hrest : ∀ c, rest.head? = some c → isDigitOf b c = false ∧ c ≠ 'x' ∧ c ≠ 'X') :
    strtoul b (c0 :: tl ++ rest) = ((c0 :: tl).foldl (digitStep b) 0, (c0 :: tl).length) := by
  have h0 := isspace_of_digit b hb16 c0 (hall c0 (by simp))
  have hpx : strtoulPrefixLength b (c0 :: (tl ++ rest)) = 0 := by
    apply strtoulPrefixLength_eq_zero
    intro x hx
    cases tl with
    | nil =>
      simp at hx
      exact (hrest x hx).2
    | cons t tl =>
      simp at hx
      subst hx
      have := isspace_of_digit b hb16 t (hall t (by simp))
      exact ⟨this.2.2.2.1, this.2.2.2.2⟩
  have hrun := strtoulDigits_run b rest (fun c hc => (hrest c hc).1) (c0 :: tl) 0 0 hall
  have htw : List.takeWhile isspace (c0 :: (tl ++ rest)) = [] := by
    simp [List.takeWhile, h0.1]
  have hdw : List.dropWhile isspace (c0 :: (tl ++ rest)) = c0 :: (tl ++ rest) := by
    simp [List.dropWhile, h0.1]
  have hsg : (if (c0 :: (tl ++ rest)).head? = some '-' ∨ (c0 :: (tl ++ rest)).head? = some '+'
      then 1 else 0) = 0 := by
    simp [h0.2.1, h0.2.2.1]
  simp only [List.cons_append] at hrun
  simp only [strtoul, List.cons_append, htw, hdw, hsg, List.drop_zero, hpx, hrun]
  simp only [List.foldl_cons] at hval
  simp [h0.2.1]
  intro h
  omega

theorem strtoul_toDigits (b n : Nat) (hb : 2 ≤ b) (hb16 : b ≤ 16) (hn : n ≤ ULONG_MAX)
    (rest : List Char)
    (hrest : ∀ c, rest.head? = some c → isDigitOf b c = false ∧ c ≠ 'x' ∧ c ≠ 'X') :
    strtoul b (Nat.toDigits b n ++ rest) = (n, (Nat.toDigits b n).length) := by
  have hne := toDigits_ne_nil b n
  have hall : ∀ c ∈ Nat.toDigits b n, IsDigitChar b c := toDigitsCore_digits b hb hb16 _ _
  have hv : (Nat.toDigits b n).foldl (digitStep b) 0 = n :=
    toDigitsCore_value b hb hb16 _ _ (Nat.lt_succ_self n)
  cases hd : Nat.toDigits b n with
  | nil => exact absurd hd hne
  | cons c0 tl =>
    rw [hd] at hall hv
    rw [strtoul_digits b hb16 c0 tl rest hall (by rw [hv]; exact hn) hrest, hv]

theorem TokenizeFrom_skip (xs rest : List Char) :
    TokenizeFrom xs.length (xs ++ rest) = TokenizeFrom 0 rest := by
  induction xs with
  | nil => rfl
  | cons x xs ih => simpa [TokenizeFrom] using ih

theorem decimal_of_digit (c : Char) (h : IsDigitChar 10 c) : '0' ≤ c ∧ c ≤ '9' := by
  obtain ⟨d, hd, hv⟩ := h
  unfold digitVal at hv
  split at hv
  · assumption
  · split at hv
    · simp at hv; omega
    · split at hv
      · simp at hv; omega
      · simp at hv

theorem EndsNumeral_nil (b : Nat) : EndsNumeral b [] := by
  intro c h; simp at h

theorem EndsNumeral_space (b : Nat) (rest : List Char) : EndsNumeral b (' ' :: rest) := by
  intro c h
  simp at h
  subst h
  refine ⟨?_, by decide, by decide⟩
  simp [isDigitOf, digitVal]

theorem Tokenize_decimal (n : Nat) (hn : n ≤ ULONG_MAX) (rest : List Char)
    (hrest : EndsNumeral 10 rest) :
    TokenizeFrom 0 (Nat.toDigits 10 n ++ rest)
      = TOK_VALUE (n % UINT_SIZE) :: TokenizeFrom 0 rest := by
  have hst := strtoul_toDigits 10 n (by decide) (by decide) hn rest hrest
  have hall : ∀ c ∈ Nat.toDigits 10 n, IsDigitChar 10 c :=
    toDigitsCore_digits 10 (by decide) (by decide) _ _
  cases hd : Nat.toDigits 10 n with
  | nil => exact absurd hd (toDigits_ne_nil 10 n)
  | cons c0 tl =>
    rw [hd] at hst hall
    have hc := decimal_of_digit c0 (hall c0 (by simp))
    simp only [List.cons_append] at hst
    simp only [List.cons_append, TokenizeFrom, hc, and_self, if_true, List.append_eq, hst,
      List.length_cons, Nat.add_sub_cancel]
    rw [TokenizeFrom_skip]

theorem Tokenize_hex (n : Nat) (hn : n ≤ ULONG_MAX) (rest : List Char)
    (hrest : EndsNumeral 16 rest) :
    TokenizeFrom 0 ('$' :: (Nat.toDigits 16 n ++ rest))
      = TOK_VALUE (n % UINT_SIZE) :: TokenizeFrom 0 rest := by
  have hst := strtoul_toDigits 16 n (by decide) (by decide) hn rest hrest
  have h1 : ¬ ('0' ≤ '$' ∧ '$' ≤ '9') := by decide
  simp only [TokenizeFrom, h1, if_false, if_true, List.append_eq, hst]
  rw [TokenizeFrom_skip]

theorem Tokenize_binary (n : Nat) (hn : n ≤ ULONG_MAX) (rest : List Char)
    (hrest : EndsNumeral 2 rest) :
    TokenizeFrom 0 ('%' :: (Nat.toDigits 2 n ++ rest))
      = TOK_VALUE (n % UINT_SIZE) :: TokenizeFrom 0 rest := by
  have hst := strtoul_toDigits 2 n (by decide) (by decide) hn rest hrest
  have h1 : ¬ ('0' ≤ '%' ∧ '%' ≤ '9') := by decide
  have h2 : ¬ ('%' = '$') := by decide
  simp only [TokenizeFrom, h1, h2, if_false, if_true, List.append_eq, hst]
  rw [TokenizeFrom_skip]

theorem Tokenize_space (rest : List Char) :
    TokenizeFrom 0 (' ' :: rest) = TokenizeFrom 0 rest := rfl

theorem Tokenize_add (rest : List Char) :
    TokenizeFrom 0 ('+' :: rest) = TOK_ADD :: TokenizeFrom 0 rest := rfl

theorem Tokenize_multiply (rest : List Char) :
    TokenizeFrom 0 ('*' :: rest) = TOK_MULTIPLY :: TokenizeFrom 0 rest := rfl

theorem Tokenize_divide (rest : List Char) :
    TokenizeFrom 0 ('/' :: rest) = TOK_DIVIDE :: TokenizeFrom 0 rest := rfl

theorem uint_le_ulong (n : Nat) (h : n < 2 ^ 32) : n ≤ ULONG_MAX := by
  unfold ULONG_MAX; omega

theorem uint_mod (n : Nat) (h : n < 2 ^ 32) : n % UINT_SIZE = n := by
  unfold UINT_SIZE; omega

/-- Claim C4. Multiplication binds tighter than addition: for all 32-bit values
`a`, `b`, `c` the expression `a + b * c`, written with decimal numerals, is
tokenized into its five tokens; `Eval1` returns `(a + b * c) mod 2 ^ 32` with
the token cursor at the end and the globals unchanged; and `Evaluate` returns
that value without a message. -/
theorem Evaluate_add_mul (a b c : Nat) (ha : a < 2 ^ 32) (hb : b < 2 ^ 32) (hc : c < 2 ^ 32)
    (s : AsmState) :
    Tokenize (Nat.toDigits 10 a ++ " + ".toList ++ Nat.toDigits 10 b ++ " * ".toList
        ++ Nat.toDigits 10 c)
      = [TOK_VALUE a, TOK_ADD, TOK_VALUE b, TOK_MULTIPLY, TOK_VALUE c]
    ∧ Eval1 6 [TOK_VALUE a, TOK_ADD, TOK_VALUE b, TOK_MULTIPLY, TOK_VALUE c] s
      = .ok ((a + b * c) % 2 ^ 32, [], s)
    ∧ Evaluate (Nat.toDigits 10 a ++ " + ".toList ++ Nat.toDigits 10 b ++ " * ".toList
        ++ Nat.toDigits 10 c) s
      = .ok ((a + b * c) % 2 ^ 32, s) := by
  have htok : Tokenize (Nat.toDigits 10 a ++ " + ".toList ++ Nat.toDigits 10 b ++ " * ".toList
        ++ Nat.toDigits 10 c)
      = [TOK_VALUE a, TOK_ADD, TOK_VALUE b, TOK_MULTIPLY, TOK_VALUE c] := by
    have e1 : " + ".toList = [' ', '+', ' '] := rfl
    have e2 : " * ".toList = [' ', '*', ' '] := rfl
    have hc0 := Tokenize_decimal c (uint_le_ulong c hc) [] (EndsNumeral_nil 10)
    rw [List.append_nil] at hc0
    unfold Tokenize
    rw [e1, e2]
    simp only [List.append_assoc, List.cons_append, List.nil_append]
    rw [Tokenize_decimal a (uint_le_ulong a ha) _ (EndsNumeral_space 10 _), Tokenize_space,
      Tokenize_add, Tokenize_space,
      Tokenize_decimal b (uint_le_ulong b hb) _ (EndsNumeral_space 10 _), Tokenize_space,
      Tokenize_multiply, Tokenize_space, hc0, uint_mod a ha, uint_mod b hb, uint_mod c hc]
    rfl
  have hev : Eval1 6 [TOK_VALUE a, TOK_ADD, TOK_VALUE b, TOK_MULTIPLY, TOK_VALUE c] s
      = .ok ((a + b * c) % 2 ^ 32, [], s) := by
    simp [Eval1, Eval1Body, Eval2, Eval3, Eval4, UINT_SIZE]
  refine ⟨htok, hev, ?_⟩
  unfold Evaluate
  rw [htok]
  simp only [List.length_cons, List.length_nil]
  rw [hev]

theorem digitVal_toUpper_digitChar (d : Nat) (h : d < 16) :
    digitVal (Char.toUpper (Nat.digitChar d)) = some d := by
  interval_cases d <;> decide

theorem toDigitsCore_chars (b : Nat) (hb : 2 ≤ b) : ∀ (fuel n : Nat),
    ∀ c ∈ Nat.toDigitsCore b fuel n [], ∃ d, d < b ∧ c = Nat.digitChar d := by
  intro fuel
  induction fuel with
  | zero => intro n c hc; simp [Nat.toDigitsCore] at hc
  | succ f ih =>
    intro n c hc
    have hd : ∃ d, d < b ∧ Nat.digitChar (n % b) = Nat.digitChar d :=
      ⟨n % b, Nat.mod_lt _ (by omega), rfl⟩
    simp only [Nat.toDigitsCore] at hc
    split at hc
    · simp at hc; rw [hc]; exact hd
    · rw [toDigitsCore_append] at hc
      simp at hc
      rcases hc with hc | hc
      · exact ih _ c hc
      · rw [hc]; exact hd

theorem foldl_digitStep_upper (l : List Char) (h : ∀ c ∈ l, ∃ d, d < 16 ∧ c = Nat.digitChar d) :
    ∀ acc, (l.map Char.toUpper).foldl (digitStep 16) acc = l.foldl (digitStep 16) acc := by
  induction l with
  | nil => intro acc; rfl
  | cons c l ih =>
    intro acc
    obtain ⟨d, hd, hc⟩ := h c (by simp)
    simp only [List.map_cons, List.foldl_cons]
    rw [ih (fun c hc => h c (by simp [hc]))]
    congr 1
    simp [digitStep, hc, digitVal_toUpper_digitChar d hd, digitVal_digitChar d hd]

theorem Tokenize_hex_upper (n : Nat) (hn : n ≤ ULONG_MAX) (rest : List Char)
    (hrest : EndsNumeral 16 rest) :
    TokenizeFrom 0 ('$' :: ((Nat.toDigits 16 n).map Char.toUpper ++ rest))
      = TOK_VALUE (n % UINT_SIZE) :: TokenizeFrom 0 rest := by
  have hch : ∀ c ∈ Nat.toDigits 16 n, ∃ d, d < 16 ∧ c = Nat.digitChar d :=
    toDigitsCore_chars 16 (by decide) _ _
  have hv : (Nat.toDigits 16 n).foldl (digitStep 16) 0 = n :=
    toDigitsCore_value 16 (by decide) (by decide) _ _ (Nat.lt_succ_self n)
  have hvu := foldl_digitStep_upper _ hch 0
  rw [hv] at hvu
  have hall : ∀ c ∈ (Nat.toDigits 16 n).map Char.toUpper, IsDigitChar 16 c := by
    intro c hc
    simp only [List.mem_map] at hc
    obtain ⟨c1, hc1, rfl⟩ := hc
    obtain ⟨d, hd, rfl⟩ := hch c1 hc1
    exact ⟨d, hd, digitVal_toUpper_digitChar d hd⟩
  have hst : strtoul 16 ((Nat.toDigits 16 n).map Char.toUpper ++ rest)
      = (n, ((Nat.toDigits 16 n).map Char.toUpper).length) := by
    cases hd : (Nat.toDigits 16 n).map Char.toUpper with
    | nil => simp at hd; exact absurd hd (toDigits_ne_nil 16 n)
    | cons c0 tl =>
      rw [hd] at hall hvu
      rw [strtoul_digits 16 (by decide) c0 tl rest hall (by rw [hvu]; exact hn) hrest,
        hvu]
  have h1 : ¬ ('0' ≤ '$' ∧ '$' ≤ '9') := by decide
  simp only [TokenizeFrom, h1, if_false, if_true, List.append_eq, hst]
  rw [TokenizeFrom_skip]

theorem Evaluate_value (expr : List Char) (v : Nat) (s : AsmState)
    (h : Tokenize expr = [TOK_VALUE v]) : Evaluate expr s = .ok (v, s) := by
  unfold Evaluate
  rw [h]
  simp [Eval1, Eval1Body, Eval2, Eval3, Eval4]

/-- Claim C6. For every `n < 2 ^ 32`, `Evaluate` returns `n`, without a message,
for the decimal numeral of `n`, for `$` with the hexadecimal numeral of `n`
(in lower-case or in upper-case digits), and for `%` with the binary numeral
of `n`. -/
theorem Evaluate_numeral (n : Nat) (hn : n < 2 ^ 32) (s : AsmState) :
    Evaluate (Nat.toDigits 10 n) s = .ok (n, s)
    ∧ Evaluate ('$' :: Nat.toDigits 16 n) s = .ok (n, s)
    ∧ Evaluate ('$' :: (Nat.toDigits 16 n).map Char.toUpper) s = .ok (n, s)
    ∧ Evaluate ('%' :: Nat.toDigits 2 n) s = .ok (n, s) := by
  have hu := uint_le_ulong n hn
  have hm := uint_mod n hn
  refine ⟨?_, ?_, ?_, ?_⟩ <;> apply Evaluate_value <;> unfold Tokenize
  · have := Tokenize_decimal n hu [] (EndsNumeral_nil 10)
    rw [List.append_nil, hm] at this
    exact this
  · have := Tokenize_hex n hu [] (EndsNumeral_nil 16)
    rw [List.append_nil, hm] at this
    exact this
  · have := Tokenize_hex_upper n hu [] (EndsNumeral_nil 16)
    rw [List.append_nil, hm] at this
    exact this
  · have := Tokenize_binary n hu [] (EndsNumeral_nil 2)
    rw [List.append_nil, hm] at this
    exact this

/-- Claim C6, witness: the numerals of 255; `$FF + 1` is 256, `%1010` is 10, and
`db $ff`, `db %10101010` are the bytes `FF AA`. -/
theorem Evaluate_numeral_witness :
    (255 < 2 ^ 32)
    ∧ (Evaluate (Nat.toDigits 10 255) AsmState.init = .ok (255, AsmState.init)
      ∧ Evaluate ('$' :: Nat.toDigits 16 255) AsmState.init = .ok (255, AsmState.init)
      ∧ Evaluate ('$' :: (Nat.toDigits 16 255).map Char.toUpper) AsmState.init
        = .ok (255, AsmState.init)
      ∧ Evaluate ('%' :: Nat.toDigits 2 255) AsmState.init = .ok (255, AsmState.init))
    ∧ Evaluate "$FF + 1".toList AsmState.init = .ok (256, AsmState.init)
    ∧ Evaluate "%1010".toList AsmState.init = .ok (10, AsmState.init)
    ∧ DoFirstPass (ReadLines "        db $ff\n        db %10101010\n".toList) AsmState.init
      = .ok ⟨0, [], 2, 2, []⟩
    ∧ DoSecondPass OUT_RAW (ReadLines "        db $ff\n        db %10101010\n".toList)
        ⟨0, [], 2, 2, []⟩
      = .ok ([0xFF, 0xAA], ⟨0, [], 2, 2, []⟩) :=
  ⟨by decide, Evaluate_numeral 255 (by decide) AsmState.init, by decide!, by decide!,
    by decide!, by decide!⟩

/-- Claim C8, amended. For every 32-bit value `a`, evaluating `a / 0` reports a
division by zero (one message, the error counter one higher) and the division
yields its left operand `a`: `Eval2` leaves `result` as it is. -/
theorem Evaluate_divide_zero (a : Nat) (ha : a < 2 ^ 32) (s : AsmState) :
    Evaluate (Nat.toDigits 10 a ++ " / 0".toList) s
      = .ok (a, { s with error_count := s.error_count + 1 }.report "ERROR: division by zero\n") := by
  have htok : Tokenize (Nat.toDigits 10 a ++ " / 0".toList)
      = [TOK_VALUE a, TOK_DIVIDE, TOK_VALUE 0] := by
    have e1 : " / 0".toList = [' ', '/', ' ', '0'] := rfl
    have e2 : TokenizeFrom 0 ['0'] = [TOK_VALUE 0] := by decide
    unfold Tokenize
    rw [e1, Tokenize_decimal a (uint_le_ulong a ha) _ (EndsNumeral_space 10 _), Tokenize_space,
      Tokenize_divide, Tokenize_space, e2, uint_mod a ha]
  unfold Evaluate
  rw [htok]
  simp [Eval1, Eval1Body, Eval2, Eval3, Eval4]

theorem MatchName_eq_some (op_name : List Char) : ∀ (line rem : List Char),
    MatchName op_name line = some rem ↔ line = op_name ++ rem := by
  induction op_name with
  | nil => intro line rem; simp [MatchName, eq_comm]
  | cons a n ih =>
    intro line rem
    cases line with
    | nil => simp [MatchName]
    | cons b line =>
      simp only [MatchName, List.cons_append, List.cons.injEq]
      by_cases h : b = a
      · simp [h, ih]
      · simp [h]

theorem FirstWord_append (n rem : List Char) (hn : ∀ c ∈ n, isspace c = false) :
    FirstWord (n ++ rem) = n ++ FirstWord rem := by
  unfold FirstWord
  induction n with
  | nil => rfl
  | cons c n ih =>
    have hc := hn c (by simp)
    simp only [List.cons_append, List.takeWhile_cons, hc, Bool.not_false, if_true]
    rw [ih (fun c hc => hn c (by simp [hc]))]

theorem FirstWord_append_drop (line : List Char) :
    line = FirstWord line ++ line.drop (FirstWord line).length := by
  unfold FirstWord
  induction line with
  | nil => rfl
  | cons c line ih =>
    by_cases hc : isspace c = true
    · simp [List.takeWhile_cons, hc]
    · simp only [Bool.not_eq_true] at hc
      simp only [List.takeWhile_cons, hc, Bool.not_false, if_true, List.length_cons,
        List.drop_succ_cons, List.cons_append, List.cons.injEq, true_and]
      exact ih

theorem FirstWord_rest (line : List Char) :
    ∀ c rest, line.drop (FirstWord line).length = c :: rest → isspace c = true := by
  unfold FirstWord
  induction line with
  | nil => intro c rest h; simp at h
  | cons d line ih =>
    intro c rest h
    by_cases hd : isspace d = true
    · simp [List.takeWhile_cons, hd] at h
      rw [← h.1]; exact hd
    · simp only [Bool.not_eq_true] at hd
      simp only [List.takeWhile_cons, hd, Bool.not_false, if_true, List.length_cons,
        List.drop_succ_cons] at h
      exact ih c rest h

theorem LookupInstruction_eq (table : List InstructionMapType)
    (hns : ∀ d ∈ table, ∀ c ∈ d.name, isspace c = false) (line : List Char) :
    LookupInstruction table line
      = (table.find? (fun d => d.name = FirstWord line)).map
          (fun d => (d, ArgumentAfter d.name.length line)) := by
  induction table with
  | nil => rfl
  | cons d table ih =>
    have ih1 := ih (fun d hd => hns d (by simp [hd]))
    have hd := hns d (by simp)
    simp only [LookupInstruction, List.find?_cons]
    cases hm : MatchName d.name line with
    | none =>
      have hne : ¬ d.name = FirstWord line := by
        intro he
        have := (MatchName_eq_some d.name line
          (line.drop (FirstWord line).length)).mpr (by
            rw [he]; exact FirstWord_append_drop line)
        rw [hm] at this
        exact absurd this (by simp)
      simp [hne, ih1]
    | some rem =>
      have hl := (MatchName_eq_some _ _ _).mp hm
      cases rem with
      | nil =>
        have he : d.name = FirstWord line := by
          rw [hl, FirstWord_append _ _ hd]; simp [FirstWord]
        simp only [he, decide_True, Option.map_some']
        rw [← he]
        simp [ArgumentAfter, hl]
      | cons c rest =>
        by_cases hc : isspace c = true
        · have he : d.name = FirstWord line := by
            rw [hl, FirstWord_append _ _ hd]; simp [FirstWord, hc]
          simp only [hc, if_true, he, decide_True, Option.map_some']
          rw [← he]
          simp [ArgumentAfter, hl]
        · have hne : ¬ d.name = FirstWord line := by
            intro he
            rw [hl, FirstWord_append _ _ hd] at he
            simp only [Bool.not_eq_true] at hc
            simp [FirstWord, hc] at he
          simp [hc, hne, ih1]

theorem INSTRUCTION_MAP_no_space :
    ∀ d ∈ INSTRUCTION_MAP, ∀ c ∈ d.name, isspace c = false := by decide

set_option maxRecDepth 100000 in
theorem INSTRUCTION_MAP_name_inj :
    ∀ d ∈ INSTRUCTION_MAP, ∀ e ∈ INSTRUCTION_MAP, d.name = e.name → d = e := by decide

set_option maxRecDepth 100000 in
theorem INSTRUCTION_MAP_opcode_inj :
    ∀ d ∈ INSTRUCTION_MAP, ∀ e ∈ INSTRUCTION_MAP, d.opcode = e.opcode → d = e := by decide

theorem INSTRUCTION_MAP_valid : ∀ d ∈ INSTRUCTION_MAP, d.opcode ≠ INVALID_OP := by decide

theorem ParseStatement_of_find_none (line : List Char) (s : AsmState)
    (h : INSTRUCTION_MAP.find? (fun d => d.name = FirstWord line) = none) :
    (ParseStatement line s).1 = { arg := none, op := INVALID_OP }
    ∧ (ParseStatement line s).2.error_count = s.error_count + 1 := by
  unfold ParseStatement
  rw [LookupInstruction_eq _ INSTRUCTION_MAP_no_space, h]
  simp [AsmState.report]

theorem ParseStatement_of_find_some (line : List Char) (s : AsmState) (d : InstructionMapType)
    (h : INSTRUCTION_MAP.find? (fun d => d.name = FirstWord line) = some d) :
    (((ArgumentAfter d.name.length line).isSome ↔ 0 < d.arg_count) →
      ParseStatement line s = ({ arg := ArgumentAfter d.name.length line, op := d.opcode }, s))
    ∧ (¬ ((ArgumentAfter d.name.length line).isSome ↔ 0 < d.arg_count) →
      (ParseStatement line s).1 = { arg := none, op := INVALID_OP }
      ∧ (ParseStatement line s).2.error_count = s.error_count + 1) := by
  unfold ParseStatement
  rw [LookupInstruction_eq _ INSTRUCTION_MAP_no_space, h]
  simp only [Option.map_some']
  cases ha : ArgumentAfter d.name.length line with
  | none =>
    rcases Nat.eq_zero_or_pos d.arg_count with h0 | h0
    · simp [h0]
    · simp [h0, AsmState.report]
  | some a =>
    rcases Nat.eq_zero_or_pos d.arg_count with h0 | h0
    · simp [h0, AsmState.report]
    · simp [h0]; omega

/-- Claim C10. For every line and every descriptor `d` of the table,
`ParseStatement` returns the opcode of `d` with the text after the separator
as argument if and only if the first word of the line is the mnemonic of `d`
and an argument is there exactly when `d` takes one (`Selects`); the globals
are then unchanged. When no descriptor is selected, it returns `INVALID_OP`
without argument and the error counter is one higher. The first word is
compared as a whole, so a mnemonic that is a prefix of the word is never
taken for it. -/
theorem ParseStatement_spec (line : List Char) (s : AsmState) :
    (∀ d ∈ INSTRUCTION_MAP,
      ((ParseStatement line s).1 = { arg := ArgumentAfter d.name.length line, op := d.opcode }
        ↔ Selects d line)
      ∧ (Selects d line → (ParseStatement line s).2 = s))
    ∧ ((∀ d ∈ INSTRUCTION_MAP, ¬ Selects d line) →
      (ParseStatement line s).1 = { arg := none, op := INVALID_OP }
      ∧ (ParseStatement line s).2.error_count = s.error_count + 1) := by
  cases hf : INSTRUCTION_MAP.find? (fun d => d.name = FirstWord line) with
  | none =>
    have hinv := ParseStatement_of_find_none line s hf
    have hno : ∀ d ∈ INSTRUCTION_MAP, ¬ Selects d line := by
      intro d hd hsel
      have := List.find?_eq_none.mp hf d hd
      simp [hsel.1] at this
    refine ⟨fun d hd => ⟨⟨fun h => ?_, fun h => absurd h (hno d hd)⟩,
      fun h => absurd h (hno d hd)⟩, fun _ => hinv⟩
    rw [hinv.1] at h
    have := INSTRUCTION_MAP_valid d hd
    simp only [StatementType.mk.injEq] at h
    exact absurd h.2.symm this
  | some e =>
    have he : e ∈ INSTRUCTION_MAP := List.mem_of_find?_eq_some hf
    have hen : e.name = FirstWord line := by
      have := List.find?_some hf
      simpa using this
    have hsome := ParseStatement_of_find_some line s e hf
    have huniq : ∀ d ∈ INSTRUCTION_MAP, Selects d line → d = e := fun d hd hsel =>
      INSTRUCTION_MAP_name_inj d hd e he (by rw [hsel.1, hen])
    refine ⟨fun d hd => ⟨⟨fun h => ?_, fun h => ?_⟩, fun h => ?_⟩, fun hno => ?_⟩
    · by_cases hok : ((ArgumentAfter e.name.length line).isSome ↔ 0 < e.arg_count)
      · rw [hsome.1 hok] at h
        simp only [StatementType.mk.injEq] at h
        have hde := INSTRUCTION_MAP_opcode_inj e he d hd h.2
        subst hde
        exact ⟨hen, hok⟩
      · rw [(hsome.2 hok).1] at h
        simp only [StatementType.mk.injEq] at h
        exact absurd h.2.symm (INSTRUCTION_MAP_valid d hd)
    · have hde := huniq d hd h
      subst hde
      rw [hsome.1 h.2]
    · have hde := huniq d hd h
      subst hde
      rw [hsome.1 h.2]
    · have hnot : ¬ ((ArgumentAfter e.name.length line).isSome ↔ 0 < e.arg_count) :=
        fun hok => hno e he ⟨hen, hok⟩
      exact hsome.2 hnot

/-- Mnemonics that are prefixes of others (`j` and `jc`, `c` and `cc`), and the
arity errors. -/
theorem ParseStatement_examples :
    (ParseStatement "j loop".toList AsmState.init).1 = { arg := some "loop".toList, op := 0x00 }
    ∧ (ParseStatement "jc loop".toList AsmState.init).1 = { arg := some "loop".toList, op := 0x01 }
    ∧ (ParseStatement "c sub".toList AsmState.init).1 = { arg := some "sub".toList, op := 0x08 }
    ∧ (ParseStatement "cc sub".toList AsmState.init).1 = { arg := some "sub".toList, op := 0x09 }
    ∧ (ParseStatement "jx loop".toList AsmState.init).1 = { arg := none, op := 0xFF }
    ∧ (ParseStatement "hlt".toList AsmState.init).1 = { arg := none, op := 0x38 }
    ∧ (ParseStatement "hlt 1".toList AsmState.init).1 = { arg := none, op := 0xFF }
    ∧ (ParseStatement "hlt 1".toList AsmState.init).2.error_count = 1
    ∧ (ParseStatement "j".toList AsmState.init).1 = { arg := none, op := 0xFF } := by
  decide

theorem FindSymbol_isSome (symbols : List SymbolNode) (name : List Char) :
    (FindSymbol symbols name).isSome ↔ name ∈ SymbolNames symbols := by
  unfold FindSymbol SymbolNames
  rw [List.find?_isSome]
  simp [eq_comm]

theorem FindSymbol_name (symbols : List SymbolNode) (name : List Char) (sp : SymbolNode)
    (h : FindSymbol symbols name = some sp) : sp.name = name := by
  have := List.find?_some h
  simpa using this

theorem AddSymbol_present (symbols : List SymbolNode) (name : List Char) (value : Nat)
    (h : name ∈ SymbolNames symbols) : AddSymbol symbols name value = (false, symbols) := by
  have hs := (FindSymbol_isSome symbols name).mpr h
  unfold AddSymbol
  cases hf : FindSymbol symbols name with
  | none => rw [hf] at hs; simp at hs
  | some sp => rfl

theorem AddSymbol_absent (symbols : List SymbolNode) (name : List Char) (value : Nat)
    (h : name ∉ SymbolNames symbols) :
    AddSymbol symbols name value = (true, { name := name, addr := value } :: symbols) := by
  unfold AddSymbol
  cases hf : FindSymbol symbols name with
  | none => rfl
  | some sp =>
    have := (FindSymbol_isSome symbols name).mp (by rw [hf]; rfl)
    exact absurd this h

theorem AddSymbol_nodup (symbols : List SymbolNode) (name : List Char) (value : Nat)
    (h : (SymbolNames symbols).Nodup) :
    (SymbolNames (AddSymbol symbols name value).2).Nodup := by
  by_cases hm : name ∈ SymbolNames symbols
  · rw [AddSymbol_present _ _ _ hm]; exact h
  · rw [AddSymbol_absent _ _ _ hm]
    simp only [SymbolNames, List.map_cons, List.nodup_cons]
    exact ⟨hm, h⟩

theorem AddSymbols_nodup (adds : List (List Char × Nat)) : ∀ (symbols : List SymbolNode),
    (SymbolNames symbols).Nodup → (SymbolNames (AddSymbols symbols adds)).Nodup := by
  induction adds with
  | nil => intro symbols h; exact h
  | cons a adds ih =>
    intro symbols h
    exact ih _ (AddSymbol_nodup symbols a.1 a.2 h)

theorem takeWhile_label (name rest : List Char) (h : ':' ∉ name) :
    (name ++ ':' :: rest).takeWhile (fun c => c ≠ ':') = name := by
  induction name with
  | nil => simp
  | cons c name ih =>
    have hc : c ≠ ':' := fun he => h (by simp [he])
    simp only [List.cons_append, List.takeWhile_cons, hc, ne_eq, not_false_eq_true, decide_True,
      if_true, List.cons.injEq, true_and]
    exact ih (fun hm => h (by simp [hm]))

theorem ParseLabel_label (name rest : List Char) (h : ':' ∉ name) (do_add : Bool) (s : AsmState) :
    ParseLabel (name ++ ':' :: rest) do_add s =
      match TrimWhitespace rest with
      | .error e => .error e
      | .ok r => .ok (r,
          if do_add then
            match AddSymbol s.symbols name s.current_address with
            | (true, symbols) => { s with symbols := symbols }
            | (false, _) =>
              { s with error_count := s.error_count + 1 }.report
                ("ERROR: duplicate symbol: \"" ++ String.mk name ++ "\"\n")
          else s) := by
  unfold ParseLabel
  have hmem : ':' ∈ name ++ ':' :: rest := by simp
  simp only [hmem, if_true, takeWhile_label name rest h]
  have hd : List.drop (name.length + 1) (name ++ ':' :: rest) = rest := by
    rw [show name.length + 1 = (name ++ [':']).length by simp,
      show name ++ ':' :: rest = (name ++ [':']) ++ rest by simp, List.drop_left]
  rw [hd]

/-- Claim C9. For every symbol table and every name present in it, `AddSymbol`
returns 0 and leaves the table as it is, so `FindSymbol` still returns the
first definition; `ParseLabel` in Pass 1, on a line with that name as label,
leaves the table as it is and raises the error counter by exactly one (then
it trims the rest of the line, which is where it can leave the line); and
every table built from the empty one by calls of `AddSymbol` has pairwise
distinct names. -/
theorem AddSymbol_duplicate (symbols : List SymbolNode) (name : List Char) (value : Nat)
    (h : name ∈ SymbolNames symbols) :
    AddSymbol symbols name value = (false, symbols)
    ∧ FindSymbol (AddSymbol symbols name value).2 name = FindSymbol symbols name
    ∧ (∀ (s : AsmState) (rest : List Char), s.symbols = symbols → ':' ∉ name →
        ParseLabel (name ++ ':' :: rest) true s =
          match TrimWhitespace rest with
          | .error e => .error e
          | .ok r =>
            .ok (r, { s with error_count := s.error_count + 1 }.report
              ("ERROR: duplicate symbol: \"" ++ String.mk name ++ "\"\n")))
    ∧ (∀ adds : List (List Char × Nat), (SymbolNames (AddSymbols [] adds)).Nodup) := by
  have h1 := AddSymbol_present symbols name value h
  refine ⟨h1, by rw [h1], ?_, fun adds => AddSymbols_nodup adds [] (by simp [SymbolNames])⟩
  intro s rest hs hn
  rw [ParseLabel_label name rest hn]
  simp only [if_true]
  rw [hs, AddSymbol_present symbols name s.current_address h]

/-- Claim C9, witness: `foo: hlt`, `foo: hlt` gives exactly one error. -/
theorem AddSymbol_duplicate_witness :
    "foo".toList ∈ SymbolNames [{ name := "foo".toList, addr := 0 }]
    ∧ AddSymbol [{ name := "foo".toList, addr := 0 }] "foo".toList 1
        = (false, [{ name := "foo".toList, addr := 0 }])
    ∧ (DoFirstPass (ReadLines "foo:    hlt\nfoo:    hlt\n".toList) AsmState.init).map
        (fun s => (s.error_count, s.symbols))
        = .ok (1, [{ name := "foo".toList, addr := 0 }]) :=
  ⟨by decide,
    (AddSymbol_duplicate [{ name := "foo".toList, addr := 0 }] "foo".toList 1 (by decide)).1,
    by decide⟩

theorem and_255 (v : Nat) : (v &&& 0xFF) % 256 = v % 256 := by
  have := Nat.and_pow_two_sub_one_eq_mod v 8
  norm_num at this
  rw [this]
  omega

/-- Claim C3. In raw format one iteration of the loop of `DoSecondPass` writes:
for an opcode other than `db`, `dw` without argument the byte `[opcode]`; and
when the argument evaluates to `v`, `[opcode, (v >> 8) mod 256, v mod 256]`
for an opcode other than `db`, `dw`, `[v mod 256]` for `db`, and
`[(v >> 8) mod 256, v mod 256]` for `dw`. -/
theorem SecondPassStatement_raw (statement : StatementType) (line : List (List Char))
    (s : AsmState) :
    (statement.arg = none → statement.op ≠ BYTE_OP → statement.op ≠ WORD_OP →
      (SecondPassStatement OUT_RAW statement line s).map Prod.fst = .ok [statement.op])
    ∧ (∀ (a : List Char) (v : Nat) (s1 : AsmState),
        statement.arg = some a → Evaluate a s = .ok (v, s1) →
        (statement.op ≠ BYTE_OP → statement.op ≠ WORD_OP →
          (SecondPassStatement OUT_RAW statement line s).map Prod.fst
            = .ok [statement.op, (v >>> 8) % 256, v % 256])
        ∧ (statement.op = BYTE_OP →
          (SecondPassStatement OUT_RAW statement line s).map Prod.fst = .ok [v % 256])
        ∧ (statement.op = WORD_OP →
          (SecondPassStatement OUT_RAW statement line s).map Prod.fst
            = .ok [(v >>> 8) % 256, v % 256])) := by
  refine ⟨?_, ?_⟩
  · intro ha hb hw
    simp [SecondPassStatement, OutputStatement, ha, hb, hw, Except.map]
  · intro a v s1 ha hev
    refine ⟨?_, ?_, ?_⟩
    · intro hb hw
      simp [SecondPassStatement, OutputStatement, ha, hev, hb, hw, Except.map, and_255]
    · intro hb
      simp [SecondPassStatement, OutputStatement, ha, hev, hb, Except.map]
    · intro hw
      have hb : ¬ (WORD_OP = BYTE_OP) := by decide
      simp [SecondPassStatement, OutputStatement, ha, hev, hw, hb, Except.map, and_255]

/-- Claim C3, witness: `sta $100` is `18 01 00`. -/
theorem SecondPassStatement_raw_witness :
    ((⟨some "$100".toList, 0x18⟩ : StatementType).arg = some "$100".toList
      ∧ Evaluate "$100".toList AsmState.init = .ok (256, AsmState.init)
      ∧ (0x18 : Nat) ≠ BYTE_OP ∧ (0x18 : Nat) ≠ WORD_OP)
    ∧ (SecondPassStatement OUT_RAW ⟨some "$100".toList, 0x18⟩ [] AsmState.init).map Prod.fst
        = .ok [0x18, (256 >>> 8) % 256, 256 % 256] :=
  ⟨⟨rfl, by decide, by decide, by decide⟩,
    ((SecondPassStatement_raw ⟨some "$100".toList, 0x18⟩ [] AsmState.init).2
      "$100".toList 256 AsmState.init rfl (by decide)).1 (by decide) (by decide)⟩

/-- The first scenario of the specification assembles to
`28 25 30 25 30 25 18 01 00 38`, with a byte count of 10. -/
theorem scenarioAdd_raw :
    DoFirstPass (ReadLines scenarioAdd) AsmState.init
      = .ok ⟨0, [⟨"start".toList, 0⟩], 10, 10, []⟩
    ∧ DoSecondPass OUT_RAW (ReadLines scenarioAdd) ⟨0, [⟨"start".toList, 0⟩], 10, 10, []⟩
      = .ok ([0x28, 0x25, 0x30, 0x25, 0x30, 0x25, 0x18, 0x01, 0x00, 0x38],
          ⟨0, [⟨"start".toList, 0⟩], 10, 10, []⟩) := by
  constructor <;> decide!

/-- Claim C4, witness: `2 + 3 * 4` is 14 and `db 2 + 3 * 4` is the byte `0x0E`. -/
theorem Evaluate_add_mul_witness :
    ((2 < 2 ^ 32 ∧ 3 < 2 ^ 32 ∧ 4 < 2 ^ 32)
      ∧ Evaluate (Nat.toDigits 10 2 ++ " + ".toList ++ Nat.toDigits 10 3 ++ " * ".toList
          ++ Nat.toDigits 10 4) AsmState.init
        = .ok ((2 + 3 * 4) % 2 ^ 32, AsmState.init))
    ∧ Evaluate "2 + 3 * 4".toList AsmState.init = .ok (14, AsmState.init)
    ∧ DoFirstPass (ReadLines "val:    db 2 + 3 * 4\n".toList) AsmState.init
      = .ok ⟨0, [⟨"val".toList, 0⟩], 1, 1, []⟩
    ∧ DoSecondPass OUT_RAW (ReadLines "val:    db 2 + 3 * 4\n".toList)
        ⟨0, [⟨"val".toList, 0⟩], 1, 1, []⟩
      = .ok ([0x0E], ⟨0, [⟨"val".toList, 0⟩], 1, 1, []⟩) :=
  ⟨⟨⟨by decide, by decide, by decide⟩,
      (Evaluate_add_mul 2 3 4 (by decide) (by decide) (by decide) AsmState.init).2.2⟩,
    by decide!, by decide!, by decide!⟩

/-- Claim C5, the code at `(1 + 2) * 3`. `Eval4` tests for the `)` behind the
inner expression but does not step over it, so `Eval2` finds `)` where it
looks for `*`: `Evaluate` returns 3 and reports an invalid expression. -/
theorem Evaluate_paren_times :
    Evaluate "(1 + 2) * 3".toList AsmState.init
      = .ok (3, AsmState.init.report "ERROR: invalid expression\n")
    ∧ Tokenize "(1 + 2) * 3".toList
      = [TOK_LPAREN, TOK_VALUE 1, TOK_ADD, TOK_VALUE 2, TOK_RPAREN, TOK_MULTIPLY, TOK_VALUE 3]
    ∧ Eval1 8 (Tokenize "(1 + 2) * 3".toList) AsmState.init
      = .ok (3, [TOK_RPAREN, TOK_MULTIPLY, TOK_VALUE 3], AsmState.init) := by
  refine ⟨?_, ?_, ?_⟩ <;> decide!

/-- Claim C7, the code at an undefined symbol. `Eval4` returns 0 and writes
`symbol not found`, but does not count an error: `j nowhere` assembles to
`00 00 00` with an error count of 0. -/
theorem Evaluate_undefined_symbol :
    Evaluate "nowhere".toList AsmState.init
      = .ok (0, AsmState.init.report "ERROR: symbol not found: \"nowhere\"\n")
    ∧ (AsmState.init.report "ERROR: symbol not found: \"nowhere\"\n").error_count = 0
    ∧ DoFirstPass (ReadLines "        j nowhere\n".toList) AsmState.init
      = .ok ⟨0, [], 3, 3, []⟩
    ∧ DoSecondPass OUT_RAW (ReadLines "        j nowhere\n".toList) ⟨0, [], 3, 3, []⟩
      = .ok ([0, 0, 0], ⟨0, [], 3, 3, ["ERROR: symbol not found: \"nowhere\"\n"]⟩) := by
  refine ⟨?_, ?_, ?_, ?_⟩ <;> decide!

/-- Claim C8, witness: `5 / 0`. -/
theorem Evaluate_divide_zero_witness :
    5 < 2 ^ 32
    ∧ Evaluate (Nat.toDigits 10 5 ++ " / 0".toList) AsmState.init
      = .ok (5, { AsmState.init with error_count := AsmState.init.error_count + 1 }.report
          "ERROR: division by zero\n") :=
  ⟨by decide, Evaluate_divide_zero 5 (by decide) AsmState.init⟩

/-- Claim C8, counterexample: `5 / 0` yields 5, not 0. -/
theorem Evaluate_divide_zero_counterexample :
    Evaluate "5 / 0".toList AsmState.init
      = .ok (5, ⟨1, [], 0, 0, ["ERROR: division by zero\n"]⟩)
    ∧ ¬ ∃ s, Evaluate "5 / 0".toList AsmState.init = .ok (0, s) := by
  have h : Evaluate "5 / 0".toList AsmState.init
      = .ok (5, ⟨1, [], 0, 0, ["ERROR: division by zero\n"]⟩) := by decide
  refine ⟨h, ?_⟩
  rintro ⟨s, hs⟩
  rw [h] at hs
  simp at hs

theorem TrimWhitespace_ne_nil (line r : List Char) (h : TrimWhitespace line = .ok r) : r ≠ [] := by
  unfold TrimWhitespace at h
  split at h
  · simp at h
  · rename_i c rest hd
    simp only [Except.ok.injEq] at h
    rw [← h]
    intro hnil
    rw [List.rdropWhile_eq_nil_iff] at hnil
    have hc := hnil c (by simp)
    have hmem : c ∈ List.dropWhile isspace line := by rw [hd]; simp
    have := List.head_dropWhile_not isspace line (by rw [hd]; simp)
    simp only [hd, List.head_cons] at this
    rw [hc] at this
    simp at this

theorem ParseLabel_eq (l : List Char) (do_add : Bool) (s : AsmState) :
    ParseLabel l do_add s =
      match StatementText l with
      | .error e => .error e
      | .ok r => .ok (r, if do_add then LabelState l s else s) := by
  unfold ParseLabel StatementText LabelState LabelOf
  by_cases h : ':' ∈ l
  · simp only [h, if_true]
  · simp only [h, if_false]
    cases do_add <;> rfl

theorem StatementText_ne_nil (l r : List Char) (hl : l ≠ []) (h : StatementText l = .ok r) :
    r ≠ [] := by
  unfold StatementText at h
  split at h
  · exact TrimWhitespace_ne_nil _ _ h
  · simp only [Except.ok.injEq] at h
    rw [← h]; exact hl

theorem PreparedText_ne_nil (line l : List Char) (h : PreparedText line = .ok l) : l ≠ [] := by
  unfold PreparedText at h
  split at h
  · simp at h
  · rename_i r hr
    simp only [Except.ok.injEq] at h
    rw [← h]
    have := TrimWhitespace_ne_nil _ _ hr
    simpa [ToLower] using this

theorem LineText_ne_nil (line r : List Char) (h : LineText line = .ok r) : r ≠ [] := by
  unfold LineText at h
  split at h
  · simp at h
  · rename_i l hl
    exact StatementText_ne_nil l r (PreparedText_ne_nil line l hl) h

theorem PrepareLine_eq (line : List Char) (do_add : Bool) (s : AsmState) :
    PrepareLine line do_add s =
      match LineText line with
      | .error e => .error e
      | .ok r => .ok (r, if do_add then LineState line s else s) := by
  unfold PrepareLine LineText LineState PreparedText
  cases TrimWhitespace (StripComments (StripWhitespace line)) with
  | error e => rfl
  | ok l =>
    simp only
    rw [ParseLabel_eq]

theorem GetStatement_cons (line : List Char) (fd : List (List Char)) (do_add : Bool)
    (raw : List (List Char)) (s : AsmState) :
    GetStatement (line :: fd) do_add raw s =
      match LineText line with
      | .error e => .error e
      | .ok r =>
        .ok (some ((ParseStatement r (if do_add then LineState line s else s)).1, fd),
          raw ++ [line], (ParseStatement r (if do_add then LineState line s else s)).2) := by
  simp only [GetStatement]
  rw [PrepareLine_eq]
  cases h : LineText line with
  | error e => rfl
  | ok r =>
    have hne := LineText_ne_nil line r h
    cases r with
    | nil => exact absurd rfl hne
    | cons c l => rfl

theorem ParseStatement_fst (r : List Char) (s : AsmState) :
    (ParseStatement r s).1 = StatementOf r := by
  unfold StatementOf ParseStatement
  cases LookupInstruction INSTRUCTION_MAP r with
  | none => rfl
  | some p =>
    obtain ⟨instr, arg⟩ := p
    simp only
    split_ifs <;> rfl

theorem ParseStatement_snd (r : List Char) (s : AsmState) :
    (ParseStatement r s).2.symbols = s.symbols
    ∧ (ParseStatement r s).2.current_address = s.current_address
    ∧ (ParseStatement r s).2.byte_count = s.byte_count
    ∧ s.error_count ≤ (ParseStatement r s).2.error_count := by
  unfold ParseStatement
  cases LookupInstruction INSTRUCTION_MAP r with
  | none => simp [AsmState.report]
  | some p =>
    obtain ⟨instr, arg⟩ := p
    simp only
    split_ifs <;> simp [AsmState.report]

theorem LookupInstruction_mem (table : List InstructionMapType) (line : List Char)
    (instr : InstructionMapType) (arg : Option (List Char))
    (h : LookupInstruction table line = some (instr, arg)) : instr ∈ table := by
  induction table with
  | nil => simp [LookupInstruction] at h
  | cons d table ih =>
    simp only [LookupInstruction] at h
    split at h
    · simp only [Option.some.injEq, Prod.mk.injEq] at h
      simp [h.1]
    · split at h
      · simp only [Option.some.injEq, Prod.mk.injEq] at h
        simp [h.1]
      · simp [ih h]
    · simp [ih h]

theorem INSTRUCTION_MAP_pseudo :
    ∀ d ∈ INSTRUCTION_MAP, d.opcode = BYTE_OP ∨ d.opcode = WORD_OP → 0 < d.arg_count := by
  decide

/-- A pseudo-instruction statement carries an argument. -/
theorem StatementOf_pseudo (r : List Char)
    (h : (StatementOf r).op = BYTE_OP ∨ (StatementOf r).op = WORD_OP) :
    (StatementOf r).arg.isSome = true := by
  unfold StatementOf ParseStatement at h ⊢
  cases hl : LookupInstruction INSTRUCTION_MAP r with
  | none =>
    rw [hl] at h
    simp [INVALID_OP, BYTE_OP, WORD_OP] at h
  | some p =>
    obtain ⟨instr, arg⟩ := p
    rw [hl] at h
    have hmem := LookupInstruction_mem _ _ _ _ hl
    simp only at h ⊢
    split_ifs at h ⊢ with h1 h2
    · simp [INVALID_OP, BYTE_OP, WORD_OP] at h
    · simp [INVALID_OP, BYTE_OP, WORD_OP] at h
    · have hp := INSTRUCTION_MAP_pseudo instr hmem h
      simp only [not_and, not_lt, Nat.le_zero] at h2
      cases arg with
      | none =>
        have := h2 rfl
        omega
      | some a => rfl

theorem OutputStatement_raw_length (statement : StatementType) (temp : Nat)
    (line : List (List Char)) (current_address : Nat) :
    (OutputStatement OUT_RAW statement temp line current_address).length
      = RawLength statement := by
  unfold RawLength OutputStatement
  cases statement.arg with
  | none => simp
  | some a =>
    simp
    split_ifs <;> simp

theorem StatementSize_eq_RawLength (r : List Char) :
    StatementSize (StatementOf r) = RawLength (StatementOf r) := by
  have hp := StatementOf_pseudo r
  unfold StatementSize RawLength OutputStatement
  cases ha : (StatementOf r).arg with
  | none =>
    rw [ha] at hp
    by_cases hb : (StatementOf r).op = BYTE_OP
    · exact absurd (hp (Or.inl hb)) (by simp)
    · by_cases hw : (StatementOf r).op = WORD_OP
      · exact absurd (hp (Or.inr hw)) (by simp)
      · simp [hb, hw]
  | some a =>
    by_cases hb : (StatementOf r).op = BYTE_OP
    · simp [hb]
    · by_cases hw : (StatementOf r).op = WORD_OP
      · simp [hw, hb]
        decide
      · simp [hb, hw]

theorem Frame.refl (s : AsmState) : Frame s s := ⟨rfl, rfl, rfl, Nat.le_refl _⟩

theorem Frame.trans {s s1 s2 : AsmState} (h1 : Frame s s1) (h2 : Frame s1 s2) : Frame s s2 :=
  ⟨h2.1.trans h1.1, h2.2.1.trans h1.2.1, h2.2.2.1.trans h1.2.2.1, Nat.le_trans h1.2.2.2 h2.2.2.2⟩

theorem Frame.report (s : AsmState) (msg : String) : Frame s (s.report msg) :=
  ⟨rfl, rfl, rfl, Nat.le_refl _⟩

theorem Eval4_good (f : List TokenNode → AsmState → EvalResult) (m : Nat)
    (hf : ∀ tp s, tp.length < m → EvalGood f tp s) :
    ∀ tp s, tp.length < m + 1 → EvalGood (Eval4 f) tp s := by
  intro tp s hlen
  unfold EvalGood Eval4
  cases tp with
  | nil => simp
  | cons t next =>
    simp only [List.length_cons] at hlen
    cases t with
    | TOK_LPAREN =>
      simp only
      have hg := hf next s (by omega)
      cases hr : f next s with
      | error e =>
        exact ⟨fun e1 he => by
          simp only [Except.error.injEq] at he
          subst he
          exact hg.1 e hr, fun r tp1 s1 he => by simp at he⟩
      | ok p =>
        obtain ⟨r, tp1, s1⟩ := p
        have h2 := hg.2 r tp1 s1 hr
        simp only
        refine ⟨?_, ?_⟩
        · intro e he; split at he <;> simp at he
        · intro r' tp' s' he
          split at he <;> simp only [Except.ok.injEq, Prod.mk.injEq] at he <;>
            obtain ⟨rfl, rfl, rfl⟩ := he
          · have h3 := h2.1
            simp only [List.length_cons] at h3 ⊢
            exact ⟨by omega, h2.2⟩
          · have h3 := h2.1
            simp only [List.length_cons] at h3 ⊢
            exact ⟨by omega, h2.2.trans (Frame.report _ _)⟩
    | TOK_SYMBOL sym =>
      simp only
      refine ⟨?_, ?_⟩
      · intro e he; split at he <;> simp at he
      · intro r' tp' s' he
        split at he <;> simp only [Except.ok.injEq, Prod.mk.injEq] at he <;>
          obtain ⟨rfl, rfl, rfl⟩ := he
        · exact ⟨by simp, Frame.refl _⟩
        · exact ⟨by simp, Frame.report _ _⟩
    | TOK_VALUE v =>
      simp only [Except.ok.injEq, Prod.mk.injEq, and_imp, false_implies, implies_true, true_and]
      refine ⟨by simp, ?_⟩
      intro r tp1 s1 _ h2 h3
      subst h2 h3
      exact ⟨by simp, Frame.refl _⟩
    | _ =>
      simp only [Except.ok.injEq, Prod.mk.injEq, and_imp, false_implies, implies_true, true_and]
      refine ⟨by simp, ?_⟩
      intro r tp1 s1 _ h2 h3
      subst h2 h3
      exact ⟨by simp, Frame.report _ _⟩

theorem Frame.count (s : AsmState) (msg : String) :
    Frame s ({ s with error_count := s.error_count + 1 }.report msg) :=
  ⟨rfl, rfl, rfl, Nat.le_succ _⟩

theorem Eval2_good (f : List TokenNode → AsmState → EvalResult) (m : Nat)
    (hf : ∀ tp s, tp.length < m → EvalGood f tp s) :
    ∀ tp s, tp.length < m + 1 → EvalGood (Eval2 f) tp s := by
  intro tp s hlen
  have h4 := Eval4_good f m hf
  unfold EvalGood Eval2 Eval3
  have hg := h4 tp s hlen
  cases hr : Eval4 f tp s with
  | error e =>
    exact ⟨fun e1 he => by
      simp only [Except.error.injEq] at he
      subst he
      exact hg.1 e hr, fun r tp1 s1 he => by simp at he⟩
  | ok p =>
    obtain ⟨r, tp1, s1⟩ := p
    have h1 := hg.2 r tp1 s1 hr
    simp only
    split
    · rename_i next
      have hlen2 : next.length < m + 1 := by
        have := h1.1; simp only [List.length_cons] at this; omega
      have hg2 := h4 next s1 hlen2
      cases hr2 : Eval4 f next s1 with
      | error e =>
        exact ⟨fun e1 he => by
          simp only [Except.error.injEq] at he
          subst he
          exact hg2.1 e hr2, fun r tp1 s1 he => by simp at he⟩
      | ok p2 =>
        obtain ⟨right, tp2, s2⟩ := p2
        have h2 := hg2.2 right tp2 s2 hr2
        refine ⟨fun e he => by simp at he, fun r' tp' s' he => ?_⟩
        simp only [Except.ok.injEq, Prod.mk.injEq] at he
        obtain ⟨_, rfl, rfl⟩ := he
        have := h1.1; simp only [List.length_cons] at this
        exact ⟨by omega, h1.2.trans h2.2⟩
    · rename_i next
      have hlen2 : next.length < m + 1 := by
        have := h1.1; simp only [List.length_cons] at this; omega
      have hg2 := h4 next s1 hlen2
      cases hr2 : Eval4 f next s1 with
      | error e =>
        exact ⟨fun e1 he => by
          simp only [Except.error.injEq] at he
          subst he
          exact hg2.1 e hr2, fun r tp1 s1 he => by simp at he⟩
      | ok p2 =>
        obtain ⟨right, tp2, s2⟩ := p2
        have h2 := hg2.2 right tp2 s2 hr2
        have hl := h1.1; simp only [List.length_cons] at hl
        simp only
        refine ⟨fun e he => by split at he <;> simp at he, fun r' tp' s' he => ?_⟩
        split at he <;> simp only [Except.ok.injEq, Prod.mk.injEq] at he <;>
          obtain ⟨_, rfl, rfl⟩ := he
        · exact ⟨by omega, (h1.2.trans h2.2).trans (Frame.count _ _)⟩
        · exact ⟨by omega, h1.2.trans h2.2⟩
    · refine ⟨fun e he => by simp at he, fun r' tp' s' he => ?_⟩
      simp only [Except.ok.injEq, Prod.mk.injEq] at he
      obtain ⟨_, rfl, rfl⟩ := he
      exact h1

theorem Eval1Body_good (f : List TokenNode → AsmState → EvalResult) (m : Nat)
    (hf : ∀ tp s, tp.length < m → EvalGood f tp s) :
    ∀ tp s, tp.length < m + 1 → EvalGood (Eval1Body f) tp s := by
  intro tp s hlen
  have h4 := Eval2_good f m hf
  unfold EvalGood Eval1Body
  have hg := h4 tp s hlen
  cases hr : Eval2 f tp s with
  | error e =>
    exact ⟨fun e1 he => by
      simp only [Except.error.injEq] at he
      subst he
      exact hg.1 e hr, fun r tp1 s1 he => by simp at he⟩
  | ok p =>
    obtain ⟨r, tp1, s1⟩ := p
    have h1 := hg.2 r tp1 s1 hr
    simp only
    split
    · rename_i next
      have hlen2 : next.length < m + 1 := by
        have := h1.1; simp only [List.length_cons] at this; omega
      have hg2 := h4 next s1 hlen2
      cases hr2 : Eval2 f next s1 with
      | error e =>
        exact ⟨fun e1 he => by
          simp only [Except.error.injEq] at he
          subst he
          exact hg2.1 e hr2, fun r tp1 s1 he => by simp at he⟩
      | ok p2 =>
        obtain ⟨right, tp2, s2⟩ := p2
        have h2 := hg2.2 right tp2 s2 hr2
        refine ⟨fun e he => by simp at he, fun r' tp' s' he => ?_⟩
        simp only [Except.ok.injEq, Prod.mk.injEq] at he
        obtain ⟨_, rfl, rfl⟩ := he
        have := h1.1; simp only [List.length_cons] at this
        exact ⟨by omega, h1.2.trans h2.2⟩
    · rename_i next
      have hlen2 : next.length < m + 1 := by
        have := h1.1; simp only [List.length_cons] at this; omega
      have hg2 := h4 next s1 hlen2
      cases hr2 : Eval2 f next s1 with
      | error e =>
        exact ⟨fun e1 he => by
          simp only [Except.error.injEq] at he
          subst he
          exact hg2.1 e hr2, fun r tp1 s1 he => by simp at he⟩
      | ok p2 =>
        obtain ⟨right, tp2, s2⟩ := p2
        have h2 := hg2.2 right tp2 s2 hr2
        refine ⟨fun e he => by simp at he, fun r' tp' s' he => ?_⟩
        simp only [Except.ok.injEq, Prod.mk.injEq] at he
        obtain ⟨_, rfl, rfl⟩ := he
        have := h1.1; simp only [List.length_cons] at this
        exact ⟨by omega, h1.2.trans h2.2⟩
    · refine ⟨fun e he => by simp at he, fun r' tp' s' he => ?_⟩
      simp only [Except.ok.injEq, Prod.mk.injEq] at he
      obtain ⟨_, rfl, rfl⟩ := he
      exact h1

theorem Eval1_good : ∀ (depth : Nat) (tp : List TokenNode) (s : AsmState),
    tp.length < depth → EvalGood (Eval1 depth) tp s := by
  intro depth
  induction depth with
  | zero => intro tp s h; omega
  | succ n ih =>
    intro tp s h
    exact Eval1Body_good (Eval1 n) n ih tp s h

/-- `Evaluate` fails only by the null dereference of `Eval4`; the budget of
the model is never exhausted. When it returns, the globals are in the frame. -/
theorem Evaluate_good (expr : List Char) (s : AsmState) :
    (∀ e, Evaluate expr s = .error e → e = .nullDeref)
    ∧ (∀ v s1, Evaluate expr s = .ok (v, s1) → Frame s s1) := by
  unfold Evaluate
  cases ht : Tokenize expr with
  | nil =>
    refine ⟨fun e he => by simp at he, fun v s1 he => ?_⟩
    simp only [Except.ok.injEq, Prod.mk.injEq] at he
    rw [← he.2]; exact Frame.refl s
  | cons t ts =>
    have hg := Eval1_good ((t :: ts).length + 1) (t :: ts) s (Nat.lt_succ_self _)
    simp only
    cases hr : Eval1 ((t :: ts).length + 1) (t :: ts) s with
    | error e =>
      exact ⟨fun e1 he => by
        simp only [Except.error.injEq] at he
        subst he
        exact hg.1 e hr, fun r s1 he => by simp at he⟩
    | ok p =>
      obtain ⟨r, tp1, s1⟩ := p
      have h1 := (hg.2 r tp1 s1 hr).2
      cases tp1 with
      | nil =>
        refine ⟨fun e he => by simp at he, fun v s2 he => ?_⟩
        simp only [Except.ok.injEq, Prod.mk.injEq] at he
        rw [← he.2]; exact h1
      | cons t1 tp1 =>
        refine ⟨fun e he => by simp at he, fun v s2 he => ?_⟩
        simp only [Except.ok.injEq, Prod.mk.injEq] at he
        rw [← he.2]; exact h1.trans (Frame.report _ _)

theorem DoFirstPassLoop_nil (s : AsmState) :
    DoFirstPassLoop (([] : List (List Char)).length + 1) [] s = .ok s := rfl

theorem DoFirstPassLoop_cons (line : List Char) (fd : List (List Char)) (s : AsmState) :
    DoFirstPassLoop ((line :: fd).length + 1) (line :: fd) s =
      match LineText line with
      | .error e => .error e
      | .ok r =>
        DoFirstPassLoop (fd.length + 1) fd
          (FirstPassStatement (StatementOf r) (ParseStatement r (LineState line s)).2) := by
  show DoFirstPassLoop (fd.length + 1 + 1) (line :: fd) s = _
  rw [DoFirstPassLoop, GetStatement_cons]
  cases LineText line with
  | error e => rfl
  | ok r => simp only [if_true, ParseStatement_fst]

theorem DoSecondPassLoop_cons (output_format : OutputFormat) (line : List Char)
    (fd : List (List Char)) (s : AsmState) (output : List Nat) :
    DoSecondPassLoop output_format ((line :: fd).length + 1) (line :: fd) s output =
      match LineText line with
      | .error e => .error e
      | .ok r =>
        match SecondPassStatement output_format (StatementOf r) [line]
            (ParseStatement r s).2 with
        | .error e => .error e
        | .ok (written, s2) =>
          DoSecondPassLoop output_format (fd.length + 1) fd s2 (output ++ written) := by
  show DoSecondPassLoop output_format (fd.length + 1 + 1) (line :: fd) s output = _
  rw [DoSecondPassLoop, GetStatement_cons]
  cases LineText line with
  | error e => rfl
  | ok r =>
    simp only [Bool.false_eq_true, if_false, ParseStatement_fst, List.nil_append]
    try rfl

theorem LabelState_frame (l : List Char) (s : AsmState) :
    (LabelState l s).current_address = s.current_address
    ∧ (LabelState l s).byte_count = s.byte_count
    ∧ s.error_count ≤ (LabelState l s).error_count := by
  unfold LabelState
  cases LabelOf l with
  | none => simp
  | some name =>
    simp only
    cases h : AddSymbol s.symbols name s.current_address with
    | mk ok symbols =>
      cases ok <;> simp [AsmState.report]

theorem SecondPassStatement_raw_eq (statement : StatementType) (line : List (List Char))
    (s : AsmState) (written : List Nat) (s2 : AsmState)
    (h : SecondPassStatement OUT_RAW statement line s = .ok (written, s2)) :
    written.length = RawLength statement ∧ s2.symbols = s.symbols
      ∧ s.error_count ≤ s2.error_count := by
  unfold SecondPassStatement at h
  cases ha : statement.arg with
  | none =>
    rw [ha] at h
    simp only [Except.ok.injEq, Prod.mk.injEq] at h
    obtain ⟨rfl, rfl⟩ := h
    exact ⟨OutputStatement_raw_length _ _ _ _, rfl, Nat.le_refl _⟩
  | some a =>
    rw [ha] at h
    simp only at h
    cases hev : Evaluate a s with
    | error e => rw [hev] at h; simp at h
    | ok p =>
      obtain ⟨temp, s1⟩ := p
      rw [hev] at h
      simp only [Except.ok.injEq, Prod.mk.injEq] at h
      obtain ⟨rfl, rfl⟩ := h
      have hf := (Evaluate_good a s).2 temp s1 hev
      exact ⟨OutputStatement_raw_length _ _ _ _, hf.1, hf.2.2.2⟩

theorem SecondPassStatement_error (output_format : OutputFormat) (statement : StatementType)
    (line : List (List Char)) (s : AsmState) (e : Fault)
    (h : SecondPassStatement output_format statement line s = .error e) : e = .nullDeref := by
  unfold SecondPassStatement at h
  cases ha : statement.arg with
  | none => rw [ha] at h; simp at h
  | some a =>
    rw [ha] at h
    simp only at h
    cases hev : Evaluate a s with
    | error e1 =>
      rw [hev] at h
      simp only [Except.error.injEq] at h
      subst h
      exact (Evaluate_good a s).1 e1 hev
    | ok p => rw [hev] at h; simp at h

theorem FindSymbol_cons_ne (np : SymbolNode) (symbols : List SymbolNode) (name : List Char)
    (h : np.name ≠ name) : FindSymbol (np :: symbols) name = FindSymbol symbols name := by
  unfold FindSymbol
  simp [List.find?_cons, h]

theorem FindSymbol_cons_eq (name : List Char) (addr : Nat) (symbols : List SymbolNode) :
    FindSymbol ({ name := name, addr := addr } :: symbols) name
      = some { name := name, addr := addr } := by
  unfold FindSymbol
  simp [List.find?_cons]

theorem LabelState_keeps (l : List Char) (s : AsmState) (name : List Char) (sp : SymbolNode)
    (h : FindSymbol s.symbols name = some sp) :
    FindSymbol (LabelState l s).symbols name = some sp := by
  unfold LabelState
  cases LabelOf l with
  | none => exact h
  | some label =>
    simp only
    by_cases hm : label ∈ SymbolNames s.symbols
    · rw [AddSymbol_present _ _ _ hm]
      exact h
    · rw [AddSymbol_absent _ _ _ hm]
      simp only
      rw [FindSymbol_cons_ne _ _ _ (by
        intro he
        simp only at he
        subst he
        exact hm ((FindSymbol_isSome _ _).mp (by rw [h]; rfl)))]
      exact h

/-- A label added without an error is bound to the address of its line. -/
theorem LabelState_adds (l label : List Char) (s : AsmState) (hl : LabelOf l = some label)
    (he : (LabelState l s).error_count = s.error_count) :
    FindSymbol (LabelState l s).symbols label
      = some { name := label, addr := s.current_address } := by
  unfold LabelState at he ⊢
  rw [hl] at he ⊢
  simp only at he ⊢
  by_cases hm : label ∈ SymbolNames s.symbols
  · rw [AddSymbol_present _ _ _ hm] at he
    simp [AsmState.report] at he
  · rw [AddSymbol_absent _ _ _ hm]
    exact FindSymbol_cons_eq _ _ _

theorem Tokenize_symbol (name : List Char) (h : IsSymbolName name) :
    Tokenize name = [TOK_SYMBOL name] := by
  cases name with
  | nil => exact absurd h (by simp [IsSymbolName])
  | cons c rest =>
    obtain ⟨hc, hd, hr⟩ := h
    have htw : rest.takeWhile symbolChar = rest := List.takeWhile_eq_self_iff.mpr hr
    have hne : ∀ x : Char, symbolChar x = false → c ≠ x := by
      intro x hx he
      rw [he, hx] at hc
      simp at hc
    have h1 := hne '$' (by decide)
    have h2 := hne '%' (by decide)
    have h3 := hne '+' (by decide)
    have h4 := hne '-' (by decide)
    have h5 := hne '*' (by decide)
    have h6 := hne '/' (by decide)
    have h7 := hne '(' (by decide)
    have h8 := hne ')' (by decide)
    have h9 := hne ' ' (by decide)
    have h10 := hne '\t' (by decide)
    have h11 := hne '\r' (by decide)
    have h12 := hne '\n' (by decide)
    unfold Tokenize
    simp only [TokenizeFrom, hd, h1, h2, h3, h4, h5, h6, h7, h8, h9, h10, h11, h12, if_false,
      or_self, htw]
    have := TokenizeFrom_skip rest []
    rw [List.append_nil] at this
    rw [this]
    rfl

theorem Evaluate_symbol (name : List Char) (h : IsSymbolName name) (s : AsmState)
    (sp : SymbolNode) (hf : FindSymbol s.symbols name = some sp) :
    Evaluate name s = .ok (sp.addr, s) := by
  unfold Evaluate
  rw [Tokenize_symbol name h]
  simp [Eval1, Eval1Body, Eval2, Eval3, Eval4, hf]

theorem LineText_hlt : LineText "hlt".toList = .ok "hlt".toList := by decide

theorem ParseStatement_hlt (s : AsmState) :
    ParseStatement "hlt".toList s = ({ arg := none, op := 0x38 }, s) := by
  have h : LookupInstruction INSTRUCTION_MAP "hlt".toList
      = some (⟨"hlt".toList, 0x38, 0⟩, none) := by decide
  unfold ParseStatement
  rw [h]
  simp

theorem StatementOf_hlt : StatementOf "hlt".toList = { arg := none, op := 0x38 } := by decide

/-- The second scenario of the specification assembles to `00 00 04 38 38`. -/
theorem scenarioForward_raw :
    ReadLines "        j target\n        hlt\ntarget: hlt\n".toList = scenarioForward
    ∧ DoFirstPass scenarioForward AsmState.init = .ok ⟨0, [⟨"target".toList, 4⟩], 5, 5, []⟩
    ∧ DoSecondPass OUT_RAW scenarioForward ⟨0, [⟨"target".toList, 4⟩], 5, 5, []⟩
      = .ok ([0x00, 0x00, 0x04, 0x38, 0x38], ⟨0, [⟨"target".toList, 4⟩], 5, 5, []⟩) := by
  refine ⟨?_, ?_, ?_⟩ <;> decide!

theorem LineText_error (line : List Char) (e : Fault) (h : LineText line = .error e) :
    e = .outOfBounds := by
  have ht : ∀ (l : List Char) (e : Fault), TrimWhitespace l = .error e → e = .outOfBounds := by
    intro l e h
    unfold TrimWhitespace at h
    split at h
    · simp only [Except.error.injEq] at h; exact h.symm
    · simp at h
  unfold LineText PreparedText at h
  cases h1 : TrimWhitespace (StripComments (StripWhitespace line)) with
  | error e1 =>
    rw [h1] at h
    simp only [Except.error.injEq] at h
    subst h
    exact ht _ _ h1
  | ok l =>
    rw [h1] at h
    simp only [StatementText] at h
    split at h
    · exact ht _ _ h
    · simp at h

/-- Pass 1 stops early only at the read of `TrimWhitespace` in front of the
line; the budget of the model is never exhausted. -/
theorem DoFirstPassLoop_error : ∀ (fd : List (List Char)) (s : AsmState) (e : Fault),
    DoFirstPassLoop (fd.length + 1) fd s = .error e → e = .outOfBounds := by
  intro fd
  induction fd with
  | nil =>
    intro s e h
    rw [DoFirstPassLoop_nil] at h
    simp at h
  | cons line fd ih =>
    intro s e h
    rw [DoFirstPassLoop_cons] at h
    cases hl : LineText line with
    | error e1 =>
      rw [hl] at h
      simp only [Except.error.injEq] at h
      subst h
      exact LineText_error line e1 hl
    | ok r =>
      rw [hl] at h
      exact ih _ _ h

theorem INSTRUCTION_MAP_arg_count :
    ∀ d ∈ INSTRUCTION_MAP,
      (0 < d.arg_count ↔ d.opcode = BYTE_OP ∨ d.opcode = WORD_OP ∨ d.opcode < 0x20) := by
  decide

/-- A parsed statement carries an argument exactly when its opcode is a
pseudo-instruction or of the jump or load/store class. -/
theorem StatementOf_arg (r : List Char) :
    (StatementOf r).arg.isSome = true
      ↔ (StatementOf r).op = BYTE_OP ∨ (StatementOf r).op = WORD_OP
        ∨ (StatementOf r).op < 0x20 := by
  unfold StatementOf ParseStatement
  cases hl : LookupInstruction INSTRUCTION_MAP r with
  | none => simp [INVALID_OP, BYTE_OP, WORD_OP]
  | some p =>
    obtain ⟨instr, arg⟩ := p
    have hmem := LookupInstruction_mem _ _ _ _ hl
    have hc := INSTRUCTION_MAP_arg_count instr hmem
    simp only
    split_ifs with h1 h2
    · simp [INVALID_OP, BYTE_OP, WORD_OP]
    · simp [INVALID_OP, BYTE_OP, WORD_OP]
    · simp only
      rw [← hc]
      cases arg with
      | none =>
        simp only [Option.isNone_none, true_and, not_lt, Nat.le_zero] at h2
        simp [h2]
      | some a =>
        simp only [Option.isSome_some, true_and] at h1
        simp only [Option.isSome_some, true_iff]
        omega

theorem StatementSize_eq_AddressStep (r : List Char) :
    StatementSize (StatementOf r) = AddressStep (StatementOf r).op := by
  have ha := StatementOf_arg r
  unfold StatementSize AddressStep
  cases h : (StatementOf r).arg with
  | none =>
    rw [h] at ha
    simp only [Option.isSome_none, Bool.false_eq_true, false_iff, not_or] at ha
    simp [ha.1, ha.2.1, ha.2.2]
  | some a =>
    rw [h] at ha
    simp only [Option.isSome_some, true_iff] at ha
    simp only
    by_cases hb : (StatementOf r).op = BYTE_OP
    · simp [hb]
    · by_cases hw : (StatementOf r).op = WORD_OP
      · simp [hb, hw]
      · have h3 : (StatementOf r).op < 0x20 := by
          rcases ha with h | h | h
          · exact absurd h hb
          · exact absurd h hw
          · exact h
        simp [hb, hw, h3]

/-- Claim C11, amended. For the statement `ParseStatement` returns for a line,
both passes advance `current_address` (an `unsigned int`, so modulo 2^32) by
the same number of bytes, which depends on the opcode only: 1 for `db`, 2 for
`dw`, 3 for an opcode of the jump or load/store class, 1 for every other
statement. Pass 1 advances `byte_count` by the same number, Pass 2 writes that
many bytes in raw format, and Pass 2 stops before the advance only at the
null dereference of the evaluator. -/
theorem current_address_advance (r : List Char) (output_format : OutputFormat)
    (line : List (List Char)) (s : AsmState) :
    (FirstPassStatement (StatementOf r) s).current_address
        = (s.current_address + AddressStep (StatementOf r).op) % 2 ^ 32
      ∧ (FirstPassStatement (StatementOf r) s).byte_count
        = (s.byte_count + AddressStep (StatementOf r).op) % 2 ^ 32
      ∧ (SecondPassStatement output_format (StatementOf r) line s = .error .nullDeref
        ∨ ∃ written s2,
          SecondPassStatement output_format (StatementOf r) line s = .ok (written, s2)
            ∧ s2.current_address
              = (s.current_address + AddressStep (StatementOf r).op) % 2 ^ 32)
      ∧ RawLength (StatementOf r) = AddressStep (StatementOf r).op
      ∧ AddressStep BYTE_OP = 1 ∧ AddressStep WORD_OP = 2
      ∧ (∀ op, op < 0x20 → AddressStep op = 3)
      ∧ (∀ op, 0x20 ≤ op → op ≠ BYTE_OP → op ≠ WORD_OP → AddressStep op = 1) := by
  have hk := StatementSize_eq_AddressStep r
  have hu : UINT_SIZE = 2 ^ 32 := by decide
  refine ⟨?_, ?_, ?_, ?_, by decide, by decide, ?_, ?_⟩
  · simp only [FirstPassStatement, hk, hu]
  · simp only [FirstPassStatement, hk, hu]
  · unfold SecondPassStatement
    cases ha : (StatementOf r).arg with
    | none =>
      right
      exact ⟨_, _, rfl, by simp only [hk, hu]⟩
    | some a =>
      simp only
      have hg := Evaluate_good a s
      cases hev : Evaluate a s with
      | error e =>
        left
        rw [hg.1 e hev]
      | ok p =>
        obtain ⟨temp, s1⟩ := p
        right
        refine ⟨_, _, rfl, ?_⟩
        have hf := hg.2 temp s1 hev
        simp only [hk, hu, hf.2.1]
  · rw [← StatementSize_eq_RawLength, hk]
  · intro op h
    unfold AddressStep
    have h1 : op ≠ BYTE_OP := by unfold BYTE_OP; omega
    have h2 : op ≠ WORD_OP := by unfold WORD_OP; omega
    simp [h1, h2, h]
  · intro op h h1 h2
    unfold AddressStep
    have h3 : ¬ op < 0x20 := by omega
    simp [h1, h2, h3]

/-- Claim C11, counterexample. The statement `db 5` is one byte: both passes
advance the address by 1, not by 1 + 1, and `dw 5` advances it by 2, not by
1 + 2. -/
theorem current_address_advance_counterexample :
    StatementOf "db 5".toList = ⟨some "5".toList, BYTE_OP⟩
      ∧ (FirstPassStatement (StatementOf "db 5".toList) AsmState.init).current_address = 1
      ∧ SecondPassStatement OUT_RAW (StatementOf "db 5".toList) [] AsmState.init
        = .ok ([5], ⟨0, [], 1, 0, []⟩)
      ∧ (FirstPassStatement (StatementOf "dw 5".toList) AsmState.init).current_address = 2
      ∧ SecondPassStatement OUT_RAW (StatementOf "dw 5".toList) [] AsmState.init
        = .ok ([0, 5], ⟨0, [], 2, 0, []⟩) := by
  decide

/-- When the value of the argument fits the bytes written for it (8 bits for
`db`, 16 bits otherwise), the hex output of a statement is the rendering of
its raw output. -/
theorem OutputStatement_hex (statement : StatementType) (temp : Nat)
    (line : List (List Char)) (current_address : Nat)
    (h8 : statement.op = BYTE_OP → temp < 256) (h16 : temp < 65536) :
    OutputStatement OUT_HEX statement temp line current_address
      = HexRender (OutputStatement OUT_RAW statement temp line current_address) := by
  have hhi : (temp >>> 8) % 256 = temp >>> 8 := by
    apply Nat.mod_eq_of_lt
    rw [Nat.shiftRight_eq_div_pow]
    omega
  have hlo : (temp &&& 0xFF) % 256 = temp &&& 0xFF := by
    apply Nat.mod_eq_of_lt
    exact Nat.lt_succ_of_le Nat.and_le_right
  unfold OutputStatement HexRender
  cases ha : statement.arg with
  | none =>
    by_cases hp : statement.op = BYTE_OP ∨ statement.op = WORD_OP
    · simp [hp]
    · simp [hp, Bytes]
  | some a =>
    by_cases hb : statement.op = BYTE_OP
    · have := Nat.mod_eq_of_lt (h8 hb)
      simp [hb, Bytes, this]
    · by_cases hw : statement.op = WORD_OP
      · have hne : ¬ WORD_OP = BYTE_OP := by decide
        simp [hw, hne, Bytes, hhi, hlo]
      · simp [hb, hw, Bytes, hhi, hlo]

/-- Claim C12, at the failing input `db 256`. The source passes Pass 1
without errors; the raw output is the byte 00, the low 8 bits of 256, and the
hex output is the line `100`, three digits, where the rendering of the raw
output is the line `00`. -/
theorem DoSecondPass_hex_db :
    DoFirstPass ["db 256".toList] AsmState.init = .ok ⟨0, [], 1, 1, []⟩
      ∧ DoSecondPass OUT_RAW ["db 256".toList] ⟨0, [], 1, 1, []⟩
        = .ok ([0], ⟨0, [], 1, 1, []⟩)
      ∧ DoSecondPass OUT_HEX ["db 256".toList] ⟨0, [], 1, 1, []⟩
        = .ok (Bytes "100\n".toList, ⟨0, [], 1, 1, []⟩)
      ∧ HexRender [0] = Bytes "00\n".toList
      ∧ DoSecondPass OUT_HEX ["dw 65536".toList] ⟨0, [], 2, 2, []⟩
        = .ok (Bytes "100\n00\n".toList, ⟨0, [], 2, 2, []⟩)
      ∧ DoSecondPass OUT_RAW ["dw 65536".toList] ⟨0, [], 2, 2, []⟩
        = .ok ([0, 0], ⟨0, [], 2, 2, []⟩) := by
  refine ⟨by decide!, by decide!, by decide!, by decide!, by decide!, by decide!⟩

theorem decode_class (o : Nat) (h : o < 256) : (o >>> 4) % 256 = o / 16 := by
  rw [Nat.shiftRight_eq_div_pow]
  omega

theorem decode_func (o : Nat) : (o &&& 0x0F) % 256 = o % 16 := by
  have := Nat.and_pow_two_sub_one_eq_mod o 4
  norm_num at this
  rw [this]
  omega

/-- The function `next` in terms of the class `o / 16` and the function
`o % 16` of the opcode `o` it fetches. -/
theorem next_eq (s : Sim.State) :
    Sim.next s =
      (let o := s.memory s.preg % 256
       let s2 := { s with opcode := o, preg := (s.preg + 1) % 65536 }
       match o / 16 with
       | 0 => { Sim.j_inst (o % 16) s2 with
                clocks := ((Sim.j_inst (o % 16) s2).clocks + 21) % UINT_SIZE }
       | 1 => { Sim.ls_inst (o % 16) s2 with
                clocks := ((Sim.ls_inst (o % 16) s2).clocks + 21) % UINT_SIZE }
       | 2 => { Sim.math_inst (o % 16) s2 with
                clocks := ((Sim.math_inst (o % 16) s2).clocks + 9) % UINT_SIZE }
       | 3 => { Sim.misc_inst (o % 16) s2 with
                clocks := ((Sim.misc_inst (o % 16) s2).clocks + 9) % UINT_SIZE }
       | _ => s2.report ("ERROR: invalid instruction class: " ++ toString (o / 16) ++ "\n")) := by
  have ho : s.memory s.preg % 256 < 256 := Nat.mod_lt _ (by decide)
  unfold Sim.next
  simp only [decode_class _ ho, decode_func]
  try rfl

theorem j_inst_halted (f : Nat) (s : Sim.State) : (Sim.j_inst f s).halted = s.halted := by
  unfold Sim.j_inst
  simp only [Sim.State.fetchOperand]
  split_ifs <;> rfl

theorem ls_inst_halted (f : Nat) (s : Sim.State) : (Sim.ls_inst f s).halted = s.halted := by
  unfold Sim.ls_inst
  by_cases hf : f < 9
  · interval_cases f <;> rfl
  · have : Sim.ls_class[f]? = none := by
      apply List.getElem?_eq_none
      simp only [Sim.ls_class, List.length_cons, List.length_nil]
      omega
    rw [this]
    rfl

theorem math_inst_halted (f : Nat) (s : Sim.State) :
    (Sim.math_inst f s).halted = s.halted := by
  unfold Sim.math_inst
  by_cases hf : f < 9
  · interval_cases f <;> rfl
  · have : Sim.math_class[f]? = none := by
      apply List.getElem?_eq_none
      simp only [Sim.math_class, List.length_cons, List.length_nil]
      omega
    rw [this]
    rfl

theorem misc_inst_halted (f : Nat) (s : Sim.State) :
    (Sim.misc_inst f s).halted = if f = 8 then 1 else s.halted := by
  unfold Sim.misc_inst
  by_cases hf : f < 9
  · interval_cases f <;> rfl
  · have : Sim.misc_class[f]? = none := by
      apply List.getElem?_eq_none
      simp only [Sim.misc_class, List.length_cons, List.length_nil]
      omega
    have h8 : f ≠ 8 := by omega
    rw [this, if_neg h8]
    rfl

/-- Claim C20. From a state that is not halted, one step of `next` halts the
machine exactly when the opcode fetched at `memory[preg]` is 0x38; every other
byte, the undefined opcodes among them, leaves `halted` at 0. -/
theorem next_halted (s : Sim.State) (hm : s.memory s.preg < 256) (hh : s.halted = 0) :
    ((Sim.next s).halted ≠ 0 ↔ s.memory s.preg = 0x38)
      ∧ (s.memory s.preg ≠ 0x38 → (Sim.next s).halted = 0) := by
  have key : (Sim.next s).halted = if s.memory s.preg = 0x38 then 1 else 0 := by
    rw [next_eq, Nat.mod_eq_of_lt hm]
    simp only
    split
    · next h =>
      have : s.memory s.preg ≠ 0x38 := by omega
      simp only [j_inst_halted, hh, if_neg this]
    · next h =>
      have : s.memory s.preg ≠ 0x38 := by omega
      simp only [ls_inst_halted, hh, if_neg this]
    · next h =>
      have : s.memory s.preg ≠ 0x38 := by omega
      simp only [math_inst_halted, hh, if_neg this]
    · next h =>
      simp only [misc_inst_halted, hh]
      by_cases h8 : s.memory s.preg = 0x38
      · simp [h8]
      · have : s.memory s.preg % 16 ≠ 8 := by omega
        simp [h8, this]
    · next h0 h1 h2 h3 =>
      have h3n : s.memory s.preg / 16 ≠ 3 := h3
      have : s.memory s.preg ≠ 0x38 := by omega
      simp only [Sim.State.report, hh, if_neg this]
  rw [key]
  constructor
  · split_ifs with h <;> simp [h]
  · intro h
    simp [h]

/-- Claim C20, witness: `hlt` at address 0 of the initial state. -/
theorem next_halted_witness :
    (Sim.initial [0x38]).memory (Sim.initial [0x38]).preg < 256
      ∧ (Sim.initial [0x38]).halted = 0
      ∧ (((Sim.next (Sim.initial [0x38])).halted ≠ 0
          ↔ (Sim.initial [0x38]).memory (Sim.initial [0x38]).preg = 0x38)
        ∧ ((Sim.initial [0x38]).memory (Sim.initial [0x38]).preg ≠ 0x38
          → (Sim.next (Sim.initial [0x38])).halted = 0)) :=
  ⟨by decide, by decide, next_halted (Sim.initial [0x38]) (by decide) (by decide)⟩

theorem toUChar_lt (x : Int) : Sim.toUChar x < 256 := by
  unfold Sim.toUChar
  omega

theorem setZN_flags (s : Sim.State) (h : s.rega < 256) :
    ((Sim.State.setZN s).z_flag = 1 ↔ (Sim.State.setZN s).rega = 0)
      ∧ ((Sim.State.setZN s).z_flag = 0 ∨ (Sim.State.setZN s).z_flag = 1)
      ∧ (Sim.State.setZN s).n_flag = (Sim.State.setZN s).rega / 128 % 2
      ∧ (Sim.State.setZN s).rega < 256 := by
  simp only [Sim.State.setZN, Nat.shiftRight_eq_div_pow]
  refine ⟨?_, ?_, ?_, h⟩
  · split_ifs with h0 <;> simp [h0]
  · split_ifs <;> simp
  · omega

/-- The function `next` on an opcode of the math class. -/
theorem next_math (s : Sim.State) (f : Nat) (hf : f < 16) (hop : s.memory s.preg = 0x20 + f) :
    Sim.next s =
      { Sim.math_inst f { s with opcode := 0x20 + f, preg := (s.preg + 1) % 65536 } with
        clocks := ((Sim.math_inst f { s with opcode := 0x20 + f,
                                             preg := (s.preg + 1) % 65536 }).clocks + 9)
                    % UINT_SIZE } := by
  have h1 : (0x20 + f) % 256 = 0x20 + f := by omega
  have h2 : (0x20 + f) / 16 = 2 := by omega
  have h3 : (0x20 + f) % 16 = f := by omega
  rw [next_eq]
  simp only [hop, h1, h2, h3]

/-- Claim C18. After `next` on one of the opcodes 0x20..0x28 (`and`, `or`,
`shl`, `shr`, `add`, `inc`, `dec`, `not`, `clr`), from any state, `z_flag` is 1
exactly when the new `rega` is 0 (and is 0 otherwise), and `n_flag` is bit 7
of the new `rega`. -/
theorem next_math_flags (s : Sim.State) (op : Nat) (hop : s.memory s.preg = op)
    (hlo : 0x20 ≤ op) (hhi : op ≤ 0x28) :
    ((Sim.next s).z_flag = 1 ↔ (Sim.next s).rega = 0)
      ∧ ((Sim.next s).z_flag = 0 ∨ (Sim.next s).z_flag = 1)
      ∧ (Sim.next s).n_flag = (Sim.next s).rega / 128 % 2 := by
  obtain ⟨f, rfl⟩ : ∃ f, op = 0x20 + f := ⟨op - 0x20, by omega⟩
  have hf : f < 9 := by omega
  rw [next_math s f (by omega) hop]
  have hm : ∀ x, x % 256 < 256 := fun x => Nat.mod_lt _ (by decide)
  have key : ∀ t : Sim.State, (t.z_flag = 1 ↔ t.rega = 0) ∧ (t.z_flag = 0 ∨ t.z_flag = 1)
      ∧ t.n_flag = t.rega / 128 % 2 ∧ t.rega < 256 →
      (t.z_flag = 1 ↔ t.rega = 0) ∧ (t.z_flag = 0 ∨ t.z_flag = 1)
      ∧ t.n_flag = t.rega / 128 % 2 := fun t h => ⟨h.1, h.2.1, h.2.2.1⟩
  interval_cases f
  · exact key _ (setZN_flags _ (hm _))
  · exact key _ (setZN_flags _ (hm _))
  · exact key _ (setZN_flags _ (hm _))
  · exact key _ (setZN_flags _ (hm _))
  · exact key _ (setZN_flags _ (hm _))
  · exact key _ (setZN_flags _ (hm _))
  · exact key _ (setZN_flags _ (toUChar_lt _))
  · exact key _ (setZN_flags _ (toUChar_lt _))
  · show ((1 : Nat) = 1 ↔ (0 : Nat) = 0) ∧ ((1 : Nat) = 0 ∨ (1 : Nat) = 1) ∧ (0 : Nat) = 0 / 128 % 2
    decide

/-- Claim C18, witness: `add` at address 0 of the initial state. -/
theorem next_math_flags_witness :
    (Sim.initial [0x24]).memory (Sim.initial [0x24]).preg = 0x24
      ∧ (((Sim.next (Sim.initial [0x24])).z_flag = 1 ↔ (Sim.next (Sim.initial [0x24])).rega = 0)
        ∧ ((Sim.next (Sim.initial [0x24])).z_flag = 0
          ∨ (Sim.next (Sim.initial [0x24])).z_flag = 1)
        ∧ (Sim.next (Sim.initial [0x24])).n_flag
          = (Sim.next (Sim.initial [0x24])).rega / 128 % 2) :=
  ⟨by decide, next_math_flags (Sim.initial [0x24]) 0x24 (by decide) (by decide) (by decide)⟩

/-- Claim C19. The carry flag after `next` on an opcode of the math class, for
registers `regb` and `regc` that hold bytes: 0 after `and` (0x20), `or` (0x21),
`not` (0x27) and `clr` (0x28); bit 7 of the old `regb` after `shl` (0x22); bit 0
of the old `regb` after `shr` (0x23); 1 if `regb + regc > 255` and 0 otherwise
after `add` (0x24); 1 if `regb = 255` and 0 otherwise after `inc` (0x25); 1 if
`regb = 0` and 0 otherwise after `dec` (0x26). -/
theorem next_math_carry (s : Sim.State) (op : Nat) (hop : s.memory s.preg = op)
    (hb : s.regb < 256) (hc : s.regc < 256) :
    (op = 0x20 ∨ op = 0x21 ∨ op = 0x27 ∨ op = 0x28 → (Sim.next s).c_flag = 0)
      ∧ (op = 0x22 → (Sim.next s).c_flag = s.regb / 128 % 2)
      ∧ (op = 0x23 → (Sim.next s).c_flag = s.regb % 2)
      ∧ (op = 0x24 → (Sim.next s).c_flag = if s.regb + s.regc > 255 then 1 else 0)
      ∧ (op = 0x25 → (Sim.next s).c_flag = if s.regb = 255 then 1 else 0)
      ∧ (op = 0x26 → (Sim.next s).c_flag = if s.regb = 0 then 1 else 0) := by
  have hn : ∀ f, f < 9 → op = 0x20 + f →
      (Sim.next s).c_flag
        = (Sim.math_inst f { s with opcode := 0x20 + f, preg := (s.preg + 1) % 65536 }).c_flag := by
    intro f hf h
    rw [next_math s f (by omega) (hop.trans h)]
  refine ⟨?_, ?_, ?_, ?_, ?_, ?_⟩
  · rintro (h | h | h | h)
    · rw [hn 0 (by decide) h]; rfl
    · rw [hn 1 (by decide) h]; rfl
    · rw [hn 7 (by decide) h]; rfl
    · rw [hn 8 (by decide) h]; rfl
  · intro h
    rw [hn 2 (by decide) h]
    show (s.regb >>> 7) % 256 = s.regb / 128 % 2
    rw [Nat.shiftRight_eq_div_pow]
    omega
  · intro h
    rw [hn 3 (by decide) h]
    show (s.regb &&& 1) % 256 = s.regb % 2
    rw [Nat.and_one_is_mod]
    omega
  · intro h
    rw [hn 4 (by decide) h]
    show (if (s.regb + s.regc) % 65536 > 255 then 1 else 0) = _
    rw [Nat.mod_eq_of_lt (by omega)]
  · intro h
    rw [hn 5 (by decide) h]
    rfl
  · intro h
    rw [hn 6 (by decide) h]
    rfl

/-- Claim C19, witness: `add` at address 0 of the initial state; 0xFF + 0xFF
sets the carry. -/
theorem next_math_carry_witness :
    (Sim.initial [0x24]).memory (Sim.initial [0x24]).preg = 0x24
      ∧ (Sim.initial [0x24]).regb < 256 ∧ (Sim.initial [0x24]).regc < 256
      ∧ (Sim.next (Sim.initial [0x24])).c_flag = 1 :=
  ⟨by decide, by decide, by decide,
    ((next_math_carry (Sim.initial [0x24]) 0x24 (by decide) (by decide)
      (by decide)).2.2.2.1 rfl).trans (by decide)⟩

/-- The condition of `j_inst` on flags that are 0 or 1. -/
theorem j_inst_condition (f c z n : Nat) (hf : f < 16) (hc : c ≤ 1) (hz : z ≤ 1) (hn : n ≤ 1) :
    ((Sim.lnot (((f >>> 0) &&& 1) % 256) ||| c) &&& (Sim.lnot (((f >>> 1) &&& 1) % 256) ||| z)
        &&& (Sim.lnot (((f >>> 2) &&& 1) % 256) ||| n) ≠ 0)
      ↔ ((f.testBit 0 = true → c = 1) ∧ (f.testBit 1 = true → z = 1)
        ∧ (f.testBit 2 = true → n = 1)) := by
  interval_cases f <;> interval_cases c <;> interval_cases z <;> interval_cases n <;> decide

theorem j_inst_is_call (f : Nat) (hf : f < 16) :
    (((f >>> 3) &&& 1) % 256 ≠ 0) ↔ f.testBit 3 = true := by
  interval_cases f <;> decide

/-- The 16-bit operand read from two bytes, the high one first. -/
theorem operand_eq (hi lo : Nat) (hhi : hi < 256) (hlo : lo < 256) :
    ((hi <<< 8) % 65536 ||| lo) % 65536 = hi * 256 + lo := by
  have h1 : hi <<< 8 = 2 ^ 8 * hi := by rw [Nat.shiftLeft_eq, Nat.mul_comm]
  have h2 : (2 ^ 8 * hi) % 65536 = 2 ^ 8 * hi := Nat.mod_eq_of_lt (by omega)
  rw [h1, h2, ← Nat.mul_add_lt_is_or (by omega : lo < 2 ^ 8) hi]
  omega

/-- Claim C17. One step of `next` on an opcode `f` of class 0 (`f < 16`), from
a state whose flags are 0 or 1; `W` is the operand
`memory[P+1] * 256 + memory[P+2]`, the addresses taken modulo 2^16. The branch
is taken exactly when every flag required by bits 0, 1, 2 of `f` is set: then
`preg` becomes `W`, and when bit 3 is set `regxh`, `regxl` become the high and
low byte of `P + 3` modulo 2^16. Otherwise `preg` becomes `P + 3` modulo 2^16
and `regxh`, `regxl` stay. The registers `rega`, `regb`, `regc`, the flags and
the memory are unchanged. -/
theorem next_jump (s : Sim.State) (f : Nat) (hop : s.memory s.preg = f) (hf : f < 16)
    (hc : s.c_flag ≤ 1) (hz : s.z_flag ≤ 1) (hn : s.n_flag ≤ 1)
    (hhi : s.memory ((s.preg + 1) % 65536) < 256)
    (hlo : s.memory ((s.preg + 2) % 65536) < 256) :
    (Sim.next s).preg
        = (if FlagsRequired f s then
            s.memory ((s.preg + 1) % 65536) * 256 + s.memory ((s.preg + 2) % 65536)
          else (s.preg + 3) % 65536)
      ∧ (Sim.next s).regxh
        = (if FlagsRequired f s ∧ f.testBit 3 = true then (s.preg + 3) % 65536 / 256
          else s.regxh)
      ∧ (Sim.next s).regxl
        = (if FlagsRequired f s ∧ f.testBit 3 = true then (s.preg + 3) % 65536 % 256
          else s.regxl)
      ∧ (Sim.next s).rega = s.rega ∧ (Sim.next s).regb = s.regb ∧ (Sim.next s).regc = s.regc
      ∧ (Sim.next s).c_flag = s.c_flag ∧ (Sim.next s).z_flag = s.z_flag
      ∧ (Sim.next s).n_flag = s.n_flag ∧ (Sim.next s).memory = s.memory := by
  have h1 : f % 256 = f := by omega
  have h2 : f / 16 = 0 := by omega
  have h3 : f % 16 = f := by omega
  have hp2 : ((s.preg + 1) % 65536 + 1) % 65536 = (s.preg + 2) % 65536 := by omega
  have hp3 : ((s.preg + 2) % 65536 + 1) % 65536 = (s.preg + 3) % 65536 := by omega
  have hq : (((s.preg + 3) % 65536) >>> 8) % 256 = (s.preg + 3) % 65536 / 256 := by
    rw [Nat.shiftRight_eq_div_pow]
    omega
  have hcond := j_inst_condition f s.c_flag s.z_flag s.n_flag hf hc hz hn
  have hcall := j_inst_is_call f hf
  rw [next_eq]
  simp only [hop, h1, h2, h3, Sim.j_inst, Sim.State.fetchOperand, hp2, hp3,
    operand_eq _ _ hhi hlo]
  by_cases hr : FlagsRequired f s
  · have hr1 := hcond.mpr hr
    by_cases hb : f.testBit 3 = true
    · have hb1 := hcall.mpr hb
      simp only [hr1, hb1, hr, hb, and_self, if_true, ne_eq, not_false_eq_true, hq, and_255,
        true_and, Nat.mod_mod]
    · have hb1 : ¬ (((f >>> 3) &&& 1) % 256 ≠ 0) := fun h => hb (hcall.mp h)
      simp only [hr1, hb1, hr, hb, and_false, if_true, if_false, ne_eq, not_false_eq_true,
        true_and]
      simp
  · have hr1 : ¬ _ := fun h => hr (hcond.mp h)
    simp only [hr1, hr, false_and, if_false, true_and]

/-- Claim C17, witness: `cz $1234` at address 0 of the initial state. The call
is taken, and `regxh`, `regxl` hold the return address 3. -/
theorem next_jump_witness :
    (Sim.initial [0x0A, 0x12, 0x34]).memory (Sim.initial [0x0A, 0x12, 0x34]).preg = 0x0A
      ∧ (Sim.next (Sim.initial [0x0A, 0x12, 0x34])).preg = 0x1234
      ∧ (Sim.next (Sim.initial [0x0A, 0x12, 0x34])).regxh = 0
      ∧ (Sim.next (Sim.initial [0x0A, 0x12, 0x34])).regxl = 3 :=
  have h := next_jump (Sim.initial [0x0A, 0x12, 0x34]) 0x0A (by decide) (by decide) (by decide)
    (by decide) (by decide) (by decide) (by decide)
  ⟨by decide, h.1.trans (by decide), h.2.1.trans (by decide), h.2.2.1.trans (by decide)⟩

/-- Claim C15, at its own witness. Preprocessing the four lines
`#define greet`, `clr`, `inc`, `#end` reports no error and leaves one macro,
with the body `clr\ninc\n` and the name `reet`: `ProcessDefineStart` is called
with `&line[9]`, one character behind the start of the name. `FindMacro` finds
nothing under the name `greet`. -/
theorem DoPreprocessFile_define :
    DoPreprocessFile (oneFile "a.asm".toList scenarioDefine) MAX_INCLUDES "a.asm".toList
        ⟨AsmState.init, [], []⟩
      = .ok ⟨AsmState.init, [⟨"reet".toList, some "clr\ninc\n".toList⟩], []⟩
    ∧ FindMacro [⟨"reet".toList, some "clr\ninc\n".toList⟩] "greet".toList = none
    ∧ FindMacro [⟨"reet".toList, some "clr\ninc\n".toList⟩] "reet".toList
      = some ⟨"reet".toList, some "clr\ninc\n".toList⟩ := by
  refine ⟨by decide!, by decide!, by decide!⟩

theorem FileText_append (a b : List (List Char)) :
    FileText (a ++ b) = FileText a ++ FileText b := by
  simp [FileText]

theorem CString_eq (l : List Char) (h : '\x00' ∉ l) : CString l = l := by
  unfold CString
  rw [List.takeWhile_eq_self_iff]
  intro c hc
  simp only [ne_eq, decide_eq_true_eq]
  rintro rfl
  exact h hc

theorem ReadLinesFrom_line (l fd : List Char) (h : '\n' ∉ l) : ∀ temp : List Char,
    ReadLinesFrom (l ++ '\n' :: fd) temp = CString (temp ++ l) :: ReadLinesFrom fd [] := by
  induction l with
  | nil =>
    intro temp
    simp [ReadLinesFrom]
  | cons c l ih =>
    intro temp
    have hc : c ≠ '\n' := fun hc => h (by simp [hc])
    have hl : '\n' ∉ l := fun hl => h (by simp [hl])
    simp only [List.cons_append, ReadLinesFrom, if_neg hc, List.append_eq]
    rw [ih hl]
    simp

/-- `ReadLine` returns the lines of a text in which every line ends with a
newline, when no line holds a NUL. -/
theorem ReadLines_FileText (ls : List (List Char))
    (h : ∀ l ∈ ls, '\n' ∉ l ∧ '\x00' ∉ l) : ReadLines (FileText ls) = ls := by
  unfold ReadLines
  induction ls with
  | nil => rfl
  | cons l ls ih =>
    have hl := h l (by simp)
    have : FileText (l :: ls) = l ++ '\n' :: FileText ls := by simp [FileText]
    rw [this, ReadLinesFrom_line _ _ hl.1, ih (fun m hm => h m (by simp [hm]))]
    simp [CString_eq _ hl.2]

theorem OpenDefine_append (before : List (List Char)) (l : List Char) :
    OpenDefine (before ++ [l])
      = if IsDefineStart l then true else if IsDefineEnd l then false else OpenDefine before := by
  unfold OpenDefine
  rw [List.filter_append]
  by_cases hs : IsDefineStart l = true
  · simp [List.filter, hs]
  · by_cases he : IsDefineEnd l = true
    · simp [List.filter, hs, he]
    · simp [List.filter, hs, he]

theorem FindMacro_AddMacro (macros : List MacroType) (name : List Char) :
    (FindMacro (AddMacro macros name).2 name).isSome = true := by
  unfold AddMacro
  split_ifs with h
  · exact h
  · simp [FindMacro]

theorem AppendMacro_ok (macros : List MacroType) (name value : List Char)
    (h : (FindMacro macros name).isSome = true) :
    ∃ macros1, AppendMacro macros name value = .ok macros1
      ∧ ∀ n, (FindMacro macros1 n).isSome = (FindMacro macros n).isSome := by
  induction macros with
  | nil => simp [FindMacro] at h
  | cons mp macros ih =>
    unfold AppendMacro
    by_cases hn : name = mp.name
    · rw [if_pos hn]
      refine ⟨_, rfl, fun n => ?_⟩
      simp only [FindMacro, List.find?_cons]
      by_cases h1 : n = mp.name <;> simp [h1]
    · rw [if_neg hn]
      have h1 : (FindMacro macros name).isSome = true := by
        simpa [FindMacro, List.find?_cons, hn] using h
      obtain ⟨macros1, hm, hf⟩ := ih h1
      rw [hm]
      refine ⟨_, rfl, fun n => ?_⟩
      have := hf n
      simp only [FindMacro, List.find?_cons] at this ⊢
      by_cases h2 : n = mp.name <;> simp [h2, this]

theorem CopiedFrom_cons (before : List (List Char)) (l : List Char) (rest : List (List Char)) :
    FileText (CopiedFrom before (l :: rest))
      = (if l.head? ≠ some '#' ∧ OpenDefine before = false then l ++ ['\n'] else [])
        ++ FileText (CopiedFrom (before ++ [l]) rest) := by
  simp only [CopiedFrom, FileText_append]
  split_ifs <;> simp [FileText]

/-- The loop of `DoPreprocessFile` on lines without `#include`: it runs to
the end of the file and appends to the temporary file the lines that do not
begin with `#` and lie outside every definition. -/
theorem DoPreprocessLines_copies
    (recurse : List Char → PreprocessState → Except Fault PreprocessState) :
    ∀ (rest before : List (List Char)) (cd : Option (List Char)) (st : PreprocessState),
      cd.isSome = OpenDefine before →
      (∀ n, cd = some n → (FindMacro st.macros n).isSome = true) →
      (∀ l ∈ rest, IsInclude l = false) →
      (∀ l ∈ rest, IsDefineStart l = true → 9 ≤ l.length) →
      ∃ st1, DoPreprocessLines recurse rest cd st = .ok st1
        ∧ st1.out_fd = st.out_fd ++ FileText (CopiedFrom before rest) := by
  intro rest
  induction rest with
  | nil =>
    intro before cd st _ _ _ _
    exact ⟨st, rfl, by simp [CopiedFrom, FileText]⟩
  | cons l rest ih =>
    intro before cd st hcd hinv hinc hdef
    have hi := hinc l (by simp)
    have ih1 := fun cd1 st1 h1 h2 => ih (before ++ [l]) cd1 st1 h1 h2
      (fun m hm => hinc m (by simp [hm])) (fun m hm => hdef m (by simp [hm]))
    rw [CopiedFrom_cons]
    unfold DoPreprocessLines
    by_cases hh : l.head? = some '#'
    · have hni : ¬ (StripWhitespace l).take 9 = "#include ".toList := by
        intro h
        simp [IsInclude, hh, h] at hi
      rw [if_pos hh]
      simp only [if_neg hni, hh, ne_eq, not_true_eq_false, false_and, if_false, List.nil_append]
      by_cases hd : (StripWhitespace l).take 8 = "#define ".toList
      · have hds : IsDefineStart l = true := by simp [IsDefineStart, hh, hi, hd]
        have h9 := hdef l (by simp) hds
        have hopen : OpenDefine (before ++ [l]) = true := by rw [OpenDefine_append, if_pos hds]
        simp only [if_pos hd, LineFrom, if_pos h9]
        cases cd with
        | some n =>
          obtain ⟨st1, h1, h2⟩ := ih1 (some n) (st.error "ERROR: \"#define\" without \"#end\"\n")
            (by simp [hopen]) (fun m hm => hinv m hm)
          exact ⟨st1, h1, h2⟩
        | none =>
          obtain ⟨st1, h1, h2⟩ := ih1 (some ((StripWhitespace l).drop 9))
            { st with macros := (AddMacro st.macros ((StripWhitespace l).drop 9)).2 }
            (by simp [hopen])
            (fun m hm => by
              simp only [Option.some.injEq] at hm
              subst hm
              exact FindMacro_AddMacro _ _)
          exact ⟨st1, h1, h2⟩
      · have hds : IsDefineStart l = false := by
          unfold IsDefineStart
          rw [decide_eq_false hd, Bool.and_false]
        rw [if_neg hd]
        by_cases he : (StripWhitespace l).take 4 = "#end".toList
        · have hes : IsDefineEnd l = true := by simp [IsDefineEnd, hh, hi, hds, he]
          have hopen : OpenDefine (before ++ [l]) = false := by
            rw [OpenDefine_append, hds, hes]
            simp
          rw [if_pos he]
          obtain ⟨st1, h1, h2⟩ := ih1 (ProcessDefineEnd cd st).1 (ProcessDefineEnd cd st).2
            (by cases cd <;> simp [ProcessDefineEnd, hopen])
            (fun m hm => by cases cd <;> simp [ProcessDefineEnd] at hm)
          refine ⟨st1, h1, ?_⟩
          rw [h2]
          cases cd <;> rfl
        · have hes : IsDefineEnd l = false := by
            unfold IsDefineEnd
            rw [decide_eq_false he, Bool.and_false]
          have hopen : OpenDefine (before ++ [l]) = OpenDefine before := by
            rw [OpenDefine_append, hds, hes]
            simp
          rw [if_neg he]
          obtain ⟨st1, h1, h2⟩ := ih1 cd
            (st.error ("ERROR: preprocessor: \"" ++ String.mk (StripWhitespace l) ++ "\"\n"))
            (by rw [hopen]; exact hcd) (fun m hm => hinv m hm)
          exact ⟨st1, h1, h2⟩
    · have hds : IsDefineStart l = false := by simp [IsDefineStart, hh]
      have hes : IsDefineEnd l = false := by simp [IsDefineEnd, hh]
      have hopen : OpenDefine (before ++ [l]) = OpenDefine before := by
        rw [OpenDefine_append, hds, hes]
        simp
      rw [if_neg hh]
      cases cd with
      | some n =>
        have ho : OpenDefine before = true := by rw [← hcd]; rfl
        obtain ⟨macros1, hm1, hm2⟩ := AppendMacro_ok st.macros n l (hinv n rfl)
        obtain ⟨st1, h1, h2⟩ := ih1 (some n) { st with macros := macros1 }
          (by rw [hopen, ho]; rfl)
          (fun m hm => by
            have := hinv m hm
            simp only [hm2 m]
            exact this)
        refine ⟨st1, ?_, ?_⟩
        · simp only [ProcessDefine, hm1]
          exact h1
        · rw [h2]
          simp [ho]
      | none =>
        have ho : OpenDefine before = false := by rw [← hcd]; rfl
        obtain ⟨st1, h1, h2⟩ := ih1 none { st with out_fd := st.out_fd ++ l ++ ['\n'] }
          (by rw [hopen, ho]; rfl) (fun m hm => by simp at hm)
        refine ⟨st1, h1, ?_⟩
        rw [h2]
        simp [ho, hh]

theorem CopiedFrom_sublist : ∀ (rest before : List (List Char)),
    List.Sublist (CopiedFrom before rest) rest := by
  intro rest
  induction rest with
  | nil => intro before; exact List.Sublist.refl _
  | cons l rest ih =>
    intro before
    unfold CopiedFrom
    split_ifs
    · exact (ih _).cons₂ l
    · exact (ih _).cons l

theorem CopiedFrom_head : ∀ (rest before : List (List Char)),
    ∀ l ∈ CopiedFrom before rest, l.head? ≠ some '#' := by
  intro rest
  induction rest with
  | nil => intro before l hl; simp [CopiedFrom] at hl
  | cons m rest ih =>
    intro before l hl
    unfold CopiedFrom at hl
    rw [List.mem_append] at hl
    rcases hl with hl | hl
    · split_ifs at hl with h
      · simp only [List.mem_singleton] at hl
        subst hl
        exact h.1
      · simp at hl
    · exact ih _ l hl

/-- Claim C16, amended. For a file whose lines all end with a newline and hold
no NUL, without `#include` lines and with at least one character behind every
`#define `, `DoPreprocess` runs to the end and the temporary file holds
exactly the lines that do not begin with `#` and lie outside every
`#define`...`#end` block, in order and verbatim, each followed by a newline.
Pass 1 reads back these lines, and none of them begins with `#`. -/
theorem DoPreprocess_copies (env : Environment) (filename : List Char)
    (ls : List (List Char)) (st : PreprocessState)
    (htmp : env.tmpfile = true)
    (hfile : env.files filename = some (FileText ls))
    (hnl : ∀ l ∈ ls, '\n' ∉ l ∧ '\x00' ∉ l)
    (hinc : ∀ l ∈ ls, IsInclude l = false)
    (hdef : ∀ l ∈ ls, IsDefineStart l = true → 9 ≤ l.length) :
    (∃ st1, DoPreprocess env filename st = .ok (some (FileText (CopiedLines ls)), st1)
        ∧ st1.out_fd = FileText (CopiedLines ls))
      ∧ ReadLines (FileText (CopiedLines ls)) = CopiedLines ls
      ∧ List.Sublist (CopiedLines ls) ls
      ∧ (∀ l ∈ CopiedLines ls, l.head? ≠ some '#') := by
  have hsub := CopiedFrom_sublist ls []
  refine ⟨?_, ?_, hsub, CopiedFrom_head ls []⟩
  · obtain ⟨st1, h1, h2⟩ := DoPreprocessLines_copies
      (DoPreprocessFile env.files 7) ls [] none { st with out_fd := [] } rfl
      (fun n hn => by simp at hn) hinc hdef
    simp only [List.nil_append] at h2
    refine ⟨st1, ?_, h2⟩
    have h3 : DoPreprocessFile env.files MAX_INCLUDES filename { st with out_fd := [] }
        = .ok st1 := by
      show DoPreprocessFile env.files (7 + 1) filename { st with out_fd := [] } = .ok st1
      rw [DoPreprocessFile, hfile]
      simp only
      rw [ReadLines_FileText ls hnl]
      exact h1
    unfold DoPreprocess
    rw [if_pos htmp, h3]
    simp only [h2]
    rfl
  · exact ReadLines_FileText _ (fun l hl => hnl l (hsub.subset hl))

/-- Claim C16, witness: of five lines, three of them a definition, the first
and the last are copied. -/
theorem DoPreprocess_copies_witness :
    CopiedLines scenarioCopied = ["        clr".toList, "        hlt".toList]
      ∧ ∃ st1, DoPreprocess ⟨oneFile "a.asm".toList (FileText scenarioCopied), true, fun _ => true⟩
            "a.asm".toList ⟨AsmState.init, [], []⟩
          = .ok (some (FileText (CopiedLines scenarioCopied)), st1)
        ∧ st1.out_fd = FileText (CopiedLines scenarioCopied) :=
  ⟨by decide,
    (DoPreprocess_copies ⟨oneFile "a.asm".toList (FileText scenarioCopied), true, fun _ => true⟩
      "a.asm".toList scenarioCopied ⟨AsmState.init, [], []⟩ rfl (by simp [oneFile])
      (by decide) (by decide) (by decide)).1⟩

/-- Claim C16, counterexample. A last line without a newline is not copied:
`ReadLine` returns 0 at the end of the file and the loop of `DoPreprocessFile`
drops what it has read. The file `hlt` gives an empty stream, the file `hlt`
with a newline the line. -/
theorem DoPreprocess_copies_counterexample :
    DoPreprocess ⟨oneFile "a.asm".toList "hlt".toList, true, fun _ => true⟩ "a.asm".toList
        ⟨AsmState.init, [], []⟩
      = .ok (some [], ⟨AsmState.init, [], []⟩)
    ∧ DoPreprocess ⟨oneFile "a.asm".toList "hlt\n".toList, true, fun _ => true⟩ "a.asm".toList
        ⟨AsmState.init, [], []⟩
      = .ok (some "hlt\n".toList, ⟨AsmState.init, [], "hlt\n".toList⟩) := by
  refine ⟨by decide!, by decide!⟩

theorem lower_letter (c : Char) (h : 'a' ≤ c ∧ c ≤ 'z') :
    ∃ n, 97 ≤ n ∧ n ≤ 122 ∧ c = Char.ofNat n := by
  have h1 : 97 ≤ c.toNat := h.1
  have h2 : c.toNat ≤ 122 := h.2
  exact ⟨c.toNat, h1, h2, (Char.ofNat_toNat c).symm⟩

/-- Converting to upper case first does not change what `ToLower` gives. -/
theorem ToLowerChar_ToUpperChar (c : Char) : ToLowerChar (ToUpperChar c) = ToLowerChar c := by
  by_cases h : 'a' ≤ c ∧ c ≤ 'z'
  · obtain ⟨n, h1, h2, rfl⟩ := lower_letter c h
    interval_cases n <;> decide
  · simp only [ToUpperChar, if_neg h]

/-- The conversion to upper case turns a letter into a letter: a character
that is not a letter is the image of itself only. -/
theorem ToUpperChar_eq_iff (c x : Char) (hx : ¬ ('a' ≤ x ∧ x ≤ 'z'))
    (hX : ¬ ('A' ≤ x ∧ x ≤ 'Z')) : ToUpperChar c = x ↔ c = x := by
  by_cases h : 'a' ≤ c ∧ c ≤ 'z'
  · have hu : 'A' ≤ ToUpperChar c ∧ ToUpperChar c ≤ 'Z' := by
      obtain ⟨n, h1, h2, rfl⟩ := lower_letter c h
      interval_cases n <;> decide
    constructor
    · intro he
      rw [he] at hu
      exact absurd hu hX
    · intro he
      rw [he] at h
      exact absurd h hx
  · simp only [ToUpperChar, if_neg h]

theorem isspace_ToUpperChar (c : Char) : isspace (ToUpperChar c) = isspace c := by
  have h := fun x hx hX => ToUpperChar_eq_iff c x hx hX
  simp only [isspace]
  rw [decide_eq_decide.mpr (h ' ' (by decide) (by decide)),
    decide_eq_decide.mpr (h '\t' (by decide) (by decide)),
    decide_eq_decide.mpr (h '\n' (by decide) (by decide)),
    decide_eq_decide.mpr (h '\x0b' (by decide) (by decide)),
    decide_eq_decide.mpr (h '\x0c' (by decide) (by decide)),
    decide_eq_decide.mpr (h '\r' (by decide) (by decide))]

theorem StripWhitespaceFrom_ToUpper (rest : List Char) : ∀ c : Char,
    StripWhitespaceFrom (ToUpperChar c) (ToUpper rest) = ToUpper (StripWhitespaceFrom c rest) := by
  induction rest with
  | nil => intro c; rfl
  | cons d rest ih =>
    intro c
    simp only [ToUpper, List.map_cons, StripWhitespaceFrom, isspace_ToUpperChar]
    split_ifs
    · exact ih c
    · rw [List.map_cons]
      congr 1
      exact ih d

theorem StripWhitespace_ToUpper (line : List Char) :
    StripWhitespace (ToUpper line) = ToUpper (StripWhitespace line) := by
  cases line with
  | nil => rfl
  | cons c rest => exact StripWhitespaceFrom_ToUpper rest c

theorem StripComments_ToUpper (line : List Char) :
    StripComments (ToUpper line) = ToUpper (StripComments line) := by
  have hp : ((fun c : Char => decide (c ≠ ';')) ∘ ToUpperChar)
      = (fun c : Char => decide (c ≠ ';')) := by
    funext c
    simp only [Function.comp]
    rw [decide_eq_decide]
    exact not_congr (ToUpperChar_eq_iff c ';' (by decide) (by decide))
  unfold StripComments ToUpper
  rw [List.takeWhile_map, hp]

theorem dropWhile_isspace_ToUpper (line : List Char) :
    (ToUpper line).dropWhile isspace = ToUpper (line.dropWhile isspace) := by
  induction line with
  | nil => rfl
  | cons c line ih =>
    simp only [ToUpper, List.map_cons, List.dropWhile_cons, isspace_ToUpperChar]
    split_ifs
    · exact ih
    · rfl

theorem rdropWhile_isspace_ToUpper (line : List Char) :
    (ToUpper line).rdropWhile isspace = ToUpper (line.rdropWhile isspace) := by
  unfold List.rdropWhile
  have h := dropWhile_isspace_ToUpper line.reverse
  unfold ToUpper at h ⊢
  rw [← List.map_reverse, h, List.map_reverse]

theorem ToLower_ToUpper (line : List Char) : ToLower (ToUpper line) = ToLower line := by
  unfold ToLower ToUpper
  rw [List.map_map]
  apply List.map_congr_left
  intro c _
  exact ToLowerChar_ToUpperChar c

/-- In the raw and hex formats `DoSecondPass` does not write the source
lines. -/
theorem OutputStatement_line (output_format : OutputFormat) (h : output_format ≠ OUT_LISTING)
    (statement : StatementType) (temp : Nat) (line line1 : List (List Char))
    (current_address : Nat) :
    OutputStatement output_format statement temp line current_address
      = OutputStatement output_format statement temp line1 current_address := by
  unfold OutputStatement
  simp only [h, decide_False, Bool.false_eq_true, if_false]

theorem SecondPassStatement_line (output_format : OutputFormat)
    (h : output_format ≠ OUT_LISTING) (statement : StatementType)
    (line line1 : List (List Char)) (s : AsmState) :
    SecondPassStatement output_format statement line s
      = SecondPassStatement output_format statement line1 s := by
  unfold SecondPassStatement
  cases statement.arg with
  | none =>
    simp only
    rw [OutputStatement_line output_format h statement 0 line line1]
  | some a =>
    simp only
    cases Evaluate a s with
    | error e => rfl
    | ok p =>
      obtain ⟨temp, s1⟩ := p
      simp only
      rw [OutputStatement_line output_format h statement temp line line1]

theorem CString_ToUpper (temp : List Char) : CString (ToUpper temp) = ToUpper (CString temp) := by
  have hp : ((fun c : Char => decide (c ≠ '\x00')) ∘ ToUpperChar)
      = (fun c : Char => decide (c ≠ '\x00')) := by
    funext c
    simp only [Function.comp]
    rw [decide_eq_decide]
    exact not_congr (ToUpperChar_eq_iff c '\x00' (by decide) (by decide))
  unfold CString ToUpper
  rw [List.takeWhile_map, hp]

theorem ReadLinesFrom_ToUpper (fd : List Char) : ∀ temp : List Char,
    ReadLinesFrom (ToUpper fd) (ToUpper temp) = (ReadLinesFrom fd temp).map ToUpper := by
  induction fd with
  | nil => intro temp; rfl
  | cons ch fd ih =>
    intro temp
    have hn : ToUpperChar ch = '\n' ↔ ch = '\n' :=
      ToUpperChar_eq_iff ch '\n' (by decide) (by decide)
    have hfd : ToUpper (ch :: fd) = ToUpperChar ch :: ToUpper fd := rfl
    rw [hfd]
    simp only [ReadLinesFrom]
    by_cases h : ch = '\n'
    · rw [if_pos (hn.mpr h), if_pos h, List.map_cons, CString_ToUpper]
      congr 1
      exact ih []
    · rw [if_neg (fun h1 => h (hn.mp h1)), if_neg h]
      have := ih (temp ++ [ch])
      simp only [ToUpper, List.map_append, List.map_cons, List.map_nil] at this ⊢
      exact this

theorem ReadLines_ToUpper (fd : List Char) :
    ReadLines (ToUpper fd) = (ReadLines fd).map ToUpper :=
  ReadLinesFrom_ToUpper fd []

theorem CString_clean (temp : List Char) (h : '\n' ∉ temp) :
    '\n' ∉ CString temp ∧ '\x00' ∉ CString temp := by
  unfold CString
  constructor
  · intro hm
    exact h ((List.takeWhile_sublist _).subset hm)
  · intro hm
    have := List.mem_takeWhile_imp hm
    simp at this

/-- The lines that `ReadLine` returns hold neither a newline nor a NUL. -/
theorem ReadLinesFrom_clean (fd : List Char) : ∀ temp : List Char, '\n' ∉ temp →
    ∀ l ∈ ReadLinesFrom fd temp, '\n' ∉ l ∧ '\x00' ∉ l := by
  induction fd with
  | nil => intro temp _ l hl; simp [ReadLinesFrom] at hl
  | cons ch fd ih =>
    intro temp ht l hl
    simp only [ReadLinesFrom] at hl
    by_cases h : ch = '\n'
    · rw [if_pos h, List.mem_cons] at hl
      rcases hl with hl | hl
      · rw [hl]; exact CString_clean temp ht
      · exact ih [] (by simp) l hl
    · rw [if_neg h] at hl
      refine ih (temp ++ [ch]) ?_ l hl
      intro hm
      rw [List.mem_append, List.mem_singleton] at hm
      rcases hm with hm | hm
      · exact ht hm
      · exact h hm.symm

theorem ReadLines_ReadLines (text : List Char) :
    ReadLines (FileText (ReadLines text)) = ReadLines text :=
  ReadLines_FileText _ (ReadLinesFrom_clean text [] (by simp))

/-- Claim C23. For all 32-bit values `a`, `b`, `c` the expression `a + b + c`,
written with decimal numerals, is tokenized into its five tokens; `Eval1`
takes one right-hand operand: it returns `(a + b) mod 2 ^ 32` and leaves the
cursor at the tokens `+ c`; and `Evaluate` returns that value and writes
`ERROR: invalid expression`, with the error counter as it was. -/
theorem Evaluate_add_add (a b c : Nat) (ha : a < 2 ^ 32) (hb : b < 2 ^ 32) (hc : c < 2 ^ 32)
    (s : AsmState) :
    Tokenize (Nat.toDigits 10 a ++ " + ".toList ++ Nat.toDigits 10 b ++ " + ".toList
        ++ Nat.toDigits 10 c)
      = [TOK_VALUE a, TOK_ADD, TOK_VALUE b, TOK_ADD, TOK_VALUE c]
    ∧ Eval1 6 [TOK_VALUE a, TOK_ADD, TOK_VALUE b, TOK_ADD, TOK_VALUE c] s
      = .ok ((a + b) % 2 ^ 32, [TOK_ADD, TOK_VALUE c], s)
    ∧ Evaluate (Nat.toDigits 10 a ++ " + ".toList ++ Nat.toDigits 10 b ++ " + ".toList
        ++ Nat.toDigits 10 c) s
      = .ok ((a + b) % 2 ^ 32, s.report "ERROR: invalid expression\n") := by
  have htok : Tokenize (Nat.toDigits 10 a ++ " + ".toList ++ Nat.toDigits 10 b ++ " + ".toList
        ++ Nat.toDigits 10 c)
      = [TOK_VALUE a, TOK_ADD, TOK_VALUE b, TOK_ADD, TOK_VALUE c] := by
    have e1 : " + ".toList = [' ', '+', ' '] := rfl
    have hc0 := Tokenize_decimal c (uint_le_ulong c hc) [] (EndsNumeral_nil 10)
    rw [List.append_nil] at hc0
    unfold Tokenize
    rw [e1]
    simp only [List.append_assoc, List.cons_append, List.nil_append]
    rw [Tokenize_decimal a (uint_le_ulong a ha) _ (EndsNumeral_space 10 _), Tokenize_space,
      Tokenize_add, Tokenize_space,
      Tokenize_decimal b (uint_le_ulong b hb) _ (EndsNumeral_space 10 _), Tokenize_space,
      Tokenize_add, Tokenize_space, hc0, uint_mod a ha, uint_mod b hb, uint_mod c hc]
    rfl
  have hev : Eval1 6 [TOK_VALUE a, TOK_ADD, TOK_VALUE b, TOK_ADD, TOK_VALUE c] s
      = .ok ((a + b) % 2 ^ 32, [TOK_ADD, TOK_VALUE c], s) := by
    simp [Eval1, Eval1Body, Eval2, Eval3, Eval4, UINT_SIZE]
  refine ⟨htok, hev, ?_⟩
  unfold Evaluate
  rw [htok]
  simp only [List.length_cons, List.length_nil]
  rw [hev]

/-- Claim C23, witness: `1 + 2 + 3` evaluates to 3, and `db 1 + 2 + 3` is the
byte 3. -/
theorem Evaluate_add_add_witness :
    Evaluate "1 + 2 + 3".toList AsmState.init
        = .ok (3, ⟨0, [], 0, 0, ["ERROR: invalid expression\n"]⟩)
      ∧ Eval1 6 [TOK_VALUE 1, TOK_ADD, TOK_VALUE 2, TOK_ADD, TOK_VALUE 3] AsmState.init
        = .ok (3, [TOK_ADD, TOK_VALUE 3], AsmState.init) :=
  ⟨(Evaluate_add_add 1 2 3 (by decide) (by decide) (by decide) AsmState.init).2.2,
    (Evaluate_add_add 1 2 3 (by decide) (by decide) (by decide) AsmState.init).2.1⟩

/-- `TrimWhitespace` on any string: it reads in front of the string exactly
when the string holds nothing but white space; otherwise it returns a
contiguous part of the string that is not empty and neither starts nor ends
with white space, and what it leaves out in front and behind is white
space. -/
theorem TrimWhitespace_spec (line : List Char) :
    (TrimWhitespace line = .error .outOfBounds ↔ ∀ c ∈ line, isspace c = true)
      ∧ ∀ r, TrimWhitespace line = .ok r →
        r ≠ []
          ∧ (∃ a b, line = a ++ r ++ b ∧ (∀ c ∈ a, isspace c = true)
            ∧ (∀ c ∈ b, isspace c = true))
          ∧ (∀ c, r.head? = some c → isspace c = false)
          ∧ (∀ c, r.getLast? = some c → isspace c = false) := by
  unfold TrimWhitespace
  cases h : line.dropWhile isspace with
  | nil =>
    refine ⟨⟨fun _ => List.dropWhile_eq_nil_iff.mp h, fun _ => rfl⟩, fun r hr => ?_⟩
    simp at hr
  | cons c rest =>
    have hne : line.dropWhile isspace ≠ [] := by rw [h]; simp
    have hc : isspace c = false := by
      have := List.head_dropWhile_not isspace line hne
      simp only [h, List.head_cons] at this
      exact this
    have hr0 : (c :: rest).rdropWhile isspace ≠ [] := by
      intro h0
      have := List.rdropWhile_eq_nil_iff.mp h0 c (by simp)
      rw [hc] at this
      exact absurd this (by decide)
    refine ⟨⟨fun he => by simp at he, fun hall => absurd (List.dropWhile_eq_nil_iff.mpr hall) hne⟩,
      fun r hr => ?_⟩
    simp only [Except.ok.injEq] at hr
    subst hr
    refine ⟨hr0, ?_, ?_, ?_⟩
    · refine ⟨line.takeWhile isspace, (c :: rest).rtakeWhile isspace, ?_,
        fun x hx => List.mem_takeWhile_imp hx, fun x hx => List.mem_rtakeWhile_imp hx⟩
      have hsplit : (c :: rest).rdropWhile isspace ++ (c :: rest).rtakeWhile isspace
          = c :: rest := by
        unfold List.rdropWhile List.rtakeWhile
        rw [← List.reverse_append, List.takeWhile_append_dropWhile, List.reverse_reverse]
      rw [List.append_assoc, hsplit, ← h, List.takeWhile_append_dropWhile]
    · intro x hx
      obtain ⟨t, ht⟩ := List.rdropWhile_prefix isspace (l := c :: rest)
      cases hd : (c :: rest).rdropWhile isspace with
      | nil => exact absurd hd hr0
      | cons d r1 =>
        rw [hd] at ht hx
        simp only [List.cons_append, List.cons.injEq] at ht
        simp only [List.head?_cons, Option.some.injEq] at hx
        rw [← hx, ht.1]
        exact hc
    · intro x hx
      have := List.rdropWhile_last_not isspace (c :: rest) hr0
      rw [List.getLast?_eq_getLast _ hr0] at hx
      simp only [Option.some.injEq] at hx
      rw [hx] at this
      simpa using this

/-- Claim C26, the code at an expression that ends in an operator or an
opening parenthesis. For `1 +`, `2 *` and `(`, `Eval1` or `Eval2` or `Eval4`
advances the cursor to NULL behind the last token and then calls down to
`Eval4`, which reads `(*tp)->type` through that NULL pointer. The same holds
behind `-` and `/`. -/
theorem Evaluate_null (s : AsmState) :
    Tokenize "1 +".toList = [TOK_VALUE 1, TOK_ADD]
      ∧ Evaluate "1 +".toList s = .error .nullDeref
      ∧ Tokenize "2 *".toList = [TOK_VALUE 2, TOK_MULTIPLY]
      ∧ Evaluate "2 *".toList s = .error .nullDeref
      ∧ Tokenize "(".toList = [TOK_LPAREN]
      ∧ Evaluate "(".toList s = .error .nullDeref
      ∧ Evaluate "1 -".toList s = .error .nullDeref
      ∧ Evaluate "2 /".toList s = .error .nullDeref := by
  have h1 : Tokenize "1 +".toList = [TOK_VALUE 1, TOK_ADD] := by decide
  have h2 : Tokenize "2 *".toList = [TOK_VALUE 2, TOK_MULTIPLY] := by decide
  have h3 : Tokenize "(".toList = [TOK_LPAREN] := by decide
  have h4 : Tokenize "1 -".toList = [TOK_VALUE 1, TOK_SUBTRACT] := by decide
  have h5 : Tokenize "2 /".toList = [TOK_VALUE 2, TOK_DIVIDE] := by decide
  refine ⟨h1, ?_, h2, ?_, h3, ?_, ?_, ?_⟩
  · unfold Evaluate; rw [h1]; rfl
  · unfold Evaluate; rw [h2]; rfl
  · unfold Evaluate; rw [h3]; rfl
  · unfold Evaluate; rw [h4]; rfl
  · unfold Evaluate; rw [h5]; rfl

/-- Claim C27, the code at a string without a character that is not white
space. On the empty string and on a string of white space the first loop of
`TrimWhitespace` leaves the empty string, and the second loop starts with
`x = 0` and reads `line[x - 1]`, in front of the string. `GetStatement` calls
it with such a string for a blank line and for a line that holds only a
comment, and `ParseLabel` for a line that holds only a label. -/
theorem TrimWhitespace_blank (do_add : Bool) (s : AsmState) :
    TrimWhitespace [] = .error .outOfBounds
      ∧ TrimWhitespace " \t ".toList = .error .outOfBounds
      ∧ PrepareLine [] do_add s = .error .outOfBounds
      ∧ PrepareLine "   ".toList do_add s = .error .outOfBounds
      ∧ PrepareLine "; a comment".toList do_add s = .error .outOfBounds
      ∧ PrepareLine "loop:".toList do_add s = .error .outOfBounds
      ∧ GetStatement ["".toList, "        hlt".toList] do_add [] s = .error .outOfBounds := by
  have h1 : TrimWhitespace [] = .error .outOfBounds := by decide
  have h2 : TrimWhitespace " \t ".toList = .error .outOfBounds := by decide
  have h3 : TrimWhitespace (StripComments (StripWhitespace "   ".toList))
      = .error .outOfBounds := by decide
  have h4 : TrimWhitespace (StripComments (StripWhitespace "; a comment".toList))
      = .error .outOfBounds := by decide
  have h5 : TrimWhitespace (StripComments (StripWhitespace "loop:".toList))
      = .ok "loop:".toList := by decide
  have h6 : PrepareLine [] do_add s = .error .outOfBounds := by
    unfold PrepareLine
    rw [show TrimWhitespace (StripComments (StripWhitespace [])) = .error .outOfBounds from h1]
  refine ⟨h1, h2, h6, ?_, ?_, ?_, ?_⟩
  · unfold PrepareLine; rw [h3]
  · unfold PrepareLine; rw [h4]
  · unfold PrepareLine
    rw [h5]
    have h7 : ToLower "loop:".toList = "loop".toList ++ ':' :: [] := by decide
    simp only [h7]
    rw [ParseLabel_label _ _ (by decide)]
    rw [h1]
  · have h8 : "".toList = ([] : List Char) := rfl
    rw [h8, GetStatement, h6]

theorem toDigitsCore_length : ∀ (fuel n k : Nat), 1 ≤ k → n < 16 ^ k →
    (Nat.toDigitsCore 16 fuel n []).length ≤ k := by
  intro fuel
  induction fuel with
  | zero => intro n k _ _; simp [Nat.toDigitsCore]
  | succ f ih =>
    intro n k hk hn
    simp only [Nat.toDigitsCore]
    split
    · simpa using hk
    · next h =>
      rw [toDigitsCore_append]
      have h16 : 16 ≤ n := by
        by_contra hlt
        exact h (Nat.div_eq_of_lt (by omega))
      have hk2 : 2 ≤ k := by
        by_contra hlt
        have : k = 1 := by omega
        subst this
        omega
      have hdiv : n / 16 < 16 ^ (k - 1) := by
        rw [Nat.div_lt_iff_lt_mul (by decide)]
        have : 16 ^ (k - 1) * 16 = 16 ^ k := by
          rw [← Nat.pow_succ]
          congr 1
          omega
        omega
      have := ih (n / 16) (k - 1) (by omega) hdiv
      simp only [List.length_append, List.length_singleton]
      omega

/-- The conversion `%0wX` gives exactly `w` characters for a value below
`16 ^ w`. -/
theorem FormatHex_length (w n : Nat) (hw : 1 ≤ w) (h : n < 16 ^ w) :
    (FormatHex w n).length = w := by
  have := toDigitsCore_length (n + 1) n w hw h
  unfold FormatHex
  simp only [List.length_append, List.length_replicate, List.length_map]
  unfold Nat.toDigits
  omega

/-- Claim C24, amended. In listing format, for a statement other than `dw`
(an opcode without argument, an opcode with argument, `db`) whose address and
value fit their digits, one iteration of the loop of `DoSecondPass` writes
the raw lines in front of the statement, the address prefix of 5 characters,
an area of exactly 15 characters (the bytes and the padding), and the source
line with a newline. So the source text starts at column 20 on each of these
lines. -/
theorem OutputStatement_listing (statement : StatementType) (temp : Nat)
    (line : List (List Char)) (current_address : Nat)
    (hop : statement.op < 256) (hw : statement.op ≠ WORD_OP)
    (hb : statement.op = BYTE_OP → statement.arg.isSome = true ∧ temp < 256)
    (ht : temp < 65536) (ha : current_address < 65536) :
    ∃ area : List Nat,
      OutputStatement OUT_LISTING statement temp line current_address
        = (line.dropLast.map (fun l => Bytes (List.replicate 20 ' ' ++ l ++ ['\n']))).flatten
          ++ Bytes (FormatHex 4 current_address ++ [' ']) ++ area
          ++ Bytes (line.getLast?.getD [] ++ ['\n'])
      ∧ (Bytes (FormatHex 4 current_address ++ [' '])).length = 5
      ∧ area.length = 15 := by
  have h4 : (FormatHex 4 current_address).length = 4 :=
    FormatHex_length 4 current_address (by decide) (by omega)
  have h2 : (FormatHex 2 statement.op).length = 2 :=
    FormatHex_length 2 statement.op (by decide) (by omega)
  have hhi : (FormatHex 2 (temp >>> 8)).length = 2 := by
    apply FormatHex_length 2 _ (by decide)
    rw [Nat.shiftRight_eq_div_pow]
    omega
  have hlo : (FormatHex 2 (temp &&& 0xFF)).length = 2 := by
    apply FormatHex_length 2 _ (by decide)
    exact Nat.lt_of_le_of_lt Nat.and_le_right (by decide)
  have hp : (Bytes (FormatHex 4 current_address ++ [' '])).length = 5 := by
    simp [Bytes, h4]
  unfold OutputStatement
  cases harg : statement.arg with
  | none =>
    have hnb : statement.op ≠ BYTE_OP := by
      intro h
      have := (hb h).1
      rw [harg] at this
      simp at this
    refine ⟨Bytes (FormatHex 2 statement.op) ++ Bytes (List.replicate 13 ' '), ?_, hp, ?_⟩
    · simp [hnb, hw, Bytes]
    · simp [Bytes, h2]
  | some a =>
    by_cases hbo : statement.op = BYTE_OP
    · have h8 : (FormatHex 2 temp).length = 2 :=
        FormatHex_length 2 temp (by decide) (by have := (hb hbo).2; omega)
      refine ⟨Bytes (FormatHex 2 temp) ++ Bytes (List.replicate 13 ' '), ?_, hp, ?_⟩
      · simp [hbo, Bytes]
      · simp [Bytes, h8]
    · refine ⟨Bytes (FormatHex 2 statement.op)
          ++ Bytes ([' '] ++ FormatHex 2 (temp >>> 8) ++ [' '] ++ FormatHex 2 (temp &&& 0xFF))
          ++ Bytes (List.replicate 7 ' '), ?_, hp, ?_⟩
      · simp [hbo, hw, Bytes]
      · simp [Bytes, h2, hhi, hlo]

/-- Claim C24, witness: the line `sta $100` at address 1. -/
theorem OutputStatement_listing_witness :
    OutputStatement OUT_LISTING ⟨some "$100".toList, 0x18⟩ 0x100 ["        sta $100".toList] 1
        = Bytes "0001 18 01 00               sta $100\n".toList
      ∧ ∃ area : List Nat,
        OutputStatement OUT_LISTING ⟨some "$100".toList, 0x18⟩ 0x100
            ["        sta $100".toList] 1
          = (([] : List (List Char)).map
              (fun l => Bytes (List.replicate 20 ' ' ++ l ++ ['\n']))).flatten
            ++ Bytes (FormatHex 4 1 ++ [' ']) ++ area
            ++ Bytes ("        sta $100".toList ++ ['\n'])
        ∧ (Bytes (FormatHex 4 1 ++ [' '])).length = 5
        ∧ area.length = 15 :=
  ⟨by decide!,
    OutputStatement_listing ⟨some "$100".toList, 0x18⟩ 0x100 ["        sta $100".toList] 1
      (by decide) (by decide) (by decide) (by decide) (by decide)⟩

/-- Claim C24, counterexample. The listing of `hlt`, `sta $100`, `db 7`,
`dw 258`: behind the 5 characters of the address the source text follows
after 15 characters on the first three lines, not 16, and after 16 on the
line of `dw`, which is one column further to the right. -/
theorem OutputStatement_listing_counterexample :
    DoSecondPass OUT_LISTING
        ["        hlt".toList, "        sta $100".toList, "        db 7".toList,
          "        dw 258".toList] ⟨0, [], 7, 7, []⟩
      = .ok (Bytes ("0000 38                     hlt\n"
            ++ "0001 18 01 00               sta $100\n"
            ++ "0004 07                     db 7\n"
            ++ "0005  01 02                  dw 258\n").toList, ⟨0, [], 7, 7, []⟩)
    ∧ "0000 38             ".length = 5 + 15
    ∧ "0005  01 02          ".length = 5 + 16 := by
  refine ⟨by decide!, by decide, by decide⟩

theorem j_inst_clocks (f : Nat) (s : Sim.State) : (Sim.j_inst f s).clocks = s.clocks := by
  unfold Sim.j_inst
  simp only [Sim.State.fetchOperand]
  split_ifs <;> rfl

theorem ls_inst_clocks (f : Nat) (s : Sim.State) : (Sim.ls_inst f s).clocks = s.clocks := by
  unfold Sim.ls_inst
  by_cases hf : f < 9
  · interval_cases f <;> rfl
  · have : Sim.ls_class[f]? = none := by
      apply List.getElem?_eq_none
      simp only [Sim.ls_class, List.length_cons, List.length_nil]
      omega
    rw [this]
    rfl

theorem math_inst_clocks (f : Nat) (s : Sim.State) :
    (Sim.math_inst f s).clocks = s.clocks := by
  unfold Sim.math_inst
  by_cases hf : f < 9
  · interval_cases f <;> rfl
  · have : Sim.math_class[f]? = none := by
      apply List.getElem?_eq_none
      simp only [Sim.math_class, List.length_cons, List.length_nil]
      omega
    rw [this]
    rfl

theorem misc_inst_clocks (f : Nat) (s : Sim.State) :
    (Sim.misc_inst f s).clocks = s.clocks := by
  unfold Sim.misc_inst
  by_cases hf : f < 9
  · interval_cases f <;> rfl
  · have : Sim.misc_class[f]? = none := by
      apply List.getElem?_eq_none
      simp only [Sim.misc_class, List.length_cons, List.length_nil]
      omega
    rw [this]
    rfl

/-- One step of `next` counts the cost of the opcode it fetches, modulo
2^32. -/
theorem next_clocks (s : Sim.State) (hc : s.clocks < 2 ^ 32) :
    (Sim.next s).clocks = (s.clocks + ClockCost (s.memory s.preg % 256)) % 2 ^ 32 := by
  have ho : s.memory s.preg % 256 < 256 := Nat.mod_lt _ (by decide)
  have hu : UINT_SIZE = 2 ^ 32 := by decide
  rw [next_eq]
  simp only
  unfold ClockCost
  split
  · next h => simp only [j_inst_clocks, h, hu]; rfl
  · next h => simp only [ls_inst_clocks, h, hu]; rfl
  · next h => simp only [math_inst_clocks, h, hu]; rfl
  · next h => simp only [misc_inst_clocks, h, hu]; rfl
  · next h0 h1 h2 h3 =>
    have h0n : s.memory s.preg % 256 / 16 ≠ 0 := h0
    have h1n : s.memory s.preg % 256 / 16 ≠ 1 := h1
    have h2n : s.memory s.preg % 256 / 16 ≠ 2 := h2
    have h3n : s.memory s.preg % 256 / 16 ≠ 3 := h3
    have ha : ¬ s.memory s.preg % 256 / 16 ≤ 1 := by omega
    have hb : ¬ s.memory s.preg % 256 / 16 ≤ 3 := by omega
    simp only [Sim.State.report, if_neg ha, if_neg hb, Nat.add_zero]
    exact (Nat.mod_eq_of_lt hc).symm

theorem next_clocks_lt (s : Sim.State) (hc : s.clocks < 2 ^ 32) :
    (Sim.next s).clocks < 2 ^ 32 := by
  rw [next_clocks s hc]
  exact Nat.mod_lt _ (by decide)

/-- The clock after `n` steps is the clock at the start plus the costs of the
instructions executed, modulo 2^32. -/
theorem iterate_clocks : ∀ (n : Nat) (s : Sim.State), s.clocks < 2 ^ 32 →
    (Sim.next^[n] s).clocks = (s.clocks + TotalCost n s) % 2 ^ 32 := by
  intro n
  induction n with
  | zero =>
    intro s hc
    simp only [Function.iterate_zero, id_eq, TotalCost, Nat.add_zero]
    exact (Nat.mod_eq_of_lt hc).symm
  | succ n ih =>
    intro s hc
    rw [Function.iterate_succ_apply, ih (Sim.next s) (next_clocks_lt s hc), next_clocks s hc,
      TotalCost]
    omega

/-- The loop of `main` returns the first halted state among the iterates of
`next`. -/
theorem run_eq : ∀ (n : Nat) (s t : Sim.State), Sim.run n s = some t →
    ∃ k, k ≤ n ∧ t = Sim.next^[k] s ∧ t.halted ≠ 0
      ∧ ∀ j, j < k → (Sim.next^[j] s).halted = 0 := by
  intro n
  induction n with
  | zero =>
    intro s t h
    simp only [Sim.run] at h
    split_ifs at h with hh
    simp only [Option.some.injEq] at h
    subst h
    exact ⟨0, Nat.le_refl _, rfl, hh, fun j hj => absurd hj (Nat.not_lt_zero j)⟩
  | succ n ih =>
    intro s t h
    simp only [Sim.run] at h
    split_ifs at h with hh
    · simp only [Option.some.injEq] at h
      subst h
      exact ⟨0, Nat.zero_le _, rfl, hh, fun j hj => absurd hj (Nat.not_lt_zero j)⟩
    · obtain ⟨k, hk, ht, hth, hj⟩ := ih (Sim.next s) t h
      refine ⟨k + 1, by omega, ?_, hth, ?_⟩
      · rw [Function.iterate_succ_apply]
        exact ht
      · intro j hjk
        cases j with
        | zero => simpa using hh
        | succ j =>
          rw [Function.iterate_succ_apply]
          exact hj j (by omega)

/-- Claim C21, amended. Let the loop of `main` end in the state `t`, started
in a state `s` whose clock is a 32-bit value. Then `t` is reached by `k` steps
of `next`, the first `k` for which the machine is halted, and its clock is
the clock of `s` plus the costs of the `k` instructions executed, modulo
2^32. Every single step adds the cost of the opcode it fetches, modulo 2^32:
21 when the class of the opcode is 0 or 1, 9 when it is 2 or 3, and nothing
for a byte of another class. -/
theorem run_clocks (n : Nat) (s t : Sim.State) (hc : s.clocks < 2 ^ 32)
    (h : Sim.run n s = some t) :
    (∃ k, k ≤ n ∧ t = Sim.next^[k] s ∧ t.halted ≠ 0
        ∧ (∀ j, j < k → (Sim.next^[j] s).halted = 0)
        ∧ t.clocks = (s.clocks + TotalCost k s) % 2 ^ 32)
      ∧ (∀ u : Sim.State, u.clocks < 2 ^ 32 →
        (Sim.next u).clocks = (u.clocks + ClockCost (u.memory u.preg % 256)) % 2 ^ 32)
      ∧ (∀ o, o < 256 → ClockCost o
          = if o / 16 = 0 ∨ o / 16 = 1 then 21 else if o / 16 = 2 ∨ o / 16 = 3 then 9 else 0) := by
  refine ⟨?_, next_clocks, ?_⟩
  · obtain ⟨k, hk, ht, hth, hj⟩ := run_eq n s t h
    refine ⟨k, hk, ht, hth, hj, ?_⟩
    rw [ht]
    exact iterate_clocks k s hc
  · intro o _
    unfold ClockCost
    by_cases h1 : o / 16 ≤ 1
    · have : o / 16 = 0 ∨ o / 16 = 1 := by omega
      simp [h1, this]
    · by_cases h3 : o / 16 ≤ 3
      · have ha : ¬ (o / 16 = 0 ∨ o / 16 = 1) := by omega
        have hb : o / 16 = 2 ∨ o / 16 = 3 := by omega
        simp [h1, h3, ha, hb]
      · have ha : ¬ (o / 16 = 0 ∨ o / 16 = 1) := by omega
        have hb : ¬ (o / 16 = 2 ∨ o / 16 = 3) := by omega
        simp [h1, h3, ha, hb]

/-- Claim C21, witness: the program 00 00 04 38 38 halts after two steps with
the clock at 21 + 9 = 30. -/
theorem run_clocks_witness :
    (Sim.next^[2] (Sim.initial scenarioClocks)).clocks = 30
      ∧ TotalCost 2 (Sim.initial scenarioClocks) = 21 + 9
      ∧ (Sim.next^[2] (Sim.initial scenarioClocks)).preg = 5
      ∧ ∃ k, k ≤ 5
        ∧ Sim.next^[2] (Sim.initial scenarioClocks) = Sim.next^[k] (Sim.initial scenarioClocks)
        ∧ (Sim.next^[2] (Sim.initial scenarioClocks)).halted ≠ 0
        ∧ (∀ j, j < k → (Sim.next^[j] (Sim.initial scenarioClocks)).halted = 0)
        ∧ (Sim.next^[2] (Sim.initial scenarioClocks)).clocks
          = ((Sim.initial scenarioClocks).clocks + TotalCost k (Sim.initial scenarioClocks))
            % 2 ^ 32 :=
  ⟨by decide, by decide, by decide,
    (run_clocks 5 (Sim.initial scenarioClocks) (Sim.next^[2] (Sim.initial scenarioClocks))
      (by decide) rfl).1⟩

theorem InLoop_next (s : Sim.State) (h : InLoop s) : InLoop (Sim.next s) := by
  obtain ⟨hm, hp, hc, hz, hn, hh⟩ := h
  have e0 : (Sim.initial scenarioLoop).memory 0 = 0 := by decide
  have e1 : (Sim.initial scenarioLoop).memory 1 = 0 := by decide
  have e2 : (Sim.initial scenarioLoop).memory 2 = 0 := by decide
  rw [next_eq]
  simp only [hm, hp, e0, Nat.zero_mod, Nat.zero_div]
  simp [InLoop, Sim.j_inst, Sim.State.fetchOperand, Sim.lnot, hm, hc, hz, hn, hh, e1, e2]

theorem InLoop_iterate : ∀ (n : Nat) (s : Sim.State), InLoop s →
    InLoop (Sim.next^[n] s) ∧ TotalCost n s = 21 * n := by
  intro n
  induction n with
  | zero => intro s h; exact ⟨h, rfl⟩
  | succ n ih =>
    intro s h
    have h1 := ih (Sim.next s) (InLoop_next s h)
    rw [Function.iterate_succ_apply, TotalCost, h1.2]
    refine ⟨h1.1, ?_⟩
    have e0 : (Sim.initial scenarioLoop).memory 0 = 0 := by decide
    have ec : ClockCost (0 % 256) = 21 := by decide
    rw [h.1, h.2.1, e0, ec]
    omega

/-- Claim C21, counterexample. The clock is an `unsigned int`. In the loop
`j 0` the machine has executed 204522253 jumps of 21 clocks each after as
many steps, 4294967313 clocks in all, and the clock stands at 17: the step
before, from 4294967292, did not add 21 to it. -/
theorem run_clocks_counterexample :
    TotalCost 204522253 (Sim.initial scenarioLoop) = 4294967313
      ∧ (Sim.next^[204522253] (Sim.initial scenarioLoop)).clocks = 17
      ∧ (Sim.next^[204522252] (Sim.initial scenarioLoop)).clocks = 4294967292
      ∧ (Sim.next^[204522253] (Sim.initial scenarioLoop)).halted = 0 := by
  have h0 : InLoop (Sim.initial scenarioLoop) := ⟨rfl, rfl, rfl, rfl, rfl, rfl⟩
  have hc : (Sim.initial scenarioLoop).clocks < 2 ^ 32 := by decide
  have h1 := InLoop_iterate 204522253 _ h0
  have h2 := InLoop_iterate 204522252 _ h0
  refine ⟨h1.2, ?_, ?_, h1.1.2.2.2.2.2⟩
  · rw [iterate_clocks _ _ hc, h1.2]
    rfl
  · rw [iterate_clocks _ _ hc, h2.2]
    rfl

theorem setZN_invariant (s : Sim.State) (ha : s.rega < 256) (hb : s.regb < 256)
    (hc : s.c_flag ≤ 1) : FlagsInvariant (Sim.State.setZN s) := by
  have h := setZN_flags s ha
  refine ⟨hb, hc, ?_, ?_⟩
  · rcases h.2.1 with h0 | h0 <;> omega
  · rw [h.2.2.1]
    omega

theorem j_inst_invariant (f : Nat) (s : Sim.State) (h : FlagsInvariant s) :
    FlagsInvariant (Sim.j_inst f s) := by
  unfold Sim.j_inst
  simp only [Sim.State.fetchOperand]
  split_ifs <;> exact h

theorem ls_inst_invariant (f : Nat) (s : Sim.State) (h : FlagsInvariant s) :
    FlagsInvariant (Sim.ls_inst f s) := by
  have hm : ∀ x : Nat, x % 256 < 256 := fun x => Nat.mod_lt _ (by decide)
  unfold Sim.ls_inst
  by_cases hf : f < 9
  · interval_cases f
    · exact ⟨hm _, h.2⟩
    all_goals exact h
  · have : Sim.ls_class[f]? = none := by
      apply List.getElem?_eq_none
      simp only [Sim.ls_class, List.length_cons, List.length_nil]
      omega
    rw [this]
    exact h

theorem math_inst_invariant (f : Nat) (s : Sim.State) (h : FlagsInvariant s) :
    FlagsInvariant (Sim.math_inst f s) := by
  have hm : ∀ x : Nat, x % 256 < 256 := fun x => Nat.mod_lt _ (by decide)
  obtain ⟨hb, hc, hz, hn⟩ := h
  unfold Sim.math_inst
  by_cases hf : f < 9
  · interval_cases f
    · exact setZN_invariant _ (hm _) hb (Nat.zero_le _)
    · exact setZN_invariant _ (hm _) hb (Nat.zero_le _)
    · refine setZN_invariant _ (hm _) hb ?_
      show (s.regb >>> 7) % 256 ≤ 1
      rw [Nat.shiftRight_eq_div_pow]
      omega
    · refine setZN_invariant _ (hm _) hb ?_
      show (s.regb &&& 1) % 256 ≤ 1
      rw [Nat.and_one_is_mod]
      omega
    · refine setZN_invariant _ (hm _) hb ?_
      show (if (s.regb + s.regc) % 65536 > 255 then 1 else 0) ≤ 1
      split_ifs <;> omega
    · refine setZN_invariant _ (hm _) hb ?_
      show (if s.regb = 255 then 1 else 0) ≤ 1
      split_ifs <;> omega
    · refine setZN_invariant _ (toUChar_lt _) hb ?_
      show (if s.regb = 0 then 1 else 0) ≤ 1
      split_ifs <;> omega
    · exact setZN_invariant _ (toUChar_lt _) hb (Nat.zero_le _)
    · exact ⟨hb, Nat.zero_le _, Nat.le_refl _, Nat.zero_le _⟩
  · have : Sim.math_class[f]? = none := by
      apply List.getElem?_eq_none
      simp only [Sim.math_class, List.length_cons, List.length_nil]
      omega
    rw [this]
    exact ⟨hb, hc, hz, hn⟩

theorem misc_inst_invariant (f : Nat) (s : Sim.State) (h : FlagsInvariant s) :
    FlagsInvariant (Sim.misc_inst f s) := by
  have hm : ∀ x : Nat, x % 256 < 256 := fun x => Nat.mod_lt _ (by decide)
  unfold Sim.misc_inst
  by_cases hf : f < 9
  · interval_cases f
    · exact ⟨hm _, h.2⟩
    · exact h
    · exact h
    · exact h
    · exact h
    · exact ⟨hm _, h.2⟩
    all_goals exact h
  · have : Sim.misc_class[f]? = none := by
      apply List.getElem?_eq_none
      simp only [Sim.misc_class, List.length_cons, List.length_nil]
      omega
    rw [this]
    exact h

/-- One step of `next` keeps the invariant of the flags, whatever the memory
holds. -/
theorem next_invariant (s : Sim.State) (h : FlagsInvariant s) : FlagsInvariant (Sim.next s) := by
  have h2 : FlagsInvariant { s with opcode := s.memory s.preg % 256,
                                    preg := (s.preg + 1) % 65536 } := h
  rw [next_eq]
  simp only
  split
  · exact j_inst_invariant _ _ h2
  · exact ls_inst_invariant _ _ h2
  · exact math_inst_invariant _ _ h2
  · exact misc_inst_invariant _ _ h2
  · exact h2

theorem iterate_invariant : ∀ (n : Nat) (s : Sim.State), FlagsInvariant s →
    FlagsInvariant (Sim.next^[n] s) := by
  intro n
  induction n with
  | zero => intro s h; exact h
  | succ n ih =>
    intro s h
    rw [Function.iterate_succ_apply]
    exact ih _ (next_invariant s h)

/-- Claim C25. Let `s0` be a state with the three flags at 1 and a byte in
`regb`, as `main` sets it up, with any memory. In every state reached from it
by steps of `next`, each of `c_flag`, `z_flag` and `n_flag` is 0 or 1, and for
every function `f` of a jump the bitwise condition of `j_inst` is not 0
exactly when every flag that `f` requires is set. -/
theorem iterate_flags (s0 : Sim.State) (n : Nat) (hc : s0.c_flag = 1) (hz : s0.z_flag = 1)
    (hn : s0.n_flag = 1) (hb : s0.regb < 256) :
    ((Sim.next^[n] s0).c_flag = 0 ∨ (Sim.next^[n] s0).c_flag = 1)
      ∧ ((Sim.next^[n] s0).z_flag = 0 ∨ (Sim.next^[n] s0).z_flag = 1)
      ∧ ((Sim.next^[n] s0).n_flag = 0 ∨ (Sim.next^[n] s0).n_flag = 1)
      ∧ ∀ f, f < 16 →
        ((Sim.lnot (((f >>> 0) &&& 1) % 256) ||| (Sim.next^[n] s0).c_flag)
            &&& (Sim.lnot (((f >>> 1) &&& 1) % 256) ||| (Sim.next^[n] s0).z_flag)
            &&& (Sim.lnot (((f >>> 2) &&& 1) % 256) ||| (Sim.next^[n] s0).n_flag) ≠ 0
          ↔ FlagsSet f (Sim.next^[n] s0)) := by
  have h0 : FlagsInvariant s0 := ⟨hb, by omega, by omega, by omega⟩
  obtain ⟨_, h1, h2, h3⟩ := iterate_invariant n s0 h0
  refine ⟨by omega, by omega, by omega, ?_⟩
  intro f hf
  rw [j_inst_condition f _ _ _ hf h1 h2 h3]
  unfold FlagsSet
  constructor
  · intro h
    exact ⟨fun hb => by have := h.1 hb; omega, fun hb => by have := h.2.1 hb; omega,
      fun hb => by have := h.2.2 hb; omega⟩
  · intro h
    exact ⟨fun hb => by have := h.1 hb; omega, fun hb => by have := h.2.1 hb; omega,
      fun hb => by have := h.2.2 hb; omega⟩

/-- Claim C25, witness: behind `clr`, `mab` and `inc` the flags are 0, 0, 0,
and the condition of `jz` is 0: the jump is not taken. The last part shows
what the invariant is needed for: with a `c_flag` of 2 and a `z_flag` of 1
the bitwise condition of `jcz` is 0 although both flags are set. -/
theorem iterate_flags_witness :
    (Sim.next^[3] (Sim.initial scenarioFlags)).c_flag = 0
      ∧ (Sim.next^[3] (Sim.initial scenarioFlags)).z_flag = 0
      ∧ (Sim.next^[3] (Sim.initial scenarioFlags)).n_flag = 0
      ∧ ¬ FlagsSet 2 (Sim.next^[3] (Sim.initial scenarioFlags))
      ∧ (Sim.next^[4] (Sim.initial scenarioFlags)).preg = 6
      ∧ (Sim.lnot (((3 >>> 0) &&& 1) % 256) ||| 2) &&& (Sim.lnot (((3 >>> 1) &&& 1) % 256) ||| 1)
          &&& (Sim.lnot (((3 >>> 2) &&& 1) % 256) ||| 1) = 0 :=
  have h := iterate_flags (Sim.initial scenarioFlags) 3 rfl rfl rfl (by decide)
  ⟨by decide, by decide, by decide,
    fun hs => absurd ((h.2.2.2 2 (by decide)).mpr hs) (by decide), by decide, by decide⟩

/-- The function `next` on a byte `o`, by class. -/
theorem next_class (s : Sim.State) (o : Nat) (ho : o < 256) (hop : s.memory s.preg = o) :
    (o / 16 = 0 → Sim.next s = Clocked 21 (Sim.j_inst (o % 16) (Fetched o s)))
      ∧ (o / 16 = 1 → Sim.next s = Clocked 21 (Sim.ls_inst (o % 16) (Fetched o s)))
      ∧ (o / 16 = 2 → Sim.next s = Clocked 9 (Sim.math_inst (o % 16) (Fetched o s)))
      ∧ (o / 16 = 3 → Sim.next s = Clocked 9 (Sim.misc_inst (o % 16) (Fetched o s)))
      ∧ (4 ≤ o / 16 → Sim.next s
          = (Fetched o s).report
              ("ERROR: invalid instruction class: " ++ toString (o / 16) ++ "\n")) := by
  have h1 : o % 256 = o := Nat.mod_eq_of_lt ho
  rw [next_eq]
  simp only [hop, h1]
  refine ⟨fun h => ?_, fun h => ?_, fun h => ?_, fun h => ?_, fun h => ?_⟩
  · simp only [h]; try rfl
  · simp only [h]; try rfl
  · simp only [h]; try rfl
  · simp only [h]; try rfl
  · split
    · next h0 => omega
    · next h0 => omega
    · next h0 => omega
    · next h0 => omega
    · rfl

theorem report_stderr (s : Sim.State) (msg : String) : (s.report msg).stderr ≠ s.stderr := by
  intro h
  have := congrArg List.length h
  simp [Sim.State.report] at this

theorem j_inst_stderr (f : Nat) (s : Sim.State) : (Sim.j_inst f s).stderr = s.stderr := by
  unfold Sim.j_inst
  simp only [Sim.State.fetchOperand]
  split_ifs <;> rfl

theorem ls_inst_stderr (f : Nat) (s : Sim.State) :
    (Sim.ls_inst f s).stderr = s.stderr ↔ f < 9 := by
  unfold Sim.ls_inst
  by_cases hf : f < 9
  · simp only [hf, iff_true]
    interval_cases f <;> rfl
  · have : Sim.ls_class[f]? = none := by
      apply List.getElem?_eq_none
      simp only [Sim.ls_class, List.length_cons, List.length_nil]
      omega
    rw [this]
    simp only [hf, iff_false]
    exact report_stderr _ _

theorem math_inst_stderr (f : Nat) (s : Sim.State) :
    (Sim.math_inst f s).stderr = s.stderr ↔ f < 9 := by
  unfold Sim.math_inst
  by_cases hf : f < 9
  · simp only [hf, iff_true]
    interval_cases f <;> rfl
  · have : Sim.math_class[f]? = none := by
      apply List.getElem?_eq_none
      simp only [Sim.math_class, List.length_cons, List.length_nil]
      omega
    rw [this]
    simp only [hf, iff_false]
    exact report_stderr _ _

theorem misc_inst_stderr (f : Nat) (s : Sim.State) :
    (Sim.misc_inst f s).stderr = s.stderr ↔ f < 9 := by
  unfold Sim.misc_inst
  by_cases hf : f < 9
  · simp only [hf, iff_true]
    interval_cases f <;> rfl
  · have : Sim.misc_class[f]? = none := by
      apply List.getElem?_eq_none
      simp only [Sim.misc_class, List.length_cons, List.length_nil]
      omega
    rw [this]
    simp only [hf, iff_false]
    exact report_stderr _ _

/-- The bytes that `next` executes without a message: every byte of class 0,
and the bytes of the classes 1, 2, 3 with a function below 9. -/
theorem next_stderr (s : Sim.State) (o : Nat) (ho : o < 256) (hop : s.memory s.preg = o) :
    (Sim.next s).stderr = s.stderr ↔ (o / 16 = 0 ∨ (o / 16 ≤ 3 ∧ o % 16 < 9)) := by
  have hc := next_class s o ho hop
  have hf : (Fetched o s).stderr = s.stderr := rfl
  by_cases h0 : o / 16 = 0
  · rw [hc.1 h0]
    simp only [h0, true_or, iff_true]
    exact (j_inst_stderr _ _).trans hf
  · by_cases h1 : o / 16 = 1
    · rw [hc.2.1 h1]
      have := ls_inst_stderr (o % 16) (Fetched o s)
      rw [hf] at this
      have hr : (o / 16 = 0 ∨ (o / 16 ≤ 3 ∧ o % 16 < 9)) ↔ o % 16 < 9 := by omega
      rw [hr]
      exact this
    · by_cases h2 : o / 16 = 2
      · rw [hc.2.2.1 h2]
        have := math_inst_stderr (o % 16) (Fetched o s)
        rw [hf] at this
        have hr : (o / 16 = 0 ∨ (o / 16 ≤ 3 ∧ o % 16 < 9)) ↔ o % 16 < 9 := by omega
        rw [hr]
        exact this
      · by_cases h3 : o / 16 = 3
        · rw [hc.2.2.2.1 h3]
          have := misc_inst_stderr (o % 16) (Fetched o s)
          rw [hf] at this
          have hr : (o / 16 = 0 ∨ (o / 16 ≤ 3 ∧ o % 16 < 9)) ↔ o % 16 < 9 := by omega
          rw [hr]
          exact this
        · rw [hc.2.2.2.2 (by omega)]
          have hn : ¬ (o / 16 = 0 ∨ (o / 16 ≤ 3 ∧ o % 16 < 9)) := by omega
          simp only [hn, iff_false]
          exact fun h => report_stderr _ _ (h.trans hf.symm)

set_option maxRecDepth 100000 in
/-- The opcodes of the instruction table that are not pseudo-instructions are
the bytes of class 0 and the bytes of the classes 1, 2, 3 with a function
below 9. -/
theorem INSTRUCTION_MAP_opcodes : ∀ o, o < 256 →
    ((∃ d ∈ INSTRUCTION_MAP, d.opcode = o ∧ d.opcode ≠ BYTE_OP ∧ d.opcode ≠ WORD_OP)
      ↔ (o / 16 = 0 ∨ (o / 16 ≤ 3 ∧ o % 16 < 9))) := by
  decide!

/-- The mnemonics of the instruction table that are not pseudo-instructions,
by class: a jump spells its function bits, and the mnemonic of every other
instruction is the name of the handler that the table of its class holds at
the index of its function. The mnemonics of the classes 0 and 1 take an
argument, those of the classes 2 and 3 take none. -/
theorem INSTRUCTION_MAP_handlers : ∀ d ∈ INSTRUCTION_MAP,
    d.opcode ≠ BYTE_OP → d.opcode ≠ WORD_OP →
    (d.opcode / 16 = 0 ∧ d.arg_count = 1 ∧ JumpFunc d.name = d.opcode % 16)
      ∨ (d.opcode / 16 = 1 ∧ d.arg_count = 1
        ∧ ∃ inst, HandlerNamed.lookup d.name = some inst
          ∧ Sim.ls_class[d.opcode % 16]? = some inst)
      ∨ (d.opcode / 16 = 2 ∧ d.arg_count = 0
        ∧ ∃ inst, HandlerNamed.lookup d.name = some inst
          ∧ Sim.math_class[d.opcode % 16]? = some inst)
      ∨ (d.opcode / 16 = 3 ∧ d.arg_count = 0
        ∧ ∃ inst, HandlerNamed.lookup d.name = some inst
          ∧ Sim.misc_class[d.opcode % 16]? = some inst) := by
  intro d hd hb hw
  unfold INSTRUCTION_MAP at hd
  simp only [List.mem_cons, List.mem_nil_iff, or_false] at hd
  rcases hd with
    rfl | rfl | rfl | rfl | rfl | rfl | rfl | rfl | rfl | rfl | rfl | rfl | rfl | rfl | rfl
    | rfl | rfl | rfl | rfl | rfl | rfl | rfl | rfl | rfl | rfl | rfl | rfl | rfl | rfl | rfl
    | rfl | rfl | rfl | rfl | rfl | rfl | rfl | rfl | rfl | rfl | rfl | rfl | rfl | rfl | rfl
  all_goals
    first
    | exact Or.inl ⟨by decide, by decide, by decide⟩
    | exact Or.inr (Or.inl ⟨by decide, by decide, _, rfl, rfl⟩)
    | exact Or.inr (Or.inr (Or.inl ⟨by decide, by decide, _, rfl, rfl⟩))
    | exact Or.inr (Or.inr (Or.inr ⟨by decide, by decide, _, rfl, rfl⟩))
    | exact absurd rfl hb
    | exact absurd rfl hw

theorem Compiled_TrimWhitespace_of_ok (front : Char) (line r : List Char)
    (h : TrimWhitespace line = .ok r) : Compiled.TrimWhitespace front line = .ok r := by
  unfold TrimWhitespace at h
  unfold Compiled.TrimWhitespace
  cases hd : line.dropWhile isspace with
  | nil => rw [hd] at h; simp at h
  | cons c rest => rw [hd] at h; exact h

theorem Compiled_ParseLabel_eq (front : Char) (l : List Char) (do_add : Bool) (s : AsmState) :
    Compiled.ParseLabel front l do_add s =
      match Compiled.StatementText front l with
      | .error e => .error e
      | .ok r => .ok (r, if do_add then LabelState l s else s) := by
  unfold Compiled.ParseLabel Compiled.StatementText LabelState LabelOf
  by_cases h : ':' ∈ l
  · simp only [h, if_true]
    try rfl
  · simp only [h, if_false]
    cases do_add <;> rfl

theorem Compiled_PrepareLine_eq (front : Char) (line : List Char) (do_add : Bool)
    (s : AsmState) :
    Compiled.PrepareLine front line do_add s =
      match Compiled.LineText front line with
      | .error e => .error e
      | .ok r => .ok (r, if do_add then Compiled.LineState front line s else s) := by
  unfold Compiled.PrepareLine Compiled.LineText Compiled.LineState Compiled.PreparedText
  cases Compiled.TrimWhitespace front (StripComments (StripWhitespace line)) with
  | error e => rfl
  | ok l =>
    simp only
    rw [Compiled_ParseLabel_eq]

theorem Compiled_GetStatement_cons (front : Char) (line : List Char) (fd : List (List Char))
    (do_add : Bool) (raw : List (List Char)) (s : AsmState) :
    Compiled.GetStatement front (line :: fd) do_add raw s =
      match Compiled.LineText front line with
      | .error e => .error e
      | .ok [] =>
        Compiled.GetStatement front fd do_add (raw ++ [line])
          (if do_add then Compiled.LineState front line s else s)
      | .ok (c :: r) =>
        .ok (some (StatementOf (c :: r), fd), raw ++ [line],
          (ParseStatement (c :: r) (if do_add then Compiled.LineState front line s else s)).2) := by
  simp only [Compiled.GetStatement]
  rw [Compiled_PrepareLine_eq]
  cases h : Compiled.LineText front line with
  | error e => rfl
  | ok r =>
    cases r with
    | nil => rfl
    | cons c l => simp only [ParseStatement_fst]

/-- The loop of `DoFirstPass` with a budget of at least one iteration for
every line and one more is Pass 1 line by line. -/
theorem Compiled_DoFirstPassLoop_body (front : Char) :
    ∀ (fd : List (List Char)) (n : Nat) (raw : List (List Char)) (s : AsmState),
      fd.length ≤ n →
      (match Compiled.GetStatement front fd true raw s with
        | .error e => .error e
        | .ok (none, _, s1) => .ok s1
        | .ok (some (statement, fd1), _, s1) =>
          Compiled.DoFirstPassLoop front n fd1 (FirstPassStatement statement s1))
        = Compiled.FirstPassLines front fd s := by
  intro fd
  induction fd with
  | nil => intro n raw s _; rfl
  | cons line fd ih =>
    intro n raw s hn
    rw [Compiled_GetStatement_cons]
    simp only [Compiled.FirstPassLines, if_true]
    cases h : Compiled.LineText front line with
    | error e => rfl
    | ok r =>
      cases r with
      | nil =>
        simp only
        exact ih n _ _ (Nat.le_of_succ_le hn)
      | cons c l =>
        simp only
        obtain ⟨m, rfl⟩ : ∃ m, n = m + 1 := ⟨n - 1, by simp only [List.length_cons] at hn; omega⟩
        exact ih m [] _ (by simp only [List.length_cons] at hn; omega)

theorem Compiled_DoFirstPassLoop_eq (front : Char) (fd : List (List Char)) (n : Nat)
    (s : AsmState) (hn : fd.length < n) :
    Compiled.DoFirstPassLoop front n fd s = Compiled.FirstPassLines front fd s := by
  obtain ⟨m, rfl⟩ : ∃ m, n = m + 1 := ⟨n - 1, by omega⟩
  exact Compiled_DoFirstPassLoop_body front fd m [] s (by omega)

theorem Compiled_DoFirstPass_eq (front : Char) (fd : List (List Char)) (s : AsmState) :
    Compiled.DoFirstPass front fd s
      = Compiled.FirstPassLines front fd { s with current_address := 0 } :=
  Compiled_DoFirstPassLoop_eq front fd _ _ (Nat.lt_succ_self _)

theorem Compiled_DoSecondPassLoop_body (front : Char) (output_format : OutputFormat) :
    ∀ (fd : List (List Char)) (n : Nat) (raw : List (List Char)) (s : AsmState)
      (output : List Nat), fd.length ≤ n →
      (match Compiled.GetStatement front fd false raw s with
        | .error e => .error e
        | .ok (none, _, s1) => .ok (output, s1)
        | .ok (some (statement, input1), line, s1) =>
          match SecondPassStatement output_format statement line s1 with
          | .error e => .error e
          | .ok (written, s2) =>
            Compiled.DoSecondPassLoop front output_format n input1 s2 (output ++ written))
        = Compiled.SecondPassLines front output_format fd raw s output := by
  intro fd
  induction fd with
  | nil => intro n raw s output _; rfl
  | cons line fd ih =>
    intro n raw s output hn
    rw [Compiled_GetStatement_cons]
    simp only [Compiled.SecondPassLines, Bool.false_eq_true, if_false]
    cases h : Compiled.LineText front line with
    | error e => rfl
    | ok r =>
      cases r with
      | nil =>
        simp only
        exact ih n _ _ _ (Nat.le_of_succ_le hn)
      | cons c l =>
        simp only
        cases hs : SecondPassStatement output_format (StatementOf (c :: l)) (raw ++ [line])
            (ParseStatement (c :: l) s).2 with
        | error e => rfl
        | ok p =>
          obtain ⟨w, s2⟩ := p
          simp only
          obtain ⟨m, rfl⟩ : ∃ m, n = m + 1 :=
            ⟨n - 1, by simp only [List.length_cons] at hn; omega⟩
          exact ih m [] _ _ (by simp only [List.length_cons] at hn; omega)

theorem Compiled_DoSecondPassLoop_eq (front : Char) (output_format : OutputFormat)
    (fd : List (List Char)) (n : Nat) (s : AsmState) (output : List Nat) (hn : fd.length < n) :
    Compiled.DoSecondPassLoop front output_format n fd s output
      = Compiled.SecondPassLines front output_format fd [] s output := by
  obtain ⟨m, rfl⟩ : ∃ m, n = m + 1 := ⟨n - 1, by omega⟩
  exact Compiled_DoSecondPassLoop_body front output_format fd m [] s output (by omega)

theorem Compiled_DoSecondPass_eq (front : Char) (output_format : OutputFormat)
    (fd : List (List Char)) (s : AsmState) :
    Compiled.DoSecondPass front output_format fd s
      = Compiled.SecondPassLines front output_format fd [] { s with current_address := 0 } [] :=
  Compiled_DoSecondPassLoop_eq front output_format fd _ _ _ (Nat.lt_succ_self _)

theorem Compiled_PreparedText_of_ok (front : Char) (line l : List Char)
    (h : PreparedText line = .ok l) : Compiled.PreparedText front line = .ok l := by
  unfold PreparedText at h
  unfold Compiled.PreparedText
  cases ht : TrimWhitespace (StripComments (StripWhitespace line)) with
  | error e => rw [ht] at h; simp at h
  | ok r =>
    rw [ht] at h
    rw [Compiled_TrimWhitespace_of_ok front _ _ ht]
    exact h

theorem Compiled_LineText_of_ok (front : Char) (line r : List Char)
    (h : LineText line = .ok r) : Compiled.LineText front line = .ok r := by
  unfold LineText at h
  unfold Compiled.LineText
  cases hp : PreparedText line with
  | error e => rw [hp] at h; simp at h
  | ok l =>
    rw [hp] at h
    rw [Compiled_PreparedText_of_ok front _ _ hp]
    simp only at h ⊢
    unfold StatementText at h
    unfold Compiled.StatementText
    split_ifs at h ⊢
    · exact Compiled_TrimWhitespace_of_ok front _ _ h
    · exact h

theorem Compiled_LineState_of_ok (front : Char) (line l : List Char) (s : AsmState)
    (h : PreparedText line = .ok l) : Compiled.LineState front line s = LabelState l s := by
  unfold Compiled.LineState
  rw [Compiled_PreparedText_of_ok front _ _ h]

/-- With a byte in front of the buffer that is not white space,
`TrimWhitespace` returns. -/
theorem Compiled_TrimWhitespace_returns (front : Char) (hfront : isspace front = false)
    (line : List Char) : ∃ r, Compiled.TrimWhitespace front line = .ok r := by
  unfold Compiled.TrimWhitespace
  cases line.dropWhile isspace with
  | nil => exact ⟨[], by simp [hfront]⟩
  | cons c rest => exact ⟨_, rfl⟩

theorem Compiled_TrimWhitespace_error (front : Char) (line : List Char) (e : Fault)
    (h : Compiled.TrimWhitespace front line = .error e) :
    e = .outOfBounds ∧ isspace front = true := by
  unfold Compiled.TrimWhitespace at h
  split at h
  · split_ifs at h with hf
    · simp only [Except.error.injEq] at h
      exact ⟨h.symm, hf⟩
  · simp at h

theorem Compiled_LineText_returns (front : Char) (hfront : isspace front = false)
    (line : List Char) : ∃ r, Compiled.LineText front line = .ok r := by
  unfold Compiled.LineText Compiled.PreparedText
  obtain ⟨l, hl⟩ := Compiled_TrimWhitespace_returns front hfront
    (StripComments (StripWhitespace line))
  rw [hl]
  simp only [Compiled.StatementText]
  split_ifs
  · exact Compiled_TrimWhitespace_returns front hfront _
  · exact ⟨_, rfl⟩

theorem Compiled_LineText_error (front : Char) (line : List Char) (e : Fault)
    (h : Compiled.LineText front line = .error e) :
    e = .outOfBounds ∧ isspace front = true := by
  unfold Compiled.LineText Compiled.PreparedText at h
  cases h1 : Compiled.TrimWhitespace front (StripComments (StripWhitespace line)) with
  | error e1 =>
    rw [h1] at h
    simp only [Except.error.injEq] at h
    subst h
    exact Compiled_TrimWhitespace_error _ _ _ h1
  | ok l =>
    rw [h1] at h
    simp only [Compiled.StatementText] at h
    split at h
    · exact Compiled_TrimWhitespace_error _ _ _ h
    · simp at h

/-- Pass 1 returns when the byte in front of the buffer is not white space. -/
theorem Compiled_FirstPassLines_returns (front : Char) (hfront : isspace front = false) :
    ∀ (fd : List (List Char)) (s : AsmState), ∃ sf, Compiled.FirstPassLines front fd s = .ok sf := by
  intro fd
  induction fd with
  | nil => intro s; exact ⟨s, rfl⟩
  | cons line fd ih =>
    intro s
    obtain ⟨r, hr⟩ := Compiled_LineText_returns front hfront line
    simp only [Compiled.FirstPassLines, hr]
    cases r with
    | nil => exact ih _
    | cons c l => exact ih _

theorem Compiled_FirstPassLines_error (front : Char) :
    ∀ (fd : List (List Char)) (s : AsmState) (e : Fault),
      Compiled.FirstPassLines front fd s = .error e → e = .outOfBounds ∧ isspace front = true := by
  intro fd
  induction fd with
  | nil => intro s e h; simp [Compiled.FirstPassLines] at h
  | cons line fd ih =>
    intro s e h
    simp only [Compiled.FirstPassLines] at h
    cases hl : Compiled.LineText front line with
    | error e1 =>
      rw [hl] at h
      simp only [Except.error.injEq] at h
      subst h
      exact Compiled_LineText_error _ _ _ hl
    | ok r =>
      rw [hl] at h
      cases r with
      | nil => exact ih _ _ h
      | cons c l => exact ih _ _ h

theorem Compiled_LineState_frame (front : Char) (line : List Char) (s : AsmState) :
    (Compiled.LineState front line s).current_address = s.current_address
    ∧ (Compiled.LineState front line s).byte_count = s.byte_count
    ∧ s.error_count ≤ (Compiled.LineState front line s).error_count := by
  unfold Compiled.LineState
  cases Compiled.PreparedText front line with
  | error e => simp
  | ok l => exact LabelState_frame l s

/-- Pass 1 adds the raw length of the program to both counters, modulo
`2 ^ 32`, and never lowers the error count. -/
theorem Compiled_FirstPassLines_counts (front : Char) :
    ∀ (fd : List (List Char)) (s sf : AsmState),
      Compiled.FirstPassLines front fd s = .ok sf →
      sf.byte_count % UINT_SIZE = (s.byte_count + Compiled.ProgramLength front fd) % UINT_SIZE
      ∧ sf.current_address % UINT_SIZE
        = (s.current_address + Compiled.ProgramLength front fd) % UINT_SIZE
      ∧ s.error_count ≤ sf.error_count := by
  intro fd
  induction fd with
  | nil =>
    intro s sf h
    simp only [Compiled.FirstPassLines, Except.ok.injEq] at h
    subst h
    simp [Compiled.ProgramLength]
  | cons line fd ih =>
    intro s sf h
    simp only [Compiled.FirstPassLines] at h
    have hs := Compiled_LineState_frame front line s
    cases hl : Compiled.LineText front line with
    | error e => rw [hl] at h; simp at h
    | ok r =>
      rw [hl] at h
      cases r with
      | nil =>
        simp only at h
        have h1 := ih _ _ h
        simp only [hs.1, hs.2.1] at h1
        simp only [Compiled.ProgramLength, Compiled.LineLength, hl, Nat.zero_add]
        exact ⟨h1.1, h1.2.1, Nat.le_trans hs.2.2 h1.2.2⟩
      | cons c l =>
        simp only at h
        have h1 := ih _ _ h
        have hp := ParseStatement_snd (c :: l) (Compiled.LineState front line s)
        simp only [FirstPassStatement, StatementSize_eq_RawLength, hp.2.1, hp.2.2.1, hs.1,
          hs.2.1] at h1
        simp only [Compiled.ProgramLength, Compiled.LineLength, hl]
        refine ⟨?_, ?_, ?_⟩
        · rw [h1.1, Nat.mod_add_mod]; congr 1; omega
        · rw [h1.2.1, Nat.mod_add_mod]; congr 1; omega
        · exact Nat.le_trans (Nat.le_trans hs.2.2 hp.2.2.2) h1.2.2

theorem Compiled_FirstPassLines_bound (front : Char) :
    ∀ (fd : List (List Char)) (s sf : AsmState),
      Compiled.FirstPassLines front fd s = .ok sf →
      s.byte_count < UINT_SIZE → s.current_address < UINT_SIZE →
      sf.byte_count < UINT_SIZE ∧ sf.current_address < UINT_SIZE := by
  intro fd
  induction fd with
  | nil =>
    intro s sf h hb hc
    simp only [Compiled.FirstPassLines, Except.ok.injEq] at h
    subst h
    exact ⟨hb, hc⟩
  | cons line fd ih =>
    intro s sf h hb hc
    simp only [Compiled.FirstPassLines] at h
    have hs := Compiled_LineState_frame front line s
    cases hl : Compiled.LineText front line with
    | error e => rw [hl] at h; simp at h
    | ok r =>
      rw [hl] at h
      cases r with
      | nil =>
        simp only at h
        exact ih _ _ h (by rw [hs.2.1]; exact hb) (by rw [hs.1]; exact hc)
      | cons c l =>
        simp only at h
        have hpos : 0 < UINT_SIZE := by decide
        exact ih _ _ h (Nat.mod_lt _ hpos) (Nat.mod_lt _ hpos)

/-- Pass 2 in raw format writes the raw length of the program and leaves the
symbol table as it is. -/
theorem Compiled_SecondPassLines_raw (front : Char) :
    ∀ (fd raw : List (List Char)) (s : AsmState) (output written : List Nat) (sf : AsmState),
      Compiled.SecondPassLines front OUT_RAW fd raw s output = .ok (written, sf) →
      written.length = output.length + Compiled.ProgramLength front fd
        ∧ sf.symbols = s.symbols := by
  intro fd
  induction fd with
  | nil =>
    intro raw s output written sf h
    simp only [Compiled.SecondPassLines, Except.ok.injEq, Prod.mk.injEq] at h
    obtain ⟨rfl, rfl⟩ := h
    simp [Compiled.ProgramLength]
  | cons line fd ih =>
    intro raw s output written sf h
    simp only [Compiled.SecondPassLines] at h
    cases hl : Compiled.LineText front line with
    | error e => rw [hl] at h; simp at h
    | ok r =>
      rw [hl] at h
      cases r with
      | nil =>
        simp only at h
        have h1 := ih _ _ _ _ _ h
        simp only [Compiled.ProgramLength, Compiled.LineLength, hl, Nat.zero_add]
        exact h1
      | cons c l =>
        simp only at h
        cases hs : SecondPassStatement OUT_RAW (StatementOf (c :: l)) (raw ++ [line])
            (ParseStatement (c :: l) s).2 with
        | error e => rw [hs] at h; simp at h
        | ok p =>
          obtain ⟨w, s2⟩ := p
          rw [hs] at h
          simp only at h
          have h1 := ih _ _ _ _ _ h
          have h2 := SecondPassStatement_raw_eq _ _ _ _ _ hs
          have hp := ParseStatement_snd (c :: l) s
          simp only [Compiled.ProgramLength, Compiled.LineLength, hl]
          refine ⟨?_, ?_⟩
          · rw [h1.1, List.length_append, h2.1]; omega
          · rw [h1.2, h2.2.1, hp.1]

/-- Where Pass 1 has run through, Pass 2 stops only at the null dereference of
`Eval4`. -/
theorem Compiled_SecondPassLines_error (front : Char) (output_format : OutputFormat) :
    ∀ (fd raw : List (List Char)) (s1 sf s : AsmState) (output : List Nat) (e : Fault),
      Compiled.FirstPassLines front fd s1 = .ok sf →
      Compiled.SecondPassLines front output_format fd raw s output = .error e →
      e = .nullDeref := by
  intro fd
  induction fd with
  | nil =>
    intro raw s1 sf s output e _ h
    simp [Compiled.SecondPassLines] at h
  | cons line fd ih =>
    intro raw s1 sf s output e h1 h
    simp only [Compiled.FirstPassLines] at h1
    simp only [Compiled.SecondPassLines] at h
    cases hl : Compiled.LineText front line with
    | error e => rw [hl] at h1; simp at h1
    | ok r =>
      rw [hl] at h h1
      cases r with
      | nil =>
        simp only at h h1
        exact ih _ _ _ _ _ _ h1 h
      | cons c l =>
        simp only at h h1
        cases hs : SecondPassStatement output_format (StatementOf (c :: l)) (raw ++ [line])
            (ParseStatement (c :: l) s).2 with
        | error e1 =>
          rw [hs] at h
          simp only [Except.error.injEq] at h
          subst h
          exact SecondPassStatement_error _ _ _ _ _ hs
        | ok p =>
          obtain ⟨w, s2⟩ := p
          rw [hs] at h
          simp only at h
          exact ih _ _ _ _ _ _ h1 h

/-- Claim C1, amended. In a run in which the byte in front of the line buffer
is not white space, Pass 1 returns for every preprocessed stream `fd`, with
its blank lines, comment lines and labels alone on a line. Whenever Pass 1
returns with an error count of 0 and Pass 2 in raw format runs to its end, the
number of bytes Pass 2 has written is, modulo `2 ^ 32`, the `byte_count` of
Pass 1 (an `unsigned int`); and Pass 2 can stop early only at the null
dereference of `Eval4`. -/
theorem byte_count_raw_length (front : Char) (fd : List (List Char)) :
    (isspace front = false → ∃ s1, Compiled.DoFirstPass front fd AsmState.init = .ok s1)
    ∧ ∀ s1, Compiled.DoFirstPass front fd AsmState.init = .ok s1 → s1.error_count = 0 →
      (∀ output s2, Compiled.DoSecondPass front OUT_RAW fd s1 = .ok (output, s2) →
        output.length % 2 ^ 32 = s1.byte_count)
      ∧ (∀ e, Compiled.DoSecondPass front OUT_RAW fd s1 = .error e → e = .nullDeref) := by
  refine ⟨fun hfront => ?_, fun s1 h1 _ => ?_⟩
  · rw [Compiled_DoFirstPass_eq]
    exact Compiled_FirstPassLines_returns front hfront fd _
  · rw [Compiled_DoFirstPass_eq] at h1
    have hc := Compiled_FirstPassLines_counts front fd _ _ h1
    have hb := Compiled_FirstPassLines_bound front fd _ _ h1 (by decide) (by decide)
    refine ⟨?_, ?_⟩
    · intro output s2 h2
      rw [Compiled_DoSecondPass_eq] at h2
      have h3 := (Compiled_SecondPassLines_raw front fd _ _ _ _ _ h2).1
      have h4 := hc.1
      simp only [AsmState.init, Nat.zero_add, List.length_nil] at h3 h4
      rw [h3]
      have : s1.byte_count % UINT_SIZE = s1.byte_count := Nat.mod_eq_of_lt hb.1
      rw [← this, h4]
      rfl
    · intro e h2
      rw [Compiled_DoSecondPass_eq] at h2
      exact Compiled_SecondPassLines_error front OUT_RAW fd _ _ _ _ _ _ h1 h2

/-- The source `scenarioBlank` assembles to `25 00 00 00`: the label `loop`
stands for address 0. -/
theorem scenarioBlank_raw :
    ReadLines scenarioBlank
        = ["; count".toList, "loop:".toList, "        inc".toList, [], "   ".toList,
            "        j loop ; again".toList]
    ∧ Compiled.DoFirstPass '\x00' (ReadLines scenarioBlank) AsmState.init
      = .ok ⟨0, [⟨"loop".toList, 0⟩], 4, 4, []⟩
    ∧ Compiled.DoSecondPass '\x00' OUT_RAW (ReadLines scenarioBlank)
        ⟨0, [⟨"loop".toList, 0⟩], 4, 4, []⟩
      = .ok ([0x25, 0x00, 0x00, 0x00], ⟨0, [⟨"loop".toList, 0⟩], 4, 4, []⟩) := by
  refine ⟨?_, ?_, ?_⟩ <;> decide!

/-- Claim C1, witness: a source with a comment line, a label alone on its
line, a blank line and a line of blanks; 4 bytes. -/
theorem byte_count_raw_length_witness :
    (isspace '\x00' = false
      ∧ Compiled.DoFirstPass '\x00' (ReadLines scenarioBlank) AsmState.init
        = .ok ⟨0, [⟨"loop".toList, 0⟩], 4, 4, []⟩
      ∧ (⟨0, [⟨"loop".toList, 0⟩], 4, 4, []⟩ : AsmState).error_count = 0
      ∧ Compiled.DoSecondPass '\x00' OUT_RAW (ReadLines scenarioBlank)
          ⟨0, [⟨"loop".toList, 0⟩], 4, 4, []⟩
        = .ok ([0x25, 0x00, 0x00, 0x00], ⟨0, [⟨"loop".toList, 0⟩], 4, 4, []⟩))
    ∧ [0x25, 0x00, 0x00, 0x00].length % 2 ^ 32
        = (⟨0, [⟨"loop".toList, 0⟩], 4, 4, []⟩ : AsmState).byte_count :=
  ⟨⟨by decide, scenarioBlank_raw.2.1, rfl, scenarioBlank_raw.2.2⟩,
    ((byte_count_raw_length '\x00' (ReadLines scenarioBlank)).2
      ⟨0, [⟨"loop".toList, 0⟩], 4, 4, []⟩ scenarioBlank_raw.2.1 rfl).1 _ _ scenarioBlank_raw.2.2⟩

theorem Compiled_FirstPassLines_append (front : Char) :
    ∀ (pre post : List (List Char)) (s : AsmState),
      Compiled.FirstPassLines front (pre ++ post) s =
        match Compiled.FirstPassLines front pre s with
        | .error e => .error e
        | .ok s1 => Compiled.FirstPassLines front post s1 := by
  intro pre
  induction pre with
  | nil => intro post s; rfl
  | cons line pre ih =>
    intro post s
    rw [List.cons_append]
    simp only [Compiled.FirstPassLines]
    cases Compiled.LineText front line with
    | error e => rfl
    | ok r =>
      cases r with
      | nil => exact ih post _
      | cons c l => exact ih post _

theorem Compiled_LineState_keeps (front : Char) (line : List Char) (s : AsmState)
    (name : List Char) (sp : SymbolNode) (h : FindSymbol s.symbols name = some sp) :
    FindSymbol (Compiled.LineState front line s).symbols name = some sp := by
  unfold Compiled.LineState
  cases Compiled.PreparedText front line with
  | error e => exact h
  | ok l => exact LabelState_keeps l s name sp h

theorem Compiled_FirstPassLines_keeps (front : Char) :
    ∀ (fd : List (List Char)) (s sf : AsmState) (name : List Char) (sp : SymbolNode),
      Compiled.FirstPassLines front fd s = .ok sf →
      FindSymbol s.symbols name = some sp → FindSymbol sf.symbols name = some sp := by
  intro fd
  induction fd with
  | nil =>
    intro s sf name sp h hf
    simp only [Compiled.FirstPassLines, Except.ok.injEq] at h
    subst h
    exact hf
  | cons line fd ih =>
    intro s sf name sp h hf
    simp only [Compiled.FirstPassLines] at h
    cases hl : Compiled.LineText front line with
    | error e => rw [hl] at h; simp at h
    | ok r =>
      rw [hl] at h
      cases r with
      | nil =>
        simp only at h
        exact ih _ _ name sp h (Compiled_LineState_keeps front line s name sp hf)
      | cons c l =>
        simp only at h
        apply ih _ _ name sp h
        simp only [FirstPassStatement, (ParseStatement_snd (c :: l) _).1]
        exact Compiled_LineState_keeps front line s name sp hf

/-- Claim C2, amended. Let a stream finish Pass 1 without errors, and let one
of its lines carry a label that is a symbol name (characters of `[a-z0-9_]`,
the first not a digit); the line may hold the label alone, and the stream may
hold blank lines and comment lines. Then with the symbol table Pass 1 leaves,
which Pass 2 does not change, `Evaluate` of the label returns, with no message,
the number of raw bytes of the statements in front of that line modulo
`2 ^ 32`, wherever the label is referenced. That number is what Pass 2 writes
in raw format for the lines in front. -/
theorem label_address (front : Char) (pre : List (List Char)) (line : List Char)
    (post : List (List Char)) (l label : List Char) (s1 : AsmState)
    (h1 : Compiled.DoFirstPass front (pre ++ line :: post) AsmState.init = .ok s1)
    (he : s1.error_count = 0)
    (hl : Compiled.PreparedText front line = .ok l) (hlabel : LabelOf l = some label)
    (hname : IsSymbolName label) :
    (∀ s : AsmState, s.symbols = s1.symbols →
      Evaluate label s = .ok (Compiled.ProgramLength front pre % 2 ^ 32, s))
    ∧ (∀ s output s2, Compiled.DoSecondPass front OUT_RAW pre s = .ok (output, s2) →
      output.length = Compiled.ProgramLength front pre)
    ∧ (∀ output s2,
      Compiled.DoSecondPass front OUT_RAW (pre ++ line :: post) s1 = .ok (output, s2) →
      s2.symbols = s1.symbols) := by
  have hfind : FindSymbol s1.symbols label
      = some { name := label, addr := Compiled.ProgramLength front pre % UINT_SIZE } := by
    rw [Compiled_DoFirstPass_eq, Compiled_FirstPassLines_append] at h1
    cases ha : Compiled.FirstPassLines front pre { AsmState.init with current_address := 0 } with
    | error e => rw [ha] at h1; simp at h1
    | ok sa =>
      rw [ha] at h1
      simp only [Compiled.FirstPassLines] at h1
      have hca := (Compiled_FirstPassLines_counts front pre _ _ ha).2.1
      have hcb := (Compiled_FirstPassLines_bound front pre _ _ ha (by decide) (by decide)).2
      simp only [AsmState.init, Nat.zero_add] at hca
      rw [Nat.mod_eq_of_lt hcb] at hca
      have hls := Compiled_LineState_frame front line sa
      have hLS : Compiled.LineState front line sa = LabelState l sa := by
        unfold Compiled.LineState; rw [hl]
      have hlow := (Compiled_FirstPassLines_counts front pre _ _ ha).2.2
      cases ht : Compiled.LineText front line with
      | error e => rw [ht] at h1; simp at h1
      | ok r =>
        rw [ht] at h1
        cases r with
        | nil =>
          simp only at h1
          have hmono := (Compiled_FirstPassLines_counts front post _ _ h1).2.2
          have hsame : (Compiled.LineState front line sa).error_count = sa.error_count := by
            omega
          rw [hLS] at hsame
          have hadd := LabelState_adds l label sa hlabel hsame
          rw [← hLS, hca] at hadd
          exact Compiled_FirstPassLines_keeps front post _ _ label _ h1 hadd
        | cons c r =>
          simp only at h1
          have hmono := (Compiled_FirstPassLines_counts front post _ _ h1).2.2
          have hp := ParseStatement_snd (c :: r) (Compiled.LineState front line sa)
          simp only [FirstPassStatement] at hmono
          have hsame : (Compiled.LineState front line sa).error_count = sa.error_count := by
            omega
          rw [hLS] at hsame
          have hadd := LabelState_adds l label sa hlabel hsame
          rw [← hLS, hca] at hadd
          apply Compiled_FirstPassLines_keeps front post _ _ label _ h1
          simp only [FirstPassStatement, hp.1]
          exact hadd
  refine ⟨?_, ?_, ?_⟩
  · intro s hs
    have := Evaluate_symbol label hname s _ (by rw [hs]; exact hfind)
    simpa [UINT_SIZE] using this
  · intro s output s2 h2
    rw [Compiled_DoSecondPass_eq] at h2
    have := (Compiled_SecondPassLines_raw front pre _ _ _ _ _ h2).1
    simpa using this
  · intro output s2 h2
    rw [Compiled_DoSecondPass_eq] at h2
    exact (Compiled_SecondPassLines_raw front _ _ _ _ _ _ h2).2

/-- The scenario `scenarioTarget` assembles to `00 00 04 38 38`. -/
theorem scenarioTarget_raw :
    ReadLines "        j target\n\n        hlt\n; the end\ntarget:\n        hlt\n".toList
      = scenarioTarget
    ∧ Compiled.DoFirstPass '\x00' scenarioTarget AsmState.init
      = .ok ⟨0, [⟨"target".toList, 4⟩], 5, 5, []⟩
    ∧ Compiled.DoSecondPass '\x00' OUT_RAW scenarioTarget ⟨0, [⟨"target".toList, 4⟩], 5, 5, []⟩
      = .ok ([0x00, 0x00, 0x04, 0x38, 0x38], ⟨0, [⟨"target".toList, 4⟩], 5, 5, []⟩) := by
  refine ⟨?_, ?_, ?_⟩ <;> decide!

/-- Claim C2, witness: in the second scenario of the specification, written
with a blank line, a comment line and the label alone on its line, `target`
evaluates to 4. -/
theorem label_address_witness :
    (Compiled.DoFirstPass '\x00'
        (["        j target".toList, [], "        hlt".toList, "; the end".toList]
          ++ "target:".toList :: ["        hlt".toList])
        AsmState.init = .ok ⟨0, [⟨"target".toList, 4⟩], 5, 5, []⟩
      ∧ Compiled.PreparedText '\x00' "target:".toList = .ok "target:".toList
      ∧ LabelOf "target:".toList = some "target".toList
      ∧ IsSymbolName "target".toList)
    ∧ Evaluate "target".toList ⟨0, [⟨"target".toList, 4⟩], 5, 5, []⟩
        = .ok (Compiled.ProgramLength '\x00'
              ["        j target".toList, [], "        hlt".toList, "; the end".toList]
            % 2 ^ 32,
            ⟨0, [⟨"target".toList, 4⟩], 5, 5, []⟩)
    ∧ Compiled.ProgramLength '\x00'
        ["        j target".toList, [], "        hlt".toList, "; the end".toList] % 2 ^ 32 = 4 :=
  ⟨⟨scenarioTarget_raw.2.1, by decide, by decide, by decide⟩,
    (label_address '\x00'
      ["        j target".toList, [], "        hlt".toList, "; the end".toList]
      "target:".toList ["        hlt".toList]
      "target:".toList "target".toList ⟨0, [⟨"target".toList, 4⟩], 5, 5, []⟩
      scenarioTarget_raw.2.1 rfl (by decide) (by decide) (by decide)).1 _ rfl,
    by decide⟩

theorem Compiled_LineText_hlt (front : Char) :
    Compiled.LineText front "hlt".toList = .ok "hlt".toList :=
  Compiled_LineText_of_ok front _ _ LineText_hlt

theorem Compiled_LineState_hlt (front : Char) (s : AsmState) :
    Compiled.LineState front "hlt".toList s = s := by
  have h : PreparedText "hlt".toList = .ok "hlt".toList := by decide
  have h2 : LabelOf "hlt".toList = none := by decide
  rw [Compiled_LineState_of_ok front _ _ s h]
  unfold LabelState
  simp only [h2]

/-- Pass 1 over `n` lines `hlt`. -/
theorem Compiled_FirstPassLines_replicate (front : Char) : ∀ (n : Nat) (s : AsmState),
    s.current_address < UINT_SIZE → s.byte_count < UINT_SIZE →
    Compiled.FirstPassLines front (List.replicate n "hlt".toList) s
      = .ok { s with
          current_address := (s.current_address + n) % UINT_SIZE
          byte_count := (s.byte_count + n) % UINT_SIZE } := by
  intro n
  induction n with
  | zero =>
    intro s hc hb
    rw [List.replicate_zero]
    simp [Compiled.FirstPassLines, Nat.mod_eq_of_lt hc, Nat.mod_eq_of_lt hb]
  | succ n ih =>
    intro s hc hb
    have ht : Compiled.LineText front ['h', 'l', 't'] = .ok ['h', 'l', 't'] :=
      Compiled_LineText_hlt front
    have hs : ∀ s, Compiled.LineState front ['h', 'l', 't'] s = s := Compiled_LineState_hlt front
    have hp : ∀ s, ParseStatement ['h', 'l', 't'] s = ({ arg := none, op := 0x38 }, s) :=
      ParseStatement_hlt
    have ho : StatementOf ['h', 'l', 't'] = { arg := none, op := 0x38 } := StatementOf_hlt
    rw [List.replicate_succ]
    simp only [Compiled.FirstPassLines, String.toList, ht, hs, hp, ho]
    have hpos : 0 < UINT_SIZE := by decide
    have := ih (FirstPassStatement { arg := none, op := 0x38 } s) (Nat.mod_lt _ hpos)
      (Nat.mod_lt _ hpos)
    simp only [String.toList] at this
    rw [this]
    simp only [FirstPassStatement, StatementSize, Nat.mod_add_mod, Except.ok.injEq,
      AsmState.mk.injEq, true_and]
    constructor <;> simp only [Nat.add_assoc, Nat.add_comm 1 n, and_true]

/-- Pass 2 over `n` lines `hlt` in raw format. -/
theorem Compiled_SecondPassLines_replicate (front : Char) :
    ∀ (n : Nat) (s : AsmState) (output : List Nat),
    s.current_address < UINT_SIZE →
    Compiled.SecondPassLines front OUT_RAW (List.replicate n "hlt".toList) [] s output
      = .ok (output ++ List.replicate n 0x38,
          { s with current_address := (s.current_address + n) % UINT_SIZE }) := by
  intro n
  induction n with
  | zero =>
    intro s output hc
    rw [List.replicate_zero]
    simp [Compiled.SecondPassLines, Nat.mod_eq_of_lt hc]
  | succ n ih =>
    intro s output hc
    have ht : Compiled.LineText front ['h', 'l', 't'] = .ok ['h', 'l', 't'] :=
      Compiled_LineText_hlt front
    have hp : ∀ s, ParseStatement ['h', 'l', 't'] s = ({ arg := none, op := 0x38 }, s) :=
      ParseStatement_hlt
    have ho : StatementOf ['h', 'l', 't'] = { arg := none, op := 0x38 } := StatementOf_hlt
    have hst : ∀ line, SecondPassStatement OUT_RAW { arg := none, op := 0x38 } line s
        = .ok ([0x38], { s with current_address := (s.current_address + 1) % UINT_SIZE }) := by
      intro line
      simp [SecondPassStatement, OutputStatement, StatementSize, BYTE_OP, WORD_OP]
    rw [List.replicate_succ]
    simp only [Compiled.SecondPassLines, String.toList, ht, hp, ho, hst]
    have hpos : 0 < UINT_SIZE := by decide
    have := ih { s with current_address := (s.current_address + 1) % UINT_SIZE }
      (output ++ [0x38]) (Nat.mod_lt _ hpos)
    simp only [String.toList] at this
    rw [this]
    simp only [Nat.mod_add_mod, Except.ok.injEq, Prod.mk.injEq, AsmState.mk.injEq, true_and,
      and_true]
    refine ⟨?_, ?_⟩
    · rw [List.append_assoc]
      congr 1
    · rw [Nat.add_assoc, Nat.add_comm 1 n]

/-- The counters of Pass 1 are `unsigned int`: after `2 ^ 32` statements of one
byte `byte_count` is 0 again, while Pass 2 writes `2 ^ 32` bytes. -/
theorem Compiled_byte_count_wraps (front : Char) :
    Compiled.DoFirstPass front (List.replicate 4294967296 "hlt".toList) AsmState.init
      = .ok AsmState.init
    ∧ Compiled.DoSecondPass front OUT_RAW (List.replicate 4294967296 "hlt".toList) AsmState.init
      = .ok (List.replicate 4294967296 0x38, AsmState.init) := by
  have h0 : (0 + 4294967296) % UINT_SIZE = 0 := by decide
  refine ⟨?_, ?_⟩
  · rw [Compiled_DoFirstPass_eq,
      Compiled_FirstPassLines_replicate front 4294967296 _ (by decide) (by decide)]
    simp only [AsmState.init, h0]
  · rw [Compiled_DoSecondPass_eq,
      Compiled_SecondPassLines_replicate front 4294967296 _ _ (by decide)]
    simp only [AsmState.init, h0, List.nil_append]

/-- Claim C1, counterexample. The source `db 1 +` finishes Pass 1 with no
error and a byte count of 1; in Pass 2 `Evaluate` reaches `Eval4` with the
token cursor at `NULL`, so Pass 2 does not write the byte. And `2 ^ 32` lines
`hlt` finish Pass 1 with no error and a byte count of 0, while Pass 2 writes
`2 ^ 32` bytes. -/
theorem byte_count_raw_length_counterexample :
    (Compiled.DoFirstPass '\x00' (ReadLines "        db 1 +\n".toList) AsmState.init
        = .ok ⟨0, [], 1, 1, []⟩
      ∧ Compiled.DoSecondPass '\x00' OUT_RAW (ReadLines "        db 1 +\n".toList)
          ⟨0, [], 1, 1, []⟩
        = .error .nullDeref
      ∧ ¬ ∃ output s2,
          Compiled.DoSecondPass '\x00' OUT_RAW (ReadLines "        db 1 +\n".toList)
              ⟨0, [], 1, 1, []⟩
            = .ok (output, s2) ∧ output.length = 1)
    ∧ (Compiled.DoFirstPass '\x00' (List.replicate 4294967296 "hlt".toList) AsmState.init
        = .ok AsmState.init
      ∧ AsmState.init.error_count = 0 ∧ AsmState.init.byte_count = 0
      ∧ Compiled.DoSecondPass '\x00' OUT_RAW (List.replicate 4294967296 "hlt".toList)
          AsmState.init
        = .ok (List.replicate 4294967296 0x38, AsmState.init)
      ∧ (List.replicate 4294967296 0x38).length = 4294967296) := by
  have h2 : Compiled.DoSecondPass '\x00' OUT_RAW (ReadLines "        db 1 +\n".toList)
      ⟨0, [], 1, 1, []⟩ = .error .nullDeref := by decide!
  refine ⟨⟨by decide!, h2, ?_⟩, (Compiled_byte_count_wraps '\x00').1, rfl, rfl,
    (Compiled_byte_count_wraps '\x00').2, List.length_replicate _ _⟩
  rintro ⟨output, s2, h, _⟩
  rw [h2] at h
  simp at h

/-- Claim C2, counterexample. Behind `2 ^ 32` statements of one byte the label
`x` is bound to address 0, and `Evaluate` returns 0, not the `2 ^ 32` bytes
that Pass 2 writes for the statements in front of it. -/
theorem label_address_wraps :
    Compiled.DoFirstPass '\x00' (List.replicate 4294967296 "hlt".toList ++ ["x: hlt".toList])
        AsmState.init
      = .ok ⟨0, [⟨"x".toList, 0⟩], 1, 1, []⟩
    ∧ Compiled.PreparedText '\x00' "x: hlt".toList = .ok "x: hlt".toList
    ∧ LabelOf "x: hlt".toList = some "x".toList
    ∧ IsSymbolName "x".toList
    ∧ Evaluate "x".toList ⟨0, [⟨"x".toList, 0⟩], 1, 1, []⟩
      = .ok (0, ⟨0, [⟨"x".toList, 0⟩], 1, 1, []⟩)
    ∧ Compiled.DoSecondPass '\x00' OUT_RAW (List.replicate 4294967296 "hlt".toList)
        ⟨0, [⟨"x".toList, 0⟩], 1, 1, []⟩
      = .ok (List.replicate 4294967296 0x38, ⟨0, [⟨"x".toList, 0⟩], 0, 1, []⟩)
    ∧ (List.replicate 4294967296 0x38).length = 4294967296
    ∧ (0 : Nat) ≠ (List.replicate 4294967296 0x38).length := by
  have h0 : (0 + 4294967296) % UINT_SIZE = 0 := by decide
  refine ⟨?_, by decide, by decide, by decide, by decide, ?_, List.length_replicate _ _,
    by rw [List.length_replicate]; decide⟩
  · rw [Compiled_DoFirstPass_eq, Compiled_FirstPassLines_append,
      Compiled_FirstPassLines_replicate '\x00' 4294967296 _ (by decide) (by decide)]
    simp only [AsmState.init, h0]
    decide!
  · rw [Compiled_DoSecondPass_eq,
      Compiled_SecondPassLines_replicate '\x00' 4294967296 _ _ (by decide)]
    simp only [h0, List.nil_append]

/-- The strings of the buffers of `ReadLine` are the lines. -/
theorem Compiled_ReadLinesFrom_map (fd : List Char) : ∀ temp : List Char,
    (Compiled.ReadLinesFrom fd temp).map CString = ReadLinesFrom fd temp := by
  induction fd with
  | nil => intro temp; rfl
  | cons ch fd ih =>
    intro temp
    simp only [Compiled.ReadLinesFrom, ReadLinesFrom]
    split_ifs
    · rw [List.map_cons, ih]
    · exact ih _

theorem Compiled_ReadLines_map (fd : List Char) :
    (Compiled.ReadLines fd).map CString = ReadLines fd :=
  Compiled_ReadLinesFrom_map fd []

/-- Without a line that begins with `#`, the loop of `DoPreprocessFile` copies
every line and changes nothing else. -/
theorem Compiled_DoPreprocessLines_plain
    (recurse : List Char → PreprocessState → Except Fault PreprocessState) :
    ∀ (ls : List (List Char)) (st : PreprocessState),
      (∀ l ∈ ls.map CString, l.head? ≠ some '#') →
      Compiled.DoPreprocessLines recurse ls none st
        = .ok { st with out_fd := st.out_fd ++ FileText (ls.map CString) } := by
  intro ls
  induction ls with
  | nil => intro st _; simp [Compiled.DoPreprocessLines, FileText]
  | cons l ls ih =>
    intro st h
    have hl := h (CString l) (by simp)
    unfold Compiled.DoPreprocessLines
    rw [if_neg hl]
    simp only
    rw [ih _ (fun m hm => h m (by simp only [List.map_cons, List.mem_cons]; exact Or.inr hm))]
    simp [FileText]

/-- The first part of `main` on a source without a line that begins with
`#`. -/
theorem Compiled_mainFirstPass_plain (front : Char) (env : Environment)
    (input_name text : List Char) (hfile : env.files input_name = some text)
    (hplain : ∀ l ∈ ReadLines text, l.head? ≠ some '#') :
    Compiled.mainFirstPass front env input_name =
      if env.tmpfile then
        match Compiled.DoFirstPass front (ReadLines text) AsmState.init with
        | .error e => .error e
        | .ok s => .ok (some (FileText (ReadLines text)), [], s)
      else
        .ok (none, [],
          ({ globals := AsmState.init, macros := [], out_fd := [] } : PreprocessState).error
            "ERROR: could not open temporary file\n" |>.globals) := by
  unfold Compiled.mainFirstPass Compiled.DoPreprocess
  by_cases ht : env.tmpfile = true
  · have h3 : Compiled.DoPreprocessFile env.files MAX_INCLUDES input_name
        { globals := AsmState.init, macros := [], out_fd := [] }
        = .ok { globals := AsmState.init, macros := [], out_fd := FileText (ReadLines text) } := by
      show Compiled.DoPreprocessFile env.files (7 + 1) input_name _ = _
      rw [Compiled.DoPreprocessFile, hfile]
      simp only
      rw [Compiled_DoPreprocessLines_plain _ _ _ (by rw [Compiled_ReadLines_map]; exact hplain)]
      simp [Compiled_ReadLines_map]
    simp only [if_pos ht, h3, Compiled_ReadLines_map, ReadLines_ReadLines]
    try rfl
  · simp only [if_neg ht]
    rfl

theorem Compiled_TrimWhitespace_ToUpper (front : Char) (line : List Char) :
    Compiled.TrimWhitespace front (ToUpper line) =
      match Compiled.TrimWhitespace front line with
      | .error e => .error e
      | .ok l => .ok (ToUpper l) := by
  unfold Compiled.TrimWhitespace
  rw [dropWhile_isspace_ToUpper]
  cases h : line.dropWhile isspace with
  | nil =>
    simp only [ToUpper, List.map_nil]
    split_ifs <;> rfl
  | cons c rest =>
    have := rdropWhile_isspace_ToUpper (c :: rest)
    simp only [ToUpper, List.map_cons] at this ⊢
    rw [this]

theorem Compiled_PreparedText_ToUpper (front : Char) (line : List Char) :
    Compiled.PreparedText front (ToUpper line) = Compiled.PreparedText front line := by
  unfold Compiled.PreparedText
  rw [StripWhitespace_ToUpper, StripComments_ToUpper, Compiled_TrimWhitespace_ToUpper]
  cases Compiled.TrimWhitespace front (StripComments (StripWhitespace line)) with
  | error e => rfl
  | ok l =>
    simp only
    rw [ToLower_ToUpper]

theorem Compiled_LineText_ToUpper (front : Char) (line : List Char) :
    Compiled.LineText front (ToUpper line) = Compiled.LineText front line := by
  unfold Compiled.LineText
  rw [Compiled_PreparedText_ToUpper]

theorem Compiled_LineState_ToUpper (front : Char) (line : List Char) (s : AsmState) :
    Compiled.LineState front (ToUpper line) s = Compiled.LineState front line s := by
  unfold Compiled.LineState
  rw [Compiled_PreparedText_ToUpper]

theorem Compiled_FirstPassLines_ToUpper (front : Char) :
    ∀ (fd : List (List Char)) (s : AsmState),
      Compiled.FirstPassLines front (fd.map ToUpper) s = Compiled.FirstPassLines front fd s := by
  intro fd
  induction fd with
  | nil => intro s; rfl
  | cons line fd ih =>
    intro s
    simp only [List.map_cons, Compiled.FirstPassLines, Compiled_LineText_ToUpper,
      Compiled_LineState_ToUpper]
    cases Compiled.LineText front line with
    | error e => rfl
    | ok r =>
      cases r with
      | nil => exact ih _
      | cons c l => exact ih _

/-- In the raw and hex formats Pass 2 is the same on the lines in upper case,
whatever lines have been passed over. -/
theorem Compiled_SecondPassLines_ToUpper (front : Char) (output_format : OutputFormat)
    (h : output_format ≠ OUT_LISTING) :
    ∀ (fd raw raw1 : List (List Char)) (s : AsmState) (output : List Nat),
      Compiled.SecondPassLines front output_format (fd.map ToUpper) raw1 s output
        = Compiled.SecondPassLines front output_format fd raw s output := by
  intro fd
  induction fd with
  | nil => intro raw raw1 s output; rfl
  | cons line fd ih =>
    intro raw raw1 s output
    simp only [List.map_cons, Compiled.SecondPassLines, Compiled_LineText_ToUpper]
    cases Compiled.LineText front line with
    | error e => rfl
    | ok r =>
      cases r with
      | nil => exact ih _ _ _ _
      | cons c l =>
        simp only
        rw [SecondPassStatement_line output_format h _ (raw1 ++ [ToUpper line]) (raw ++ [line])]
        cases SecondPassStatement output_format (StatementOf (c :: l)) (raw ++ [line])
            (ParseStatement (c :: l) s).2 with
        | error e => rfl
        | ok p =>
          obtain ⟨w, s2⟩ := p
          exact ih _ _ _ _

/-- Claim C14, amended. For a source text without a line that begins with
`#`, in the raw and the hex format, `main` on the text and `main` on the text
with every ASCII letter in upper case give the same result: the same output
file, the same error count and return value, the same messages. In a run in
which the byte in front of the line buffer is not white space that result is
a return of `main`, or the null dereference of `Eval4` in both. -/
theorem main_upper_case (front : Char) (env env1 : Environment) (output_format : OutputFormat)
    (input_name output_name text : List Char)
    (hformat : output_format ≠ OUT_LISTING)
    (hfile : env.files input_name = some text)
    (hfile1 : env1.files input_name = some (ToUpper text))
    (htmp : env1.tmpfile = env.tmpfile) (hw : env1.writable = env.writable)
    (hplain : ∀ l ∈ ReadLines text, l.head? ≠ some '#') :
    Compiled.main front env1 output_format input_name output_name
        = Compiled.main front env output_format input_name output_name
      ∧ (isspace front = false →
        ∀ e, Compiled.main front env output_format input_name output_name = .error e →
          e = .nullDeref) := by
  have hplain1 : ∀ l ∈ ReadLines (ToUpper text), l.head? ≠ some '#' := by
    intro l hl
    rw [ReadLines_ToUpper, List.mem_map] at hl
    obtain ⟨m, hm, rfl⟩ := hl
    have := hplain m hm
    cases m with
    | nil => simp [ToUpper]
    | cons c m =>
      simp only [List.head?_cons, ne_eq, Option.some.injEq, ToUpper, List.map_cons] at this ⊢
      exact fun h => this ((ToUpperChar_eq_iff c '#' (by decide) (by decide)).mp h)
  have h1 : ReadLines (FileText ((ReadLines text).map ToUpper))
      = (ReadLines text).map ToUpper := by
    rw [← ReadLines_ToUpper]
    exact ReadLines_ReadLines _
  refine ⟨?_, fun hfront e he => ?_⟩
  · unfold Compiled.main Compiled.mainSecondPass
    rw [Compiled_mainFirstPass_plain front env input_name text hfile hplain,
      Compiled_mainFirstPass_plain front env1 input_name (ToUpper text) hfile1 hplain1, htmp, hw,
      ReadLines_ToUpper, Compiled_DoFirstPass_eq, Compiled_DoFirstPass_eq,
      Compiled_FirstPassLines_ToUpper]
    by_cases ht : env.tmpfile = true
    · simp only [if_pos ht]
      cases Compiled.FirstPassLines front (ReadLines text)
          { AsmState.init with current_address := 0 } with
      | error e => rfl
      | ok s =>
        simp only [Compiled_ReadLines_map, h1, ReadLines_ReadLines, Compiled_DoSecondPass_eq,
          Compiled_SecondPassLines_ToUpper front output_format hformat _ [] []]
    · simp only [if_neg ht]
  · unfold Compiled.main Compiled.mainSecondPass at he
    rw [Compiled_mainFirstPass_plain front env input_name text hfile hplain,
      Compiled_DoFirstPass_eq] at he
    by_cases ht : env.tmpfile = true
    · simp only [if_pos ht] at he
      cases hf : Compiled.FirstPassLines front (ReadLines text)
          { AsmState.init with current_address := 0 } with
      | error e1 =>
        have := (Compiled_FirstPassLines_error front _ _ _ hf).2
        rw [hfront] at this
        simp at this
      | ok s =>
        rw [hf] at he
        simp only [Compiled_ReadLines_map, ReadLines_ReadLines, Compiled_DoSecondPass_eq] at he
        split_ifs at he
        · cases hs : Compiled.SecondPassLines front output_format (ReadLines text) []
              { s with current_address := 0 } [] with
          | error e2 =>
            rw [hs] at he
            simp only [Except.error.injEq] at he
            subst he
            exact Compiled_SecondPassLines_error front output_format _ _ _ _ _ _ _ hf hs
          | ok p => rw [hs] at he; simp at he
    · simp only [if_neg ht] at he
      split_ifs at he
      simp only [Except.error.injEq] at he
      exact he.symm

/-- Claim C14, witness: a source in mixed case with a comment line, a label
alone on its line and a blank line, in hex format. Both runs return 0 with
the output `10`, `00`, `FF`, `00`, `00`, `00`. -/
theorem main_upper_case_witness :
    (∀ l ∈ ReadLines scenarioMixed, l.head? ≠ some '#')
      ∧ Compiled.main '\x00' ⟨oneFile "a.asm".toList (ToUpper scenarioMixed), true, fun _ => true⟩
          OUT_HEX "a.asm".toList "out.hex".toList
        = Compiled.main '\x00' ⟨oneFile "a.asm".toList scenarioMixed, true, fun _ => true⟩
          OUT_HEX "a.asm".toList "out.hex".toList
      ∧ (Compiled.main '\x00' ⟨oneFile "a.asm".toList scenarioMixed, true, fun _ => true⟩
          OUT_HEX "a.asm".toList "out.hex".toList).map (fun r => (r.status, r.output))
        = .ok (0, some (Bytes "10\n00\nFF\n00\n00\n00\n".toList)) :=
  ⟨by decide,
    (main_upper_case '\x00' ⟨oneFile "a.asm".toList scenarioMixed, true, fun _ => true⟩
      ⟨oneFile "a.asm".toList (ToUpper scenarioMixed), true, fun _ => true⟩ OUT_HEX
      "a.asm".toList "out.hex".toList scenarioMixed (by decide) (by simp [oneFile])
      (by simp [oneFile]) rfl rfl (by decide)).1,
    by decide!⟩

/-- Claim C14, counterexample. Two sources on which the upper case makes a
difference. The listing format repeats the source line, so the listings of
`hlt` and `HLT` differ in that text. And the directives of the preprocessor
are compared as they are written: `#define xy`, `#end`, `hlt` assembles to
the byte 38 without error, the same text in upper case gives two errors and
no output. -/
theorem main_upper_case_counterexample :
    (Compiled.main '\x00' ⟨oneFile "a.asm".toList "        hlt\n".toList, true, fun _ => true⟩
        OUT_LISTING "a.asm".toList "out.lst".toList).map (fun r => (r.status, r.output))
      = .ok (0, some (Bytes "0000 38                     hlt\n".toList))
    ∧ (Compiled.main '\x00'
        ⟨oneFile "a.asm".toList (ToUpper "        hlt\n".toList), true, fun _ => true⟩
        OUT_LISTING "a.asm".toList "out.lst".toList).map (fun r => (r.status, r.output))
      = .ok (0, some (Bytes "0000 38                     HLT\n".toList))
    ∧ (Compiled.main '\x00'
        ⟨oneFile "a.asm".toList "#define xy\n#end\n        hlt\n".toList, true,
          fun _ => true⟩ OUT_RAW "a.asm".toList "out.raw".toList).map
        (fun r => (r.status, r.output, r.globals.error_count))
      = .ok (0, some [0x38], 0)
    ∧ (Compiled.main '\x00'
        ⟨oneFile "a.asm".toList (ToUpper "#define xy\n#end\n        hlt\n".toList), true,
          fun _ => true⟩ OUT_RAW "a.asm".toList "out.raw".toList).map
        (fun r => (r.status, r.output, r.globals.error_count))
      = .ok (2, none, 2) := by
  refine ⟨by decide!, by decide!, by decide!, by decide!⟩

theorem Compiled_LineState_of_LineText (front : Char) (line r : List Char) (s : AsmState)
    (h : LineText line = .ok r) : Compiled.LineState front line s = LineState line s := by
  unfold LineText at h
  cases hp : PreparedText line with
  | error e => rw [hp] at h; simp at h
  | ok l =>
    rw [Compiled_LineState_of_ok front line l s hp]
    unfold LineState
    rw [hp]

/-- Where Pass 1 of the C text does not stop at the read in front of the
buffer, Pass 1 of the compiled program gives the same. -/
theorem Compiled_FirstPassLines_of_strict (front : Char) :
    ∀ (fd : List (List Char)) (s : AsmState),
      DoFirstPassLoop (fd.length + 1) fd s ≠ .error .outOfBounds →
      Compiled.FirstPassLines front fd s = DoFirstPassLoop (fd.length + 1) fd s := by
  intro fd
  induction fd with
  | nil => intro s _; rfl
  | cons line fd ih =>
    intro s h
    rw [DoFirstPassLoop_cons] at h ⊢
    cases hl : LineText line with
    | error e =>
      rw [hl] at h
      exact absurd (by rw [LineText_error line e hl]) h
    | ok r =>
      rw [hl] at h
      simp only at h ⊢
      have hne := LineText_ne_nil line r hl
      cases r with
      | nil => exact absurd rfl hne
      | cons c l =>
        simp only [Compiled.FirstPassLines, Compiled_LineText_of_ok front line _ hl,
          Compiled_LineState_of_LineText front line _ s hl]
        exact ih _ h

theorem Compiled_DoFirstPass_of_strict (front : Char) (fd : List (List Char)) (s : AsmState)
    (h : DoFirstPass fd s ≠ .error .outOfBounds) :
    Compiled.DoFirstPass front fd s = DoFirstPass fd s := by
  rw [Compiled_DoFirstPass_eq]
  exact Compiled_FirstPassLines_of_strict front fd _ h

/-- Where Pass 2 of the C text does not stop at the read in front of the
buffer, Pass 2 of the compiled program gives the same. -/
theorem Compiled_SecondPassLines_of_strict (front : Char) (output_format : OutputFormat) :
    ∀ (fd : List (List Char)) (s : AsmState) (output : List Nat),
      DoSecondPassLoop output_format (fd.length + 1) fd s output ≠ .error .outOfBounds →
      Compiled.SecondPassLines front output_format fd [] s output
        = DoSecondPassLoop output_format (fd.length + 1) fd s output := by
  intro fd
  induction fd with
  | nil => intro s output _; rfl
  | cons line fd ih =>
    intro s output h
    rw [DoSecondPassLoop_cons] at h ⊢
    cases hl : LineText line with
    | error e =>
      rw [hl] at h
      exact absurd (by rw [LineText_error line e hl]) h
    | ok r =>
      rw [hl] at h
      simp only at h ⊢
      have hne := LineText_ne_nil line r hl
      cases r with
      | nil => exact absurd rfl hne
      | cons c l =>
        simp only [Compiled.SecondPassLines, Compiled_LineText_of_ok front line _ hl,
          List.nil_append]
        cases hs : SecondPassStatement output_format (StatementOf (c :: l)) [line]
            (ParseStatement (c :: l) s).2 with
        | error e => rfl
        | ok p =>
          obtain ⟨w, s2⟩ := p
          rw [hs] at h
          simp only at h ⊢
          exact ih _ _ h

theorem Compiled_DoSecondPass_of_strict (front : Char) (output_format : OutputFormat)
    (fd : List (List Char)) (s : AsmState)
    (h : DoSecondPass output_format fd s ≠ .error .outOfBounds) :
    Compiled.DoSecondPass front output_format fd s = DoSecondPass output_format fd s := by
  rw [Compiled_DoSecondPass_eq]
  exact Compiled_SecondPassLines_of_strict front output_format fd _ _ h

/-- A line `#define `, a NUL and `abc`: the string of the line ends at the
NUL, and the name that `ProcessDefineStart` reads at `&line[9]` is what
`ReadLine` stored behind it, `abc`. -/
theorem Compiled_DoPreprocessFile_nul :
    Compiled.DoPreprocessFile (oneFile "a.asm".toList "#define \x00abc\nclr\n#end\n".toList)
        MAX_INCLUDES "a.asm".toList ⟨AsmState.init, [], []⟩
      = .ok ⟨AsmState.init, [⟨"abc".toList, some "clr\n".toList⟩], []⟩ := by
  decide!

theorem next_j_inst_fetch (s : Sim.State) (o : Nat) (f : Nat) :
    (Clocked 21 (Sim.j_inst f (Fetched o s))).operand = OperandWord s
      ∧ ((Clocked 21 (Sim.j_inst f (Fetched o s))).preg = (s.preg + 3) % 65536
        ∨ (Clocked 21 (Sim.j_inst f (Fetched o s))).preg = OperandWord s) := by
  have hp2 : ((s.preg + 1) % 65536 + 1) % 65536 = (s.preg + 2) % 65536 := by omega
  have hp3 : ((s.preg + 2) % 65536 + 1) % 65536 = (s.preg + 3) % 65536 := by omega
  unfold Sim.j_inst
  simp only [Clocked, Fetched, Sim.State.fetchOperand, OperandWord, hp2, hp3]
  split_ifs
  · exact ⟨rfl, Or.inr rfl⟩
  · exact ⟨rfl, Or.inr rfl⟩
  · exact ⟨rfl, Or.inl rfl⟩

theorem ls_class_fetch (f : Nat) (inst : Sim.State → Sim.State)
    (hi : Sim.ls_class[f]? = some inst) (s : Sim.State) :
    (inst s).preg = s.preg ∧ (inst s).operand = s.operand := by
  have hf : f < 9 := by
    by_contra hn
    have : Sim.ls_class[f]? = none := by
      apply List.getElem?_eq_none
      simp only [Sim.ls_class, List.length_cons, List.length_nil]
      omega
    rw [this] at hi
    simp at hi
  interval_cases f <;> simp [Sim.ls_class] at hi <;> subst hi <;> exact ⟨rfl, rfl⟩

theorem math_class_fetch (f : Nat) (inst : Sim.State → Sim.State)
    (hi : Sim.math_class[f]? = some inst) (s : Sim.State) :
    (inst s).preg = s.preg ∧ (inst s).operand = s.operand := by
  have hf : f < 9 := by
    by_contra hn
    have : Sim.math_class[f]? = none := by
      apply List.getElem?_eq_none
      simp only [Sim.math_class, List.length_cons, List.length_nil]
      omega
    rw [this] at hi
    simp at hi
  interval_cases f <;> simp [Sim.math_class] at hi <;> subst hi <;> exact ⟨rfl, rfl⟩

theorem misc_class_fetch (f : Nat) (inst : Sim.State → Sim.State)
    (hi : Sim.misc_class[f]? = some inst) (s : Sim.State) :
    (f ≠ 7 → (inst s).preg = s.preg) ∧ (inst s).operand = s.operand := by
  have hf : f < 9 := by
    by_contra hn
    have : Sim.misc_class[f]? = none := by
      apply List.getElem?_eq_none
      simp only [Sim.misc_class, List.length_cons, List.length_nil]
      omega
    rw [this] at hi
    simp at hi
  interval_cases f <;> simp [Sim.misc_class] at hi <;> subst hi <;>
    first
    | exact ⟨fun _ => rfl, rfl⟩
    | exact ⟨fun h => absurd rfl h, rfl⟩

/-- Claim C22. Let `next` fetch the byte `o`. It executes `o` without a
message exactly when `o` is the opcode of a mnemonic of the instruction table
that is not a pseudo-instruction. For such a mnemonic `d`: in class 0 `next`
runs `j_inst` with the function bits that the mnemonic spells; in class 1 it
runs, behind the fetch of the operand, the handler with the name of the
mnemonic; in the classes 2 and 3 it runs the handler with that name at once.
The assembler writes 3 bytes for a mnemonic of the classes 0 and 1, which
takes an argument, and `next` consumes 3 bytes: it leaves in `operand` the
word of the two bytes behind the opcode, and `preg` 3 bytes further, or at
that word when `j_inst` takes the jump. The assembler writes 1 byte for a
mnemonic of the classes 2 and 3, which takes none, and `next` consumes 1
byte: it leaves `operand` as it was and `preg` 1 byte further, but for `ret`
(opcode 37), which loads `preg` from `regxh` and `regxl`. -/
theorem next_decodes (s : Sim.State) (o : Nat) (ho : o < 256) (hop : s.memory s.preg = o) :
    ((∃ d ∈ INSTRUCTION_MAP, d.opcode = o ∧ d.opcode ≠ BYTE_OP ∧ d.opcode ≠ WORD_OP)
        ↔ (Sim.next s).stderr = s.stderr)
      ∧ ∀ d ∈ INSTRUCTION_MAP, d.opcode = o → d.opcode ≠ BYTE_OP → d.opcode ≠ WORD_OP →
        ∀ (a : List Char) (temp : Nat),
          (o / 16 = 0 ∧ d.arg_count = 1
            ∧ Sim.next s = Clocked 21 (Sim.j_inst (JumpFunc d.name) (Fetched o s))
            ∧ (Fetched o s).fetchOperand.preg = (s.preg + 3) % 65536
            ∧ (OutputStatement OUT_RAW ⟨some a, o⟩ temp [] 0).length = 3
            ∧ (Sim.next s).operand = OperandWord s
            ∧ ((Sim.next s).preg = (s.preg + 3) % 65536 ∨ (Sim.next s).preg = OperandWord s))
          ∨ (o / 16 = 1 ∧ d.arg_count = 1
            ∧ (∃ inst, HandlerNamed.lookup d.name = some inst
              ∧ Sim.next s = Clocked 21 (inst (Fetched o s).fetchOperand))
            ∧ (Fetched o s).fetchOperand.preg = (s.preg + 3) % 65536
            ∧ (OutputStatement OUT_RAW ⟨some a, o⟩ temp [] 0).length = 3
            ∧ (Sim.next s).operand = OperandWord s
            ∧ (Sim.next s).preg = (s.preg + 3) % 65536)
          ∨ ((o / 16 = 2 ∨ o / 16 = 3) ∧ d.arg_count = 0
            ∧ (∃ inst, HandlerNamed.lookup d.name = some inst
              ∧ Sim.next s = Clocked 9 (inst (Fetched o s)))
            ∧ (Fetched o s).preg = (s.preg + 1) % 65536
            ∧ (OutputStatement OUT_RAW ⟨none, o⟩ temp [] 0).length = 1
            ∧ (Sim.next s).operand = s.operand
            ∧ (o ≠ 0x37 → (Sim.next s).preg = (s.preg + 1) % 65536)) := by
  have hc := next_class s o ho hop
  refine ⟨?_, ?_⟩
  · rw [next_stderr s o ho hop]
    exact INSTRUCTION_MAP_opcodes o ho
  · intro d hd hdo hb hw a temp
    rw [hdo] at hb hw
    have hp2 : ((s.preg + 1) % 65536 + 1) % 65536 = (s.preg + 2) % 65536 := by omega
    have hp3 : (Fetched o s).fetchOperand.preg = (s.preg + 3) % 65536 := by
      simp only [Fetched, Sim.State.fetchOperand]
      omega
    have hw3 : (Fetched o s).fetchOperand.operand = OperandWord s := by
      simp only [Fetched, Sim.State.fetchOperand, OperandWord, hp2]
    have hl3 : (OutputStatement OUT_RAW ⟨some a, o⟩ temp [] 0).length = 3 := by
      simp [OutputStatement, hb, hw]
    have hl1 : (OutputStatement OUT_RAW ⟨none, o⟩ temp [] 0).length = 1 := by
      simp [OutputStatement, hb, hw]
    have ht := INSTRUCTION_MAP_handlers d hd (by rw [hdo]; exact hb) (by rw [hdo]; exact hw)
    rw [hdo] at ht
    rcases ht with ⟨h0, ha, hj⟩ | ⟨h1, ha, inst, hn, hi⟩ | ⟨h2, ha, inst, hn, hi⟩
      | ⟨h3, ha, inst, hn, hi⟩
    · have hf := next_j_inst_fetch s o (o % 16)
      rw [← hc.1 h0] at hf
      refine Or.inl ⟨h0, ha, ?_, hp3, hl3, hf.1, hf.2⟩
      rw [hc.1 h0, hj]
    · have hnext : Sim.next s = Clocked 21 (inst (Fetched o s).fetchOperand) := by
        rw [hc.2.1 h1]
        simp only [Sim.ls_inst, hi]
      have hf := ls_class_fetch _ inst hi (Fetched o s).fetchOperand
      refine Or.inr (Or.inl ⟨h1, ha, ⟨inst, hn, hnext⟩, hp3, hl3, ?_, ?_⟩)
      · rw [hnext]
        exact hf.2.trans hw3
      · rw [hnext]
        exact hf.1.trans hp3
    · have hnext : Sim.next s = Clocked 9 (inst (Fetched o s)) := by
        rw [hc.2.2.1 h2]
        simp only [Sim.math_inst, hi]
      have hf := math_class_fetch _ inst hi (Fetched o s)
      refine Or.inr (Or.inr ⟨Or.inl h2, ha, ⟨inst, hn, hnext⟩, rfl, hl1, ?_, fun _ => ?_⟩)
      · rw [hnext]
        exact hf.2
      · rw [hnext]
        exact hf.1
    · have hnext : Sim.next s = Clocked 9 (inst (Fetched o s)) := by
        rw [hc.2.2.2.1 h3]
        simp only [Sim.misc_inst, hi]
      have hf := misc_class_fetch _ inst hi (Fetched o s)
      refine Or.inr (Or.inr ⟨Or.inr h3, ha, ⟨inst, hn, hnext⟩, rfl, hl1, ?_, fun hr => ?_⟩)
      · rw [hnext]
        exact hf.2
      · rw [hnext]
        exact hf.1 (by omega)

/-- Claim C22, witness: `sta $100`, the bytes 18 01 00, at address 0 of the
initial state, and the call `c $1234`, the bytes 08 12 34: the operand is
fetched, the call is taken and `regxl` holds the return address 3. -/
theorem next_decodes_witness :
    (Sim.initial [0x18, 0x01, 0x00]).memory (Sim.initial [0x18, 0x01, 0x00]).preg = 0x18
      ∧ ((∃ d ∈ INSTRUCTION_MAP, d.opcode = 0x18 ∧ d.opcode ≠ BYTE_OP ∧ d.opcode ≠ WORD_OP)
        ↔ (Sim.next (Sim.initial [0x18, 0x01, 0x00])).stderr
          = (Sim.initial [0x18, 0x01, 0x00]).stderr)
      ∧ (Sim.next (Sim.initial [0x18, 0x01, 0x00])).memory 0x100 = 0xFF
      ∧ (Sim.next (Sim.initial [0x18, 0x01, 0x00])).preg = 3
      ∧ (Sim.next (Sim.initial [0x18, 0x01, 0x00])).operand = 0x100
      ∧ OperandWord (Sim.initial [0x08, 0x12, 0x34]) = 0x1234
      ∧ (Sim.next (Sim.initial [0x08, 0x12, 0x34])).operand = 0x1234
      ∧ (Sim.next (Sim.initial [0x08, 0x12, 0x34])).preg = 0x1234
      ∧ (Sim.next (Sim.initial [0x08, 0x12, 0x34])).regxl = 3 :=
  ⟨by decide, (next_decodes (Sim.initial [0x18, 0x01, 0x00]) 0x18 (by decide) (by decide)).1,
    by decide, by decide, by decide, by decide, by decide, by decide, by decide⟩

end Q1
